import Mathlib

/-!
# Verification of `skimage.restoration.inpainting.inpaint_fmm`

This file gives a shallow embedding of the `inpaint_fmm` wrapper
(`src/skimage/restoration/inpainting.py`) together with a model of the
Cython core `_inpaint_fmm` and of `img_as_ubyte`, which are not part of
the source tree and are therefore modelled from the specification.

Machine floating point (`np.double`) is modelled by exact rational
arithmetic.  Because the rational numbers of the ambient library do not
reduce inside the kernel, we implement an executable fraction type
`Frac` (integer numerator, positive integer denominator) together with a
semantic embedding `Frac.val : Frac → ℚ` and homomorphism lemmas, so
that all model computations are kernel-executable while proofs can be
carried out over `ℚ`.
-/

namespace Inpaint

/-- An executable rational: numerator, positive denominator.  Models the
`double` values of the Python/NumPy code exactly (no rounding). -/
structure Frac where
  num : ℤ
  den : ℤ
  dpos : 0 < den

namespace Frac

theorem ext' : ∀ {x y : Frac}, x.num = y.num → x.den = y.den → x = y
  | ⟨_, _, _⟩, ⟨_, _, _⟩, rfl, rfl => rfl

instance : DecidableEq Frac := fun x y =>
  decidable_of_iff (x.num = y.num ∧ x.den = y.den)
    ⟨fun ⟨h1, h2⟩ => ext' h1 h2, fun h => by cases h; exact ⟨rfl, rfl⟩⟩

/-- The rational value of a fraction. -/
def val (x : Frac) : ℚ := (x.num : ℚ) / (x.den : ℚ)

def ofInt (n : ℤ) : Frac := ⟨n, 1, one_pos⟩

instance : OfNat Frac n := ⟨ofInt n⟩

def add (x y : Frac) : Frac :=
  ⟨x.num * y.den + y.num * x.den, x.den * y.den, mul_pos x.dpos y.dpos⟩

def neg (x : Frac) : Frac := ⟨-x.num, x.den, x.dpos⟩

def sub (x y : Frac) : Frac := add x (neg y)

def mul (x y : Frac) : Frac :=
  ⟨x.num * y.num, x.den * y.den, mul_pos x.dpos y.dpos⟩

def inv (x : Frac) : Frac :=
  if h : 0 < x.num then ⟨x.den, x.num, h⟩
  else if h' : x.num < 0 then ⟨-x.den, -x.num, by omega⟩
  else ofInt 0

def div (x y : Frac) : Frac := mul x (inv y)

def abs (x : Frac) : Frac := ⟨|x.num|, x.den, x.dpos⟩

/-- Boolean strict comparison (by cross multiplication). -/
def blt (x y : Frac) : Bool := decide (x.num * y.den < y.num * x.den)

/-- Boolean non-strict comparison (by cross multiplication). -/
def ble (x y : Frac) : Bool := decide (x.num * y.den ≤ y.num * x.den)

instance : Add Frac := ⟨add⟩
instance : Neg Frac := ⟨neg⟩
instance : Sub Frac := ⟨sub⟩
instance : Mul Frac := ⟨mul⟩
instance : Div Frac := ⟨div⟩

def fmin (x y : Frac) : Frac := if ble x y then x else y

def fmax (x y : Frac) : Frac := if ble x y then y else x

@[simp] theorem val_ofInt (n : ℤ) : (ofInt n).val = (n : ℚ) := by
  simp [val, ofInt]

@[simp] theorem val_zero : (0 : Frac).val = 0 := by
  show (ofInt 0).val = 0; simp

@[simp] theorem val_one : (1 : Frac).val = 1 := by
  show (ofInt 1).val = 1; simp

theorem den_ne (x : Frac) : ((x.den : ℚ)) ≠ 0 := by
  exact_mod_cast (ne_of_gt (by exact_mod_cast x.dpos : (0:ℚ) < (x.den : ℚ)))

@[simp] theorem val_add (x y : Frac) : (x + y).val = x.val + y.val := by
  show (add x y).val = _
  unfold val add
  push_cast
  rw [div_add_div _ _ (den_ne x) (den_ne y)]
  ring_nf

@[simp] theorem val_neg (x : Frac) : (-x).val = -x.val := by
  show (neg x).val = _
  unfold val neg
  push_cast
  ring

@[simp] theorem val_sub (x y : Frac) : (x - y).val = x.val - y.val := by
  show (add x (neg y)).val = _
  rw [show (add x (neg y)) = x + (-y) from rfl, val_add, val_neg]
  ring

@[simp] theorem val_mul (x y : Frac) : (x * y).val = x.val * y.val := by
  show (mul x y).val = _
  unfold val mul
  push_cast
  field_simp

theorem val_inv (x : Frac) : (inv x).val = x.val⁻¹ := by
  unfold inv
  rcases lt_trichotomy x.num 0 with h | h | h
  · rw [dif_neg (by omega), dif_pos h]
    unfold val
    push_cast
    rw [neg_div_neg_eq, inv_div]
  · rw [dif_neg (by omega), dif_neg (by omega)]
    rw [val_ofInt]
    unfold val
    rw [h]
    simp
  · rw [dif_pos h]
    unfold val
    rw [inv_div]

@[simp] theorem val_div (x y : Frac) : (x / y).val = x.val / y.val := by
  show (mul x (inv y)).val = _
  rw [show mul x (inv y) = x * (inv y) from rfl, val_mul, val_inv, div_eq_mul_inv]

@[simp] theorem val_abs (x : Frac) : (abs x).val = |x.val| := by
  unfold val abs
  push_cast
  rw [abs_div, abs_of_pos (show (0:ℚ) < (x.den : ℚ) by exact_mod_cast x.dpos)]

theorem blt_iff (x y : Frac) : blt x y = true ↔ x.val < y.val := by
  unfold blt val
  rw [decide_eq_true_iff]
  rw [div_lt_div_iff₀ (by exact_mod_cast x.dpos) (by exact_mod_cast y.dpos)]
  exact_mod_cast Iff.rfl

theorem ble_iff (x y : Frac) : ble x y = true ↔ x.val ≤ y.val := by
  unfold ble val
  rw [decide_eq_true_iff]
  rw [div_le_div_iff₀ (by exact_mod_cast x.dpos) (by exact_mod_cast y.dpos)]
  exact_mod_cast Iff.rfl

theorem blt_iff_not_ble (x y : Frac) : blt x y = true ↔ ¬ (ble y x = true) := by
  rw [blt_iff, ble_iff]
  exact ⟨not_le_of_lt, lt_of_not_le⟩

@[simp] theorem val_fmin (x y : Frac) : (fmin x y).val = min x.val y.val := by
  unfold fmin
  by_cases h : ble x y = true
  · rw [if_pos h, min_eq_left ((ble_iff x y).1 h)]
  · rw [if_neg h]
    have := lt_of_not_le (fun hc => h ((ble_iff x y).2 hc))
    rw [min_eq_right (le_of_lt this)]

@[simp] theorem val_fmax (x y : Frac) : (fmax x y).val = max x.val y.val := by
  unfold fmax
  by_cases h : ble x y = true
  · rw [if_pos h, max_eq_right ((ble_iff x y).1 h)]
  · rw [if_neg h]
    have := lt_of_not_le (fun hc => h ((ble_iff x y).2 hc))
    rw [max_eq_left (le_of_lt this)]

end Frac

/-- `np.round` (round half to even) of an exact rational, as an integer. -/
def nround (x : Frac) : ℤ :=
  let f := x.num.ediv x.den
  let r2 := 2 * (x.num - f * x.den)
  if r2 < x.den then f
  else if x.den < r2 then f + 1
  else if f.emod 2 = 0 then f else f + 1

/-- `np.clip(v, 0, 255)` on a single value. -/
def clip255 (x : Frac) : Frac := Frac.fmax 0 (Frac.fmin x 255)

/-- `.astype(np.uint8)` on an integer value (wrap-around modulo 256). -/
def toUint8 (n : ℤ) : ℕ := (n.emod 256).toNat

/-- C-style truncation toward zero of an exact rational, as applied by a
NumPy cast from float to an integer dtype. -/
def truncInt (x : Frac) : ℤ := x.num.tdiv x.den

/-- Cast of a mask entry into the `np.uint8` working mask
(`inpainted_mask[inner] = mask`): truncate toward zero, wrap mod 256. -/
def maskCast (x : Frac) : ℕ := ((truncInt x).emod 256).toNat

/-- NumPy dtypes that occur in the embedding. -/
inductive Dtype
  | uint8
  | float64
  | boolean
deriving DecidableEq

/-- A NumPy array: dtype, shape, and flat row-major data. -/
structure NdArray where
  dtype : Dtype
  shape : List ℕ
  data : List Frac
deriving DecidableEq

instance {ε α : Type} [DecidableEq ε] [DecidableEq α] : DecidableEq (Except ε α) := fun x y =>
  match x, y with
  | .ok a, .ok b =>
      if h : a = b then isTrue (by rw [h]) else isFalse (fun hc => h (by injection hc))
  | .error a, .error b =>
      if h : a = b then isTrue (by rw [h]) else isFalse (fun hc => h (by injection hc))
  | .ok _, .error _ => isFalse (fun hc => Except.noConfusion hc)
  | .error _, .ok _ => isFalse (fun hc => Except.noConfusion hc)

/-- Modelled from the spec: `img_as_ubyte` (imported from `skimage.util`,
whose implementation is not present in the source tree).  §1 of the spec
describes it as "image type/range conversion (e.g., float-to-8-bit
clamping and rounding)": an 8-bit image passes through unchanged; a
float image with values in `[0, 1]` is rescaled by 255 and rounded to
the nearest integer; a boolean image maps to `{0, 255}`.  The result
dtype is `uint8` and the shape is unchanged. -/
def img_as_ubyte (a : NdArray) : NdArray :=
  match a.dtype with
  | .uint8 => a
  | .float64 =>
      { dtype := .uint8, shape := a.shape,
        data := a.data.map (fun v => Frac.ofInt (nround (Frac.ofInt 255 * v))) }
  | .boolean =>
      { dtype := .uint8, shape := a.shape,
        data := a.data.map (fun v => if v = (0 : Frac) then (0 : Frac) else Frac.ofInt 255) }

theorem img_as_ubyte_shape (a : NdArray) : (img_as_ubyte a).shape = a.shape := by
  unfold img_as_ubyte
  cases a.dtype <;> rfl

theorem img_as_ubyte_dtype (a : NdArray) (h : a.dtype = .uint8) :
    img_as_ubyte a = a := by
  unfold img_as_ubyte
  rw [h]

/-! ## The Fast Marching inpainting core

Modelled from the spec: the Cython core `_inpaint_fmm`
(`skimage/restoration/_inpaint_fmm`, referenced but not present in the
source tree) is modelled from §3–§4 of the specification: per-pixel
state KNOWN/BAND/UNKNOWN, an upwind Eikonal solver, a narrow-band
min-priority queue (realised as min-scan with deterministic row-major
tie-break, as §4.3 and §9 allow), and the weighted-average pixel
synthesizer with directional, geometric-distance and level-set weights.
`sqrt` on doubles is modelled by a Newton over-approximation `ratSqrt`
on exact rationals. -/

/-- Pixel classification state (§3 of the spec). -/
inductive PState
  | KNOWN
  | BAND
  | UNKNOWN
deriving DecidableEq

/-- The grid & state store (§4.1): per-pixel state, arrival time and
intensity over an `H × W` grid. -/
structure Grid where
  H : ℕ
  W : ℕ
  state : ℕ → ℕ → PState
  time : ℕ → ℕ → Frac
  intensity : ℕ → ℕ → Frac

/-- One Newton step for the square root of `a`. -/
def newtonStep (a x : Frac) : Frac := (x + a / x) / 2

/-- `sqrt` model: four Newton steps from `max a 1`; an over-approximation
of the exact square root for positive `a`, and `0` for `a ≤ 0`. -/
def ratSqrt (a : Frac) : Frac :=
  if Frac.ble a 0 then 0
  else newtonStep a (newtonStep a (newtonStep a (newtonStep a (Frac.fmax a 1))))

/-- Small positive epsilon guarding denominators (§4.4). -/
def eps : Frac := ⟨1, 1000000, by norm_num⟩

/-- All coordinates of an `H × W` grid in row-major order. -/
def allCoords (H W : ℕ) : List (ℕ × ℕ) :=
  (List.range H).flatMap (fun i => (List.range W).map (fun j => (i, j)))

/-- The 4-connected in-bounds neighbors of `(i, j)` (§4.1). -/
def nbrs (H W i j : ℕ) : List (ℕ × ℕ) :=
  (if i + 1 < H then [(i + 1, j)] else []) ++
  (if 1 ≤ i then [(i - 1, j)] else []) ++
  (if j + 1 < W then [(i, j + 1)] else []) ++
  (if 1 ≤ j then [(i, j - 1)] else [])

/-- Arrival time of `(i, j)` if it is in bounds and resolved
(KNOWN or BAND), else `none` (§4.2: UNKNOWN has time `+∞`). -/
def resolvedTime (g : Grid) (i j : ℕ) : Option Frac :=
  if i < g.H ∧ j < g.W ∧ g.state i j ≠ PState.UNKNOWN then some (g.time i j) else none

/-- Minimum of two optional times (`none` = `+∞`). -/
def omin : Option Frac → Option Frac → Option Frac
  | some a, some b => some (Frac.fmin a b)
  | some a, none => some a
  | none, b => b

/-- Minimum resolved time among the two vertical neighbors (§4.2). -/
def axisV (g : Grid) (i j : ℕ) : Option Frac :=
  omin (if 1 ≤ i then resolvedTime g (i - 1) j else none) (resolvedTime g (i + 1) j)

/-- Minimum resolved time among the two horizontal neighbors (§4.2). -/
def axisH (g : Grid) (i j : ℕ) : Option Frac :=
  omin (if 1 ≤ j then resolvedTime g i (j - 1) else none) (resolvedTime g i (j + 1))

/-- The upwind Eikonal combination (§4.2): quadratic solve of
`(T-Tx)² + (T-Ty)² = 1` (root `≥ max`) when both axes contribute and
`|Tx - Ty| < 1`, single-axis fallback `min + 1` otherwise, `none` when
no axis has a resolved neighbor. -/
def eikCombine : Option Frac → Option Frac → Option Frac
  | none, none => none
  | some a, none => some (a + 1)
  | none, some b => some (b + 1)
  | some a, some b =>
      if Frac.blt (Frac.abs (a - b)) 1 then
        some ((a + b + ratSqrt (2 - (a - b) * (a - b))) / 2)
      else some (Frac.fmin a b + 1)

/-- The Eikonal solver at a coordinate (§4.2). -/
def solveEik (g : Grid) (i j : ℕ) : Option Frac :=
  eikCombine (axisV g i j) (axisH g i j)

/-- One component of the time-field gradient: central difference when
both opposite neighbors are resolved, one-sided otherwise, `0` when
neither is (§4.4). -/
def gradComp (tc : Frac) : Option Frac → Option Frac → Frac
  | some tm, some tp => (tp - tm) / 2
  | none, some tp => tp - tc
  | some tm, none => tc - tm
  | none, none => 0

/-- The estimated (normalized) time-field gradient at `(i, j)` (§4.4). -/
def timeGrad (g : Grid) (i j : ℕ) : Frac × Frac :=
  let gv := gradComp (g.time i j)
      (if 1 ≤ i then resolvedTime g (i - 1) j else none) (resolvedTime g (i + 1) j)
  let gh := gradComp (g.time i j)
      (if 1 ≤ j then resolvedTime g i (j - 1) else none) (resolvedTime g i (j + 1))
  let n := ratSqrt (gv * gv + gh * gh)
  (gv / (n + eps), gh / (n + eps))

/-- The eligible synthesis neighborhood (§4.4): the square window of
radius `r` around `(i, j)`, in bounds, without the center, restricted to
resolved (KNOWN or BAND) pixels. -/
def synthWindow (g : Grid) (r i j : ℕ) : List (ℕ × ℕ) :=
  ((List.range (2 * r + 1)).flatMap (fun a =>
    (List.range (2 * r + 1)).map (fun b => ((i : ℤ) + a - r, (j : ℤ) + b - r)))).filterMap
    (fun c =>
      if 0 ≤ c.1 ∧ c.1 < (g.H : ℤ) ∧ 0 ≤ c.2 ∧ c.2 < (g.W : ℤ) ∧
          ¬(c.1 = (i : ℤ) ∧ c.2 = (j : ℤ)) ∧
          g.state c.1.toNat c.2.toNat ≠ PState.UNKNOWN then
        some (c.1.toNat, c.2.toNat)
      else none)

/-- The combined synthesis weight of neighbor `(k, l)` for target
`(i, j)` (§4.4): directional × geometric-distance × level-set weight.
Every factor is kept strictly positive: following the spec's epsilon
rule, `eps` pads each denominator, and also floors the directional
factor so that a gradient orthogonal to every neighbor cannot produce a
zero total weight (§7 forbids a silent degenerate result). -/
def synthWeight (g : Grid) (i j k l : ℕ) : Frac :=
  let gr := timeGrad g i j
  let dx : Frac := Frac.ofInt ((k : ℤ) - (i : ℤ))
  let dy : Frac := Frac.ofInt ((l : ℤ) - (j : ℤ))
  let lenr := ratSqrt (dx * dx + dy * dy)
  let dir := (Frac.abs (dx * gr.1 + dy * gr.2) + eps) / (lenr + eps)
  let dst := 1 / (lenr + eps)
  let lev := 1 / (1 + Frac.abs (g.time k l - g.time i j))
  dir * dst * lev

/-- The pixel synthesizer (§4.4): weighted average of the eligible
neighborhood's intensities; `none` when no eligible neighbor exists
(internal consistency fault, §7). -/
def synthPixel (g : Grid) (r i j : ℕ) : Option Frac :=
  match synthWindow g r i j with
  | [] => none
  | cells =>
      let acc := cells.foldl (fun (p : Frac × Frac) c =>
        let w := synthWeight g i j c.1 c.2
        (p.1 + w, p.2 + w * g.intensity c.1 c.2)) (0, 0)
      some (acc.2 / acc.1)

/-- Internal faults of the core (§7): a consistency fault (solver or
synthesizer invoked with no resolved neighbor), or exhaustion of the
(sufficient) fuel bound of the marching loop. -/
inductive CoreFault
  | consistency
  | fuelOut
deriving DecidableEq

def setState (g : Grid) (i j : ℕ) (s : PState) : Grid :=
  { g with state := fun a b => if a = i ∧ b = j then s else g.state a b }

def setTime (g : Grid) (i j : ℕ) (t : Frac) : Grid :=
  { g with time := fun a b => if a = i ∧ b = j then t else g.time a b }

def setIntensity (g : Grid) (i j : ℕ) (v : Frac) : Grid :=
  { g with intensity := fun a b => if a = i ∧ b = j then v else g.intensity a b }

/-- Turn an UNKNOWN pixel into a BAND pixel (§4.5 steps 1 and 2d):
compute its arrival time with the Eikonal solver, then synthesize its
provisional intensity (§3: a BAND pixel's intensity holds the last
computed synthesized value). -/
def makeBand (r : ℕ) (g : Grid) (i j : ℕ) : Except CoreFault Grid :=
  match solveEik g i j with
  | none => .error .consistency
  | some t =>
      let g1 := setTime (setState g i j .BAND) i j t
      match synthPixel g1 r i j with
      | none => .error .consistency
      | some v => .ok (setIntensity g1 i j v)

/-- One step of the minimum-scan of the narrow band. -/
def popFold (g : Grid) (best : Option (ℕ × ℕ)) (c : ℕ × ℕ) : Option (ℕ × ℕ) :=
  if g.state c.1 c.2 = PState.BAND then
    match best with
    | none => some c
    | some b => if Frac.blt (g.time c.1 c.2) (g.time b.1 b.2) then some c else best
  else best

/-- Extract the minimum-time BAND pixel, ties broken by row-major
coordinate order (§4.3); `none` when the band is empty. -/
def popMin (g : Grid) : Option (ℕ × ℕ) :=
  (allCoords g.H g.W).foldl (popFold g) none

/-- Update one neighbor of a just-finalized pixel (§4.5 steps 2d/2e):
an UNKNOWN neighbor becomes BAND; a BAND neighbor's time is recomputed
and lowered if the new estimate is smaller; a KNOWN neighbor is left
untouched. -/
def processNbr (r : ℕ) (g : Grid) (c : ℕ × ℕ) : Except CoreFault Grid :=
  match g.state c.1 c.2 with
  | .UNKNOWN => makeBand r g c.1 c.2
  | .BAND =>
      match solveEik g c.1 c.2 with
      | none => .error .consistency
      | some t =>
          .ok (if Frac.blt t (g.time c.1 c.2) then setTime g c.1 c.2 t else g)
  | .KNOWN => .ok g

/-- One iteration of the marching loop body after the pop (§4.5 steps
2b–2e): finalize the popped pixel, then update its 4-neighbors. -/
def marchStep (r : ℕ) (g : Grid) (i j : ℕ) : Except CoreFault Grid :=
  (nbrs g.H g.W i j).foldlM (processNbr r) (setState g i j .KNOWN)

/-- The marching loop (§4.5 step 2), with fuel (each pop finalizes one
pixel, so `H*W` pops always suffice).  Also returns the pop trace: the
popped coordinates with their finalized arrival times, in pop order. -/
def march (r : ℕ) : ℕ → Grid → List (ℕ × ℕ × Frac) → Except CoreFault (Grid × List (ℕ × ℕ × Frac))
  | 0, g, acc =>
      match popMin g with
      | none => .ok (g, acc.reverse)
      | some _ => .error .fuelOut
  | fuel + 1, g, acc =>
      match popMin g with
      | none => .ok (g, acc.reverse)
      | some c =>
          match marchStep r g c.1 c.2 with
          | .error e => .error e
          | .ok g' => march r fuel g' ((c.1, c.2, g.time c.1 c.2) :: acc)

/-- The initial grid (§4.1/§4.5 step 1): mask-zero pixels are KNOWN with
time 0 and the given intensity; masked pixels are UNKNOWN. -/
def initGrid (H W : ℕ) (img : ℕ → ℕ → Frac) (msk : ℕ → ℕ → ℕ) : Grid :=
  { H := H, W := W,
    state := fun i j => if msk i j ≠ 0 then PState.UNKNOWN else PState.KNOWN,
    time := fun _ _ => 0,
    intensity := img }

/-- One candidate of §4.5 step 1: band the pixel if it is UNKNOWN and
4-adjacent to a KNOWN pixel. -/
def initBandStep (r : ℕ) (g : Grid) (c : ℕ × ℕ) : Except CoreFault Grid :=
  if g.state c.1 c.2 = PState.UNKNOWN ∧
      (nbrs g.H g.W c.1 c.2).any (fun n => g.state n.1 n.2 = PState.KNOWN) then
    makeBand r g c.1 c.2
  else .ok g

/-- §4.5 step 1: every UNKNOWN pixel 4-adjacent to a KNOWN pixel becomes
a BAND pixel (in row-major order). -/
def initBand (r : ℕ) (g0 : Grid) : Except CoreFault Grid :=
  (allCoords g0.H g0.W).foldlM (initBandStep r) g0

/-- Modelled from the spec: the core `_inpaint_fmm` with its pop trace
exposed.  Returns the final grid and the pop sequence. -/
def inpaint_fmm_core_trace (H W : ℕ) (img : ℕ → ℕ → Frac) (msk : ℕ → ℕ → ℕ)
    (r : ℕ) : Except CoreFault (Grid × List (ℕ × ℕ × Frac)) := do
  let g1 ← initBand r (initGrid H W img msk)
  march r (H * W) g1 []

/-- Modelled from the spec: the core `_inpaint_fmm`
(`from ._inpaint_fmm import _inpaint_fmm`, absent from the source tree):
mutates the padded working intensity array in place; here the final
intensity field is returned. -/
def inpaint_fmm_core (H W : ℕ) (img : ℕ → ℕ → Frac) (msk : ℕ → ℕ → ℕ)
    (r : ℕ) : Except CoreFault (ℕ → ℕ → Frac) :=
  (inpaint_fmm_core_trace H W img msk r).map (fun p => p.1.intensity)

/-! ## The wrapper `inpaint_fmm` (src/skimage/restoration/inpainting.py) -/

/-- The `ValueError`s that `inpaint_fmm` can raise, identified by the
`raise` site, plus the internal faults of the (spec-modelled) core. -/
inductive PyErr
  | shapeMismatch
  | badRadius
  | unpackMismatch
  | internal (f : CoreFault)
deriving DecidableEq

/-- Read a 2-D array (of trailing dimension `cols`) as a function, flat
row-major indexing. -/
def arrFun (a : NdArray) (cols : ℕ) : ℕ → ℕ → Frac :=
  fun i j => a.data.getD (i * cols + j) 0

/-- Lines 78/85: `inpainted = np.zeros((rows+2, cols+2), np.double)`;
`inpainted[1:-1, 1:-1] = image`. -/
def padImage (rows cols : ℕ) (f : ℕ → ℕ → Frac) : ℕ → ℕ → Frac :=
  fun i j => if 1 ≤ i ∧ i ≤ rows ∧ 1 ≤ j ∧ j ≤ cols then f (i - 1) (j - 1) else 0

/-- Lines 79/86: `inpainted_mask = np.zeros((rows+2, cols+2), np.uint8)`;
`inpainted_mask[1:-1, 1:-1] = mask`. -/
def padMask (rows cols : ℕ) (f : ℕ → ℕ → Frac) : ℕ → ℕ → ℕ :=
  fun i j => if 1 ≤ i ∧ i ≤ rows ∧ 1 ≤ j ∧ j ≤ cols then maskCast (f (i - 1) (j - 1)) else 0

/-- Lines 91–94: `np.clip(inpainted, 0, 255, inpainted)`;
`np.round(inpainted[1:-1, 1:-1]).astype(np.uint8)`. -/
def postProcess (rows cols : ℕ) (out : ℕ → ℕ → Frac) : NdArray :=
  { dtype := .uint8, shape := [rows, cols],
    data := (List.range rows).flatMap (fun i => (List.range cols).map (fun j =>
      Frac.ofInt ((toUint8 (nround (clip255 (out (i + 1) (j + 1)))) : ℕ)))) }

/-- `inpaint_fmm(image, mask, radius)` — the wrapper of
`src/skimage/restoration/inpainting.py`, lines 69–96: parameter checks,
`img_as_ubyte` conversion, `(rows, cols)` unpacking (a `ValueError` when
the converted image is not 2-D), zero-padding of image and mask by a
1-pixel border, the core call, clipping, rounding, and stripping the
border. -/
def inpaint_fmm (image mask : NdArray) (radius : ℤ) : Except PyErr NdArray :=
  if image.shape ≠ mask.shape then .error .shapeMismatch
  else if radius < 1 then .error .badRadius
  else
    match (img_as_ubyte image).shape with
    | [rows, cols] =>
        match inpaint_fmm_core (rows + 2) (cols + 2)
            (padImage rows cols (arrFun (img_as_ubyte image) cols))
            (padMask rows cols (arrFun mask cols)) radius.toNat with
        | .error f => .error (.internal f)
        | .ok out => .ok (postProcess rows cols out)
    | _ => .error .unpackMismatch

/-! ## Wrapper-level lemmas -/

/-- On a shape-matching 2-D input with `radius ≥ 1`, `inpaint_fmm` is
exactly the pipeline: pad the converted image and the mask, run the
core, clip, round and strip the border. -/
theorem inpaint_fmm_valid_eq (image mask : NdArray) (radius : ℤ) (rows cols : ℕ)
    (hs : image.shape = mask.shape) (hr : 1 ≤ radius) (h2 : image.shape = [rows, cols]) :
    inpaint_fmm image mask radius =
      ((inpaint_fmm_core (rows + 2) (cols + 2)
          (padImage rows cols (arrFun (img_as_ubyte image) cols))
          (padMask rows cols (arrFun mask cols)) radius.toNat).map
        (postProcess rows cols)).mapError PyErr.internal := by
  unfold inpaint_fmm
  rw [if_neg (by simp [hs]), if_neg (by omega)]
  have h8 : (img_as_ubyte image).shape = [rows, cols] := by rw [img_as_ubyte_shape, h2]
  rw [h8]
  cases hcore : inpaint_fmm_core (rows + 2) (cols + 2)
      (padImage rows cols (arrFun (img_as_ubyte image) cols))
      (padMask rows cols (arrFun mask cols)) radius.toNat <;>
    simp only [hcore, Except.map, Except.mapError]

/-- On valid parameters, neither of the two parameter-check errors is
raised. -/
theorem inpaint_fmm_valid_no_param_error (image mask : NdArray) (radius : ℤ)
    (hs : image.shape = mask.shape) (hr : 1 ≤ radius) :
    inpaint_fmm image mask radius ≠ .error .shapeMismatch ∧
    inpaint_fmm image mask radius ≠ .error .badRadius ∧
    inpaint_fmm image mask radius ≠ .error .unpackMismatch ∨
    inpaint_fmm image mask radius = .error .unpackMismatch ∧
    inpaint_fmm image mask radius ≠ .error .shapeMismatch ∧
    inpaint_fmm image mask radius ≠ .error .badRadius := by
  unfold inpaint_fmm
  rw [if_neg (by simp [hs]), if_neg (by omega)]
  cases hsh : (img_as_ubyte image).shape with
  | nil => right; exact ⟨rfl, by simp, by simp⟩
  | cons a t =>
    cases t with
    | nil => right; exact ⟨rfl, by simp, by simp⟩
    | cons b t2 =>
      cases t2 with
      | nil =>
        left
        cases hcore : inpaint_fmm_core (a + 2) (b + 2)
            (padImage a b (arrFun (img_as_ubyte image) b))
            (padMask a b (arrFun mask b)) radius.toNat <;> simp [hcore]
      | cons c t3 => right; exact ⟨rfl, by simp, by simp⟩

/-- C2: `inpaint_fmm` raises one of its two parameter-validation
`ValueError`s exactly when the shapes differ or the radius is
non-positive; with matching shapes and `radius ≥ 1` the parameter checks
raise nothing. -/
theorem inpaint_fmm_param_error_iff (image mask : NdArray) (radius : ℤ) :
    (inpaint_fmm image mask radius = .error .shapeMismatch ∨
     inpaint_fmm image mask radius = .error .badRadius) ↔
    (image.shape ≠ mask.shape ∨ radius < 1) := by
  constructor
  · intro h
    by_contra hc
    push_neg at hc
    have h2 := inpaint_fmm_valid_no_param_error image mask radius hc.1 (by omega)
    rcases h2 with ⟨h2a, h2b, _⟩ | ⟨_, h2a, h2b⟩ <;>
      rcases h with h | h
    · exact h2a h
    · exact h2b h
    · exact h2a h
    · exact h2b h
  · intro h
    by_cases hs : image.shape = mask.shape
    · have hr : radius < 1 := by
        rcases h with h | h
        · exact absurd hs h
        · exact h
      right
      unfold inpaint_fmm
      rw [if_neg (by simp [hs]), if_pos hr]
    · left
      unfold inpaint_fmm
      rw [if_pos hs]

/-- C6: on a non-2-D image or mask, `inpaint_fmm` raises one of its
three pre-core `ValueError`s — a shape mismatch, a radius error, or the
`rows, cols = image.shape` unpacking error — and in particular the core
(marching) is never invoked and no output array is produced. -/
theorem inpaint_fmm_non2d_error (image mask : NdArray) (radius : ℤ)
    (h : image.shape.length ≠ 2 ∨ mask.shape.length ≠ 2) :
    inpaint_fmm image mask radius = .error .shapeMismatch ∨
    inpaint_fmm image mask radius = .error .badRadius ∨
    inpaint_fmm image mask radius = .error .unpackMismatch := by
  by_cases hs : image.shape = mask.shape
  · by_cases hr : radius < 1
    · right; left
      unfold inpaint_fmm
      rw [if_neg (by simp [hs]), if_pos hr]
    · right; right
      have hlen : image.shape.length ≠ 2 := by
        rcases h with h | h
        · exact h
        · rw [hs]; exact h
      unfold inpaint_fmm
      rw [if_neg (by simp [hs]), if_neg hr]
      have h8 : (img_as_ubyte image).shape = image.shape := img_as_ubyte_shape image
      cases hsh : (img_as_ubyte image).shape with
      | nil => rfl
      | cons a t =>
        cases t with
        | nil => rfl
        | cons b t2 =>
          cases t2 with
          | nil =>
            exfalso
            apply hlen
            rw [← h8, hsh]
            rfl
          | cons c t3 => rfl
  · left
    unfold inpaint_fmm
    rw [if_pos hs]

theorem postProcess_shape (rows cols : ℕ) (out : ℕ → ℕ → Frac) :
    (postProcess rows cols out).shape = [rows, cols] := rfl

theorem toUint8_le (n : ℤ) : toUint8 n ≤ 255 := by
  unfold toUint8
  have h2 : n.emod 256 < 256 := Int.emod_lt_of_pos n (by norm_num)
  omega

theorem postProcess_length (rows cols : ℕ) (out : ℕ → ℕ → Frac) :
    (postProcess rows cols out).data.length = rows * cols := by
  unfold postProcess
  simp [List.length_flatMap, Function.comp]
  induction rows with
  | zero => simp
  | succ n ih => rw [List.range_succ]; simp [ih]; ring

theorem postProcess_mem (rows cols : ℕ) (out : ℕ → ℕ → Frac) :
    ∀ v ∈ (postProcess rows cols out).data, ∃ n : ℕ, n ≤ 255 ∧ v = Frac.ofInt n := by
  intro v hv
  unfold postProcess at hv
  simp only [List.mem_flatMap, List.mem_map] at hv
  obtain ⟨i, _, j, _, hj⟩ := hv
  exact ⟨toUint8 (nround (clip255 (out (i + 1) (j + 1)))), toUint8_le _, hj.symm⟩

/-- A successful call factors through the core and `postProcess`. -/
theorem inpaint_fmm_ok_elim (image mask : NdArray) (radius : ℤ)
    (rows cols : ℕ) (h2 : image.shape = [rows, cols]) (out : NdArray)
    (hok : inpaint_fmm image mask radius = .ok out) :
    ∃ co, inpaint_fmm_core (rows + 2) (cols + 2)
        (padImage rows cols (arrFun (img_as_ubyte image) cols))
        (padMask rows cols (arrFun mask cols)) radius.toNat = .ok co ∧
      out = postProcess rows cols co := by
  have hs : image.shape = mask.shape := by
    by_contra hs
    unfold inpaint_fmm at hok
    rw [if_pos hs] at hok
    exact Except.noConfusion hok
  have hr : 1 ≤ radius := by
    by_contra hr
    unfold inpaint_fmm at hok
    rw [if_neg (by simp [hs]), if_pos (by omega)] at hok
    exact Except.noConfusion hok
  rw [inpaint_fmm_valid_eq image mask radius rows cols hs hr h2] at hok
  cases hcore : inpaint_fmm_core (rows + 2) (cols + 2)
      (padImage rows cols (arrFun (img_as_ubyte image) cols))
      (padMask rows cols (arrFun mask cols)) radius.toNat with
  | error f =>
    rw [hcore] at hok
    exact Except.noConfusion hok
  | ok co =>
    rw [hcore] at hok
    simp only [Except.map, Except.mapError, Except.ok.injEq] at hok
    subst hok
    exact ⟨co, rfl, rfl⟩

/-- C4: a successful `inpaint_fmm` call returns the un-padded `R × C`
shape, every entry is an integer in `[0, 255]`, and the data is exactly
the core's padded result clipped to `[0, 255]`, rounded, cast to uint8
and stripped of the 1-pixel border (`postProcess`). -/
theorem inpaint_fmm_output_shape_range (image mask : NdArray) (radius : ℤ)
    (rows cols : ℕ) (h2 : image.shape = [rows, cols]) (out : NdArray)
    (hok : inpaint_fmm image mask radius = .ok out) :
    out.shape = [rows, cols] ∧ out.data.length = rows * cols ∧
    (∀ v ∈ out.data, ∃ n : ℕ, n ≤ 255 ∧ v = Frac.ofInt n) ∧
    ∃ co, inpaint_fmm_core (rows + 2) (cols + 2)
        (padImage rows cols (arrFun (img_as_ubyte image) cols))
        (padMask rows cols (arrFun mask cols)) radius.toNat = .ok co ∧
      out = postProcess rows cols co := by
  obtain ⟨co, hco, rfl⟩ := inpaint_fmm_ok_elim image mask radius rows cols h2 out hok
  exact ⟨postProcess_shape rows cols co, postProcess_length rows cols co,
    postProcess_mem rows cols co, co, hco, rfl⟩

/-- C3: on a valid `R × C` input the wrapper hands the core an
`(R+2) × (C+2)` working grid: the interior of the padded image/mask is
the converted input image and (uint8-cast) mask, and the whole 1-pixel
border ring of the padded mask is 0 (KNOWN), so no unknown pixel of the
padded grid touches the grid edge. -/
theorem inpaint_fmm_padded_grid (image mask : NdArray) (radius : ℤ) (rows cols : ℕ)
    (hs : image.shape = mask.shape) (hr : 1 ≤ radius) (h2 : image.shape = [rows, cols]) :
    (inpaint_fmm image mask radius =
      ((inpaint_fmm_core (rows + 2) (cols + 2)
          (padImage rows cols (arrFun (img_as_ubyte image) cols))
          (padMask rows cols (arrFun mask cols)) radius.toNat).map
        (postProcess rows cols)).mapError PyErr.internal) ∧
    (∀ i j, i < rows → j < cols →
      padImage rows cols (arrFun (img_as_ubyte image) cols) (i + 1) (j + 1) =
        arrFun (img_as_ubyte image) cols i j ∧
      padMask rows cols (arrFun mask cols) (i + 1) (j + 1) =
        maskCast (arrFun mask cols i j)) ∧
    (∀ i j, (i = 0 ∨ i = rows + 1 ∨ j = 0 ∨ j = cols + 1) →
      padMask rows cols (arrFun mask cols) i j = 0) := by
  refine ⟨inpaint_fmm_valid_eq image mask radius rows cols hs hr h2, ?_, ?_⟩
  · intro i j hi hj
    constructor
    · unfold padImage
      rw [if_pos (by omega)]
      simp
    · unfold padMask
      rw [if_pos (by omega)]
      simp
  · intro i j hij
    unfold padMask
    rw [if_neg (by omega)]

/-- A concrete 1×1 uint8 image with the single value 5. -/
def exImage1 : NdArray := { dtype := .uint8, shape := [1, 1], data := [Frac.ofInt 5] }

/-- A concrete 1×1 all-true boolean mask. -/
def exMaskAll1 : NdArray := { dtype := .boolean, shape := [1, 1], data := [Frac.ofInt 1] }

/-- C5 counterexample: a mask that is true everywhere is not rejected:
`inpaint_fmm` proceeds and returns a defined output (here the zero
intensity synthesized from the KNOWN padding border), not an
invalid-input error. -/
theorem inpaint_fmm_full_mask_cex :
    inpaint_fmm exImage1 exMaskAll1 5 =
      .ok { dtype := .uint8, shape := [1, 1], data := [Frac.ofInt 0] } := by decide

/-- C5 amended: an all-true mask is accepted, not rejected: no
invalid-input `ValueError` is raised for it; the parameter checks pass
and the core operates on the padded grid whose 1-pixel border ring is
KNOWN (graceful handling rather than rejection). -/
theorem inpaint_fmm_full_mask_no_reject (image mask : NdArray) (radius : ℤ)
    (rows cols : ℕ) (hs : image.shape = mask.shape) (hr : 1 ≤ radius)
    (h2 : image.shape = [rows, cols])
    (_hmask : ∀ v ∈ mask.data, v = Frac.ofInt 1) :
    inpaint_fmm image mask radius ≠ .error .shapeMismatch ∧
    inpaint_fmm image mask radius ≠ .error .badRadius ∧
    inpaint_fmm image mask radius ≠ .error .unpackMismatch := by
  rw [inpaint_fmm_valid_eq image mask radius rows cols hs hr h2]
  cases hcore : inpaint_fmm_core (rows + 2) (cols + 2)
      (padImage rows cols (arrFun (img_as_ubyte image) cols))
      (padMask rows cols (arrFun mask cols)) radius.toNat <;>
    simp [hcore, Except.map, Except.mapError]

/-! ## Value-level analysis of the Newton square root and the Eikonal
combination -/

@[simp] theorem Frac.val_natCast (n : ℕ) :
    (no_index (OfNat.ofNat n) : Frac).val = (OfNat.ofNat n : ℚ) := by
  show (Frac.ofInt n).val = _
  rw [Frac.val_ofInt]
  push_cast
  rfl

theorem val_newtonStep (a x : Frac) :
    (newtonStep a x).val = (x.val + a.val / x.val) / 2 := by
  unfold newtonStep
  simp

theorem newtonStep_pos (a x : Frac) (ha : 0 < a.val) (hx : 0 < x.val) :
    0 < (newtonStep a x).val := by
  rw [val_newtonStep]
  positivity

theorem newtonStep_sq_ge (a x : Frac) (_ha : 0 < a.val) (hx : 0 < x.val) :
    a.val ≤ (newtonStep a x).val ^ 2 := by
  rw [val_newtonStep]
  have hq : a.val = a.val / x.val * x.val := by field_simp
  nlinarith [sq_nonneg (x.val - a.val / x.val)]

theorem newtonStep_le_self (a x : Frac) (hx : 0 < x.val) (hsq : a.val ≤ x.val ^ 2) :
    (newtonStep a x).val ≤ x.val := by
  rw [val_newtonStep]
  have h1 : a.val / x.val ≤ x.val := by
    rw [div_le_iff₀ hx]
    nlinarith
  linarith

theorem ratSqrt_eval (a : Frac) (ha : 0 < a.val) :
    ratSqrt a =
      newtonStep a (newtonStep a (newtonStep a (newtonStep a (Frac.fmax a 1)))) := by
  unfold ratSqrt
  rw [if_neg]
  intro hc
  rw [Frac.ble_iff] at hc
  rw [Frac.val_zero] at hc
  linarith

theorem ratSqrt_pos (a : Frac) (ha : 0 < a.val) : 0 < (ratSqrt a).val := by
  rw [ratSqrt_eval a ha]
  have h0 : 0 < (Frac.fmax a 1).val := by
    rw [Frac.val_fmax]
    have : (1 : Frac).val = 1 := Frac.val_one
    rw [this]
    exact lt_max_of_lt_right one_pos
  exact newtonStep_pos _ _ ha (newtonStep_pos _ _ ha (newtonStep_pos _ _ ha
    (newtonStep_pos _ _ ha h0)))

theorem ratSqrt_sq_ge (a : Frac) (ha : 0 < a.val) : a.val ≤ (ratSqrt a).val ^ 2 := by
  rw [ratSqrt_eval a ha]
  have h0 : 0 < (Frac.fmax a 1).val := by
    rw [Frac.val_fmax, Frac.val_one]
    exact lt_max_of_lt_right one_pos
  exact newtonStep_sq_ge _ _ ha (newtonStep_pos _ _ ha (newtonStep_pos _ _ ha
    (newtonStep_pos _ _ ha h0)))

theorem ratSqrt_nonneg (a : Frac) : 0 ≤ (ratSqrt a).val := by
  by_cases ha : 0 < a.val
  · exact le_of_lt (ratSqrt_pos a ha)
  · unfold ratSqrt
    rw [if_pos]
    · rw [Frac.val_zero]
    · rw [Frac.ble_iff, Frac.val_zero]
      linarith

theorem ratSqrt_ge_abs (a : Frac) (c : ℚ) (hc : c ^ 2 ≤ a.val) :
    |c| ≤ (ratSqrt a).val := by
  by_cases ha : 0 < a.val
  · have h1 := ratSqrt_sq_ge a ha
    have h2 := ratSqrt_nonneg a
    nlinarith [sq_abs c, abs_nonneg c]
  · have hc0 : c = 0 := by nlinarith [sq_nonneg c]
    rw [hc0, abs_zero]
    exact ratSqrt_nonneg a

theorem ratSqrt_le_half (a : Frac) (ha : 1 ≤ a.val) :
    (ratSqrt a).val ≤ (a.val + 1) / 2 := by
  have ha0 : 0 < a.val := lt_of_lt_of_le one_pos ha
  rw [ratSqrt_eval a ha0]
  have hx0 : (Frac.fmax a 1).val = a.val := by
    rw [Frac.val_fmax, Frac.val_one]
    exact max_eq_left ha
  have hx1 : (newtonStep a (Frac.fmax a 1)).val = (a.val + 1) / 2 := by
    rw [val_newtonStep, hx0]
    rw [div_self (ne_of_gt ha0)]
  have h1pos : 0 < (newtonStep a (Frac.fmax a 1)).val := by
    rw [hx1]; linarith
  have h1sq : a.val ≤ (newtonStep a (Frac.fmax a 1)).val ^ 2 := by
    apply newtonStep_sq_ge _ _ ha0
    rw [hx0]; exact ha0
  have h2le := newtonStep_le_self _ _ h1pos h1sq
  have h2pos := newtonStep_pos a _ ha0 h1pos
  have h2sq := newtonStep_sq_ge a _ ha0 h1pos
  have h3le := newtonStep_le_self _ _ h2pos h2sq
  have h3pos := newtonStep_pos a _ ha0 h2pos
  have h3sq := newtonStep_sq_ge a _ ha0 h2pos
  have h4le := newtonStep_le_self _ _ h3pos h3sq
  rw [hx1] at h2le
  linarith

/-- The quadratic root of the Eikonal combination dominates both inputs
when `|a - b| < 1`. -/
theorem eik_root_ge_max (a b : Frac) (hd : |a.val - b.val| < 1) :
    max a.val b.val ≤ ((a + b + ratSqrt (2 - (a - b) * (a - b))) / 2).val := by
  have hS : |a.val - b.val| ≤ (ratSqrt (2 - (a - b) * (a - b))).val := by
    apply ratSqrt_ge_abs
    have : ((2 : Frac) - (a - b) * (a - b)).val = 2 - (a.val - b.val) ^ 2 := by
      simp; ring
    rw [this]
    nlinarith [abs_nonneg (a.val - b.val), sq_abs (a.val - b.val)]
  have hv : (((a + b + ratSqrt (2 - (a - b) * (a - b)))) / 2).val =
      (a.val + b.val + (ratSqrt (2 - (a - b) * (a - b))).val) / 2 := by
    simp
  rw [hv]
  rcases le_total a.val b.val with h | h
  · rw [max_eq_right h]
    rw [abs_sub_comm] at hS
    rw [abs_of_nonneg (by linarith)] at hS
    linarith
  · rw [max_eq_left h]
    rw [abs_of_nonneg (by linarith)] at hS
    linarith

/-- The quadratic root of the Eikonal combination is at most
`min + 1` when `|a - b| < 1`. -/
theorem eik_root_le_min (a b : Frac) (hd : |a.val - b.val| < 1) :
    ((a + b + ratSqrt (2 - (a - b) * (a - b))) / 2).val ≤ min a.val b.val + 1 := by
  have hu : ((2 : Frac) - (a - b) * (a - b)).val = 2 - (a.val - b.val) ^ 2 := by
    simp; ring
  have h1 : 1 ≤ ((2 : Frac) - (a - b) * (a - b)).val := by
    rw [hu]
    nlinarith [sq_abs (a.val - b.val), abs_nonneg (a.val - b.val)]
  have hS := ratSqrt_le_half _ h1
  rw [hu] at hS
  have hS2 : (ratSqrt (2 - (a - b) * (a - b))).val ≤ 2 - |a.val - b.val| := by
    have := sq_abs (a.val - b.val)
    nlinarith [sq_nonneg (|a.val - b.val| - 1)]
  have hv : (((a + b + ratSqrt (2 - (a - b) * (a - b)))) / 2).val =
      (a.val + b.val + (ratSqrt (2 - (a - b) * (a - b))).val) / 2 := by
    simp
  rw [hv]
  rcases le_total a.val b.val with h | h
  · rw [min_eq_left h]
    rw [abs_sub_comm, abs_of_nonneg (by linarith)] at hS2
    linarith
  · rw [min_eq_right h]
    rw [abs_of_nonneg (by linarith)] at hS2
    linarith

/-- Structure of the two-sided Eikonal combination: either the quadratic
branch (bounded between `max` and `min + 1`) or the steep fallback
`min + 1`. -/
theorem eikCombine_both (a b u : Frac) (h : eikCombine (some a) (some b) = some u) :
    (max a.val b.val ≤ u.val ∧ u.val ≤ min a.val b.val + 1) ∨
    u.val = min a.val b.val + 1 := by
  simp only [eikCombine] at h
  by_cases hb : Frac.blt (Frac.abs (a - b)) 1 = true
  · rw [if_pos hb] at h
    injection h with h
    subst h
    rw [Frac.blt_iff] at hb
    rw [Frac.val_abs, Frac.val_sub, Frac.val_one] at hb
    exact Or.inl ⟨eik_root_ge_max a b hb, eik_root_le_min a b hb⟩
  · rw [if_neg hb] at h
    injection h with h
    subst h
    right
    rw [Frac.val_add, Frac.val_fmin, Frac.val_one]

theorem eikCombine_left (a u : Frac) (h : eikCombine (some a) none = some u) :
    u.val = a.val + 1 := by
  simp only [eikCombine] at h
  injection h with h
  subst h
  rw [Frac.val_add, Frac.val_one]

theorem eikCombine_right (b u : Frac) (h : eikCombine none (some b) = some u) :
    u.val = b.val + 1 := by
  simp only [eikCombine] at h
  injection h with h
  subst h
  rw [Frac.val_add, Frac.val_one]

/-- `omin` returns one of its inputs and bounds both. -/
theorem omin_spec (o₁ o₂ : Option Frac) (m : Frac) (h : omin o₁ o₂ = some m) :
    (o₁ = some m ∨ o₂ = some m) ∧
    (∀ a, o₁ = some a → m.val ≤ a.val) ∧ (∀ b, o₂ = some b → m.val ≤ b.val) := by
  cases o₁ with
  | none =>
    cases o₂ with
    | none => exact absurd h (by simp [omin])
    | some b =>
      unfold omin at h
      injection h with h
      subst h
      exact ⟨Or.inr rfl, fun a ha => Option.noConfusion ha,
        fun b hb => by injection hb with hb; rw [hb]⟩
  | some a =>
    cases o₂ with
    | none =>
      unfold omin at h
      injection h with h
      subst h
      exact ⟨Or.inl rfl, fun a' ha => by injection ha with ha; rw [ha],
        fun b hb => Option.noConfusion hb⟩
    | some b =>
      unfold omin at h
      injection h with h
      subst h
      refine ⟨?_, fun a' ha => ?_, fun b' hb => ?_⟩
      · unfold Frac.fmin
        by_cases hc : Frac.ble a b = true
        · rw [if_pos hc]; exact Or.inl rfl
        · rw [if_neg hc]; exact Or.inr rfl
      · injection ha with ha
        subst ha
        rw [Frac.val_fmin]
        exact min_le_left _ _
      · injection hb with hb
        subst hb
        rw [Frac.val_fmin]
        exact min_le_right _ _

/-! ## Structural lemmas about the grid store -/

theorem setState_state (g : Grid) (i j : ℕ) (s : PState) (a b : ℕ) :
    (setState g i j s).state a b = if a = i ∧ b = j then s else g.state a b := rfl

theorem setState_time (g : Grid) (i j : ℕ) (s : PState) :
    (setState g i j s).time = g.time := rfl

theorem setState_intensity (g : Grid) (i j : ℕ) (s : PState) :
    (setState g i j s).intensity = g.intensity := rfl

theorem setState_HW (g : Grid) (i j : ℕ) (s : PState) :
    (setState g i j s).H = g.H ∧ (setState g i j s).W = g.W := ⟨rfl, rfl⟩

theorem setTime_time (g : Grid) (i j : ℕ) (t : Frac) (a b : ℕ) :
    (setTime g i j t).time a b = if a = i ∧ b = j then t else g.time a b := rfl

theorem setTime_state (g : Grid) (i j : ℕ) (t : Frac) :
    (setTime g i j t).state = g.state := rfl

theorem setTime_intensity (g : Grid) (i j : ℕ) (t : Frac) :
    (setTime g i j t).intensity = g.intensity := rfl

theorem setTime_HW (g : Grid) (i j : ℕ) (t : Frac) :
    (setTime g i j t).H = g.H ∧ (setTime g i j t).W = g.W := ⟨rfl, rfl⟩

theorem setIntensity_intensity (g : Grid) (i j : ℕ) (v : Frac) (a b : ℕ) :
    (setIntensity g i j v).intensity a b = if a = i ∧ b = j then v else g.intensity a b := rfl

theorem setIntensity_state (g : Grid) (i j : ℕ) (v : Frac) :
    (setIntensity g i j v).state = g.state := rfl

theorem setIntensity_time (g : Grid) (i j : ℕ) (v : Frac) :
    (setIntensity g i j v).time = g.time := rfl

theorem setIntensity_HW (g : Grid) (i j : ℕ) (v : Frac) :
    (setIntensity g i j v).H = g.H ∧ (setIntensity g i j v).W = g.W := ⟨rfl, rfl⟩

theorem allCoords_mem (H W : ℕ) (c : ℕ × ℕ) :
    c ∈ allCoords H W ↔ c.1 < H ∧ c.2 < W := by
  unfold allCoords
  simp only [List.mem_flatMap, List.mem_map, List.mem_range]
  constructor
  · rintro ⟨i, hi, j, hj, rfl⟩
    exact ⟨hi, hj⟩
  · rintro ⟨h1, h2⟩
    exact ⟨c.1, h1, c.2, h2, rfl⟩

theorem nbrs_mem (H W i j : ℕ) (c : ℕ × ℕ) :
    c ∈ nbrs H W i j ↔
      (c = (i + 1, j) ∧ i + 1 < H) ∨ (1 ≤ i ∧ c = (i - 1, j)) ∨
      (c = (i, j + 1) ∧ j + 1 < W) ∨ (1 ≤ j ∧ c = (i, j - 1)) := by
  unfold nbrs
  constructor
  · intro h
    simp only [List.mem_append] at h
    rcases h with ((h | h) | h) | h
    · by_cases hb : i + 1 < H
      · rw [if_pos hb] at h
        simp at h
        exact Or.inl ⟨h, hb⟩
      · rw [if_neg hb] at h
        exact absurd h (List.not_mem_nil c)
    · by_cases hb : 1 ≤ i
      · rw [if_pos hb] at h
        simp at h
        exact Or.inr (Or.inl ⟨hb, h⟩)
      · rw [if_neg hb] at h
        exact absurd h (List.not_mem_nil c)
    · by_cases hb : j + 1 < W
      · rw [if_pos hb] at h
        simp at h
        exact Or.inr (Or.inr (Or.inl ⟨h, hb⟩))
      · rw [if_neg hb] at h
        exact absurd h (List.not_mem_nil c)
    · by_cases hb : 1 ≤ j
      · rw [if_pos hb] at h
        simp at h
        exact Or.inr (Or.inr (Or.inr ⟨hb, h⟩))
      · rw [if_neg hb] at h
        exact absurd h (List.not_mem_nil c)
  · intro h
    simp only [List.mem_append]
    rcases h with ⟨rfl, hb⟩ | ⟨hb, rfl⟩ | ⟨rfl, hb⟩ | ⟨hb, rfl⟩
    · left; left; rw [if_pos hb]; simp
    · left; left; right; rw [if_pos hb]; simp
    · left; right; rw [if_pos hb]; simp
    · right; rw [if_pos hb]; simp

theorem nbrs_bounds (H W i j : ℕ) (hi : i < H) (hj : j < W) (c : ℕ × ℕ)
    (h : c ∈ nbrs H W i j) : c.1 < H ∧ c.2 < W := by
  rw [nbrs_mem] at h
  rcases h with ⟨rfl, hb⟩ | ⟨hb, rfl⟩ | ⟨rfl, hb⟩ | ⟨hb, rfl⟩ <;>
    constructor <;> simp <;> omega

theorem makeBand_ok (r : ℕ) (g : Grid) (i j : ℕ) (g' : Grid)
    (hok : makeBand r g i j = .ok g') :
    ∃ t v, solveEik g i j = some t ∧
      synthPixel (setTime (setState g i j .BAND) i j t) r i j = some v ∧
      g' = setIntensity (setTime (setState g i j .BAND) i j t) i j v := by
  unfold makeBand at hok
  cases hsol : solveEik g i j with
  | none => rw [hsol] at hok; exact Except.noConfusion hok
  | some t =>
    rw [hsol] at hok
    cases hsyn : synthPixel (setTime (setState g i j .BAND) i j t) r i j with
    | none => simp only [hsyn] at hok; exact Except.noConfusion hok
    | some v =>
      simp only [hsyn] at hok
      injection hok with hok
      exact ⟨t, v, rfl, hsyn, hok.symm⟩

/-- The mutation steps the core can take on the grid: creating a BAND
pixel from an UNKNOWN one, lowering a BAND pixel's time, finalizing a
BAND pixel. -/
inductive CoreStep (r : ℕ) : Grid → Grid → Prop
  | mk_band (g g' : Grid) (i j : ℕ) (hst : g.state i j = .UNKNOWN)
      (hok : makeBand r g i j = .ok g') : CoreStep r g g'
  | upd_time (g : Grid) (i j : ℕ) (t : Frac) (hst : g.state i j = .BAND) :
      CoreStep r g (setTime g i j t)
  | finalize (g : Grid) (i j : ℕ) (hst : g.state i j = .BAND) :
      CoreStep r g (setState g i j .KNOWN)

/-- `processNbr` either leaves the grid unchanged or performs one
`CoreStep`. -/
theorem processNbr_step (r : ℕ) (g : Grid) (c : ℕ × ℕ) (g' : Grid)
    (hok : processNbr r g c = .ok g') :
    g' = g ∨ CoreStep r g g' := by
  unfold processNbr at hok
  cases hst : g.state c.1 c.2 with
  | UNKNOWN =>
    rw [hst] at hok
    exact Or.inr (CoreStep.mk_band g g' c.1 c.2 hst hok)
  | BAND =>
    rw [hst] at hok
    cases hsol : solveEik g c.1 c.2 with
    | none => rw [hsol] at hok; exact Except.noConfusion hok
    | some t =>
      rw [hsol] at hok
      injection hok with hok
      by_cases hlt : Frac.blt t (g.time c.1 c.2) = true
      · rw [if_pos hlt] at hok
        exact Or.inr (hok ▸ CoreStep.upd_time g c.1 c.2 t hst)
      · rw [if_neg hlt] at hok
        exact Or.inl hok.symm
  | KNOWN =>
    rw [hst] at hok
    injection hok with hok
    exact Or.inl hok.symm

/-- Folding a per-coordinate grid transformer that performs at most one
`CoreStep` per call yields a chain of `CoreStep`s. -/
theorem foldlM_steps (r : ℕ) (f : Grid → ℕ × ℕ → Except CoreFault Grid)
    (hf : ∀ g c g', f g c = .ok g' → g' = g ∨ CoreStep r g g') (l : List (ℕ × ℕ)) :
    ∀ g g', l.foldlM f g = .ok g' → Relation.ReflTransGen (CoreStep r) g g' := by
  induction l with
  | nil =>
    intro g g' h
    injection h with h
    exact h ▸ Relation.ReflTransGen.refl
  | cons c cs ih =>
    intro g g' h
    rw [List.foldlM_cons] at h
    cases hstep : f g c with
    | error e => rw [hstep] at h; exact Except.noConfusion h
    | ok g1 =>
      rw [hstep] at h
      have h1 := ih g1 g' h
      rcases hf g c g1 hstep with heq | hs
      · exact heq ▸ h1
      · exact Relation.ReflTransGen.head hs h1

/-- Folding `processNbr` over a list of coordinates only performs
`CoreStep`s. -/
theorem foldNbrs_steps (r : ℕ) (l : List (ℕ × ℕ)) :
    ∀ g g', l.foldlM (processNbr r) g = .ok g' →
      Relation.ReflTransGen (CoreStep r) g g' :=
  foldlM_steps r (processNbr r) (processNbr_step r) l

/-- `marchStep` performs only `CoreStep`s (provided the popped pixel is
BAND). -/
theorem marchStep_steps (r : ℕ) (g : Grid) (i j : ℕ) (g' : Grid)
    (hband : g.state i j = .BAND) (hok : marchStep r g i j = .ok g') :
    Relation.ReflTransGen (CoreStep r) g g' := by
  unfold marchStep at hok
  exact Relation.ReflTransGen.head (CoreStep.finalize g i j hband)
    (foldNbrs_steps r _ _ _ hok)

/-- The min-scan of the band: specification of the fold. -/
theorem popFold_spec (g : Grid) (l : List (ℕ × ℕ)) :
    ∀ acc : Option (ℕ × ℕ),
      (l.foldl (popFold g) acc = none →
        acc = none ∧ ∀ c ∈ l, g.state c.1 c.2 ≠ PState.BAND) ∧
      (∀ b, l.foldl (popFold g) acc = some b →
        (acc = some b ∨ (b ∈ l ∧ g.state b.1 b.2 = PState.BAND)) ∧
        (∀ c ∈ l, g.state c.1 c.2 = PState.BAND →
          (g.time b.1 b.2).val ≤ (g.time c.1 c.2).val) ∧
        (∀ a, acc = some a → (g.time b.1 b.2).val ≤ (g.time a.1 a.2).val)) := by
  induction l with
  | nil =>
    intro acc
    refine ⟨fun h => ⟨h, fun c hc => absurd hc (List.not_mem_nil c)⟩, fun b h => ?_⟩
    have h' : acc = some b := h
    exact ⟨Or.inl h', fun c hc => absurd hc (List.not_mem_nil c),
      fun a ha => by rw [h'] at ha; injection ha with ha; rw [ha]⟩
  | cons c cs ih =>
    intro acc
    rw [List.foldl_cons]
    constructor
    · intro h
      obtain ⟨hacc', hrest⟩ := (ih (popFold g acc c)).1 h
      unfold popFold at hacc'
      by_cases hst : g.state c.1 c.2 = PState.BAND
      · rw [if_pos hst] at hacc'
        cases acc with
        | none => exact absurd hacc' (Option.noConfusion)
        | some b =>
          exfalso
          have hacc2 : (if Frac.blt (g.time c.1 c.2) (g.time b.1 b.2) = true
              then some c else some b : Option (ℕ × ℕ)) = none := hacc'
          by_cases hlt : Frac.blt (g.time c.1 c.2) (g.time b.1 b.2) = true
          · rw [if_pos hlt] at hacc2; exact Option.noConfusion hacc2
          · rw [if_neg hlt] at hacc2; exact Option.noConfusion hacc2
      · rw [if_neg hst] at hacc'
        refine ⟨hacc', fun d hd => ?_⟩
        rcases List.mem_cons.1 hd with rfl | hd
        · exact hst
        · exact hrest d hd
    · intro b h
      obtain ⟨hori, hmin, haccle⟩ := (ih (popFold g acc c)).2 b h
      by_cases hst : g.state c.1 c.2 = PState.BAND
      · cases acc with
        | none =>
          have hacc' : popFold g none c = some c := by unfold popFold; rw [if_pos hst]
          have hbc : (g.time b.1 b.2).val ≤ (g.time c.1 c.2).val := haccle c hacc'
          refine ⟨Or.inr ?_, fun d hd hdb => ?_, fun a ha => Option.noConfusion ha⟩
          · rcases hori with h1 | h1
            · rw [hacc'] at h1
              injection h1 with h1
              subst h1
              exact ⟨List.mem_cons_self c cs, hst⟩
            · exact ⟨List.mem_cons_of_mem c h1.1, h1.2⟩
          · rcases List.mem_cons.1 hd with rfl | hd
            · exact hbc
            · exact hmin d hd hdb
        | some a0 =>
          by_cases hlt : Frac.blt (g.time c.1 c.2) (g.time a0.1 a0.2) = true
          · have hacc' : popFold g (some a0) c = some c := by
              unfold popFold
              rw [if_pos hst]
              show (if Frac.blt (g.time c.1 c.2) (g.time a0.1 a0.2) = true
                  then some c else some a0) = some c
              rw [if_pos hlt]
            have hbc : (g.time b.1 b.2).val ≤ (g.time c.1 c.2).val := haccle c hacc'
            refine ⟨Or.inr ?_, fun d hd hdb => ?_, fun a ha => ?_⟩
            · rcases hori with h1 | h1
              · rw [hacc'] at h1
                injection h1 with h1
                subst h1
                exact ⟨List.mem_cons_self c cs, hst⟩
              · exact ⟨List.mem_cons_of_mem c h1.1, h1.2⟩
            · rcases List.mem_cons.1 hd with rfl | hd
              · exact hbc
              · exact hmin d hd hdb
            · injection ha with ha
              subst ha
              rw [Frac.blt_iff] at hlt
              exact le_of_lt (lt_of_le_of_lt hbc hlt)
          · have hacc' : popFold g (some a0) c = some a0 := by
              unfold popFold
              rw [if_pos hst]
              show (if Frac.blt (g.time c.1 c.2) (g.time a0.1 a0.2) = true
                  then some c else some a0) = some a0
              rw [if_neg hlt]
            have hba : (g.time b.1 b.2).val ≤ (g.time a0.1 a0.2).val := haccle a0 hacc'
            have hac : (g.time a0.1 a0.2).val ≤ (g.time c.1 c.2).val := by
              rw [Frac.blt_iff] at hlt
              exact le_of_not_lt hlt
            refine ⟨?_, fun d hd hdb => ?_, fun a ha => ?_⟩
            · rcases hori with h1 | h1
              · rw [hacc'] at h1
                injection h1 with h1
                subst h1
                exact Or.inl rfl
              · exact Or.inr ⟨List.mem_cons_of_mem c h1.1, h1.2⟩
            · rcases List.mem_cons.1 hd with rfl | hd
              · exact le_trans hba hac
              · exact hmin d hd hdb
            · injection ha with ha
              subst ha
              exact hba
      · have hacc' : popFold g acc c = acc := by unfold popFold; rw [if_neg hst]
        rw [hacc'] at hori haccle
        refine ⟨?_, fun d hd hdb => ?_, haccle⟩
        · rcases hori with h1 | h1
          · exact Or.inl h1
          · exact Or.inr ⟨List.mem_cons_of_mem c h1.1, h1.2⟩
        · rcases List.mem_cons.1 hd with rfl | hd
          · exact absurd hdb hst
          · exact hmin d hd hdb

/-- When `popMin` returns nothing, there is no BAND pixel. -/
theorem popMin_none (g : Grid) (h : popMin g = none) :
    ∀ i j, i < g.H → j < g.W → g.state i j ≠ PState.BAND := by
  intro i j hi hj
  have := ((popFold_spec g (allCoords g.H g.W) none).1 h).2 (i, j)
    ((allCoords_mem g.H g.W (i, j)).2 ⟨hi, hj⟩)
  exact this

/-- The popped pixel is an in-bounds BAND pixel of minimal time. -/
theorem popMin_some (g : Grid) (c : ℕ × ℕ) (h : popMin g = some c) :
    c.1 < g.H ∧ c.2 < g.W ∧ g.state c.1 c.2 = PState.BAND ∧
    ∀ i j, i < g.H → j < g.W → g.state i j = PState.BAND →
      (g.time c.1 c.2).val ≤ (g.time i j).val := by
  obtain ⟨hori, hmin, _⟩ := (popFold_spec g (allCoords g.H g.W) none).2 c h
  rcases hori with h1 | ⟨hmem, hband⟩
  · exact absurd h1 (Option.noConfusion)
  · obtain ⟨h1, h2⟩ := (allCoords_mem g.H g.W c).1 hmem
    exact ⟨h1, h2, hband, fun i j hi hj hb =>
      hmin (i, j) ((allCoords_mem g.H g.W (i, j)).2 ⟨hi, hj⟩) hb⟩

/-- The marching loop performs only `CoreStep`s. -/
theorem march_steps (r : ℕ) :
    ∀ fuel (g : Grid) acc gf pops, march r fuel g acc = .ok (gf, pops) →
      Relation.ReflTransGen (CoreStep r) g gf := by
  intro fuel
  induction fuel with
  | zero =>
    intro g acc gf pops h
    unfold march at h
    cases hp : popMin g with
    | none =>
      rw [hp] at h
      injection h with h
      rw [show g = gf from congrArg Prod.fst h]
    | some c => rw [hp] at h; exact Except.noConfusion h
  | succ n ih =>
    intro g acc gf pops h
    unfold march at h
    cases hp : popMin g with
    | none =>
      rw [hp] at h
      injection h with h
      rw [show g = gf from congrArg Prod.fst h]
    | some c =>
      rw [hp] at h
      have h2 : (match marchStep r g c.1 c.2 with
          | Except.error e => Except.error e
          | Except.ok g' => march r n g' ((c.1, c.2, g.time c.1 c.2) :: acc)) =
          Except.ok (gf, pops) := h
      cases hms : marchStep r g c.1 c.2 with
      | error e => rw [hms] at h2; exact Except.noConfusion h2
      | ok g1 =>
        rw [hms] at h2
        have hband := (popMin_some g c hp).2.2.1
        exact Relation.ReflTransGen.trans
          (marchStep_steps r g c.1 c.2 g1 hband hms)
          (ih g1 _ gf pops h2)

/-- `initBandStep` either leaves the grid unchanged or performs one
`CoreStep`. -/
theorem initBandStep_step (r : ℕ) (g : Grid) (c : ℕ × ℕ) (g' : Grid)
    (hok : initBandStep r g c = .ok g') : g' = g ∨ CoreStep r g g' := by
  unfold initBandStep at hok
  by_cases hc : g.state c.1 c.2 = PState.UNKNOWN ∧
      (nbrs g.H g.W c.1 c.2).any (fun n => g.state n.1 n.2 = PState.KNOWN)
  · rw [if_pos hc] at hok
    exact Or.inr (CoreStep.mk_band g g' c.1 c.2 hc.1 hok)
  · rw [if_neg hc] at hok
    injection hok with hok
    exact Or.inl hok.symm

/-- Initial band construction performs only `CoreStep`s. -/
theorem initBand_steps (r : ℕ) (g0 g1 : Grid) (h : initBand r g0 = .ok g1) :
    Relation.ReflTransGen (CoreStep r) g0 g1 := by
  unfold initBand at h
  exact foldlM_steps r _ (initBandStep_step r) (allCoords g0.H g0.W) g0 g1 h

/-- The whole core performs only `CoreStep`s from the initial grid. -/
theorem core_trace_steps (H W : ℕ) (img : ℕ → ℕ → Frac) (msk : ℕ → ℕ → ℕ)
    (r : ℕ) (gf : Grid) (pops : List (ℕ × ℕ × Frac))
    (hok : inpaint_fmm_core_trace H W img msk r = .ok (gf, pops)) :
    Relation.ReflTransGen (CoreStep r) (initGrid H W img msk) gf := by
  unfold inpaint_fmm_core_trace at hok
  cases hib : initBand r (initGrid H W img msk) with
  | error e =>
    rw [hib] at hok
    exact Except.noConfusion hok
  | ok g1 =>
    rw [hib] at hok
    exact Relation.ReflTransGen.trans (initBand_steps r _ g1 hib)
      (march_steps r (H * W) g1 [] gf pops hok)

/-- Any property preserved by the three core mutation steps holds at the
end of any `CoreStep` chain. -/
theorem invariant_steps (r : ℕ) (P : Grid → Prop)
    (hmb : ∀ g i j g', P g → g.state i j = PState.UNKNOWN →
      makeBand r g i j = .ok g' → P g')
    (hut : ∀ g i j t, P g → g.state i j = PState.BAND → P (setTime g i j t))
    (hfin : ∀ g i j, P g → g.state i j = PState.BAND → P (setState g i j .KNOWN))
    {g g' : Grid} (hsteps : Relation.ReflTransGen (CoreStep r) g g') (hP : P g) :
    P g' := by
  induction hsteps with
  | refl => exact hP
  | tail _ hstep ih =>
    cases hstep with
    | mk_band =>
      rename_i i j hst hok
      exact hmb _ i j _ ih hst hok
    | upd_time =>
      rename_i i j t hst
      exact hut _ i j t ih hst
    | finalize =>
      rename_i i j hst
      exact hfin _ i j ih hst

/-! ## C1: unmasked pixels are never touched -/

/-- Mask-zero pixels are KNOWN and hold their original intensity. -/
def KnownFrame (img : ℕ → ℕ → Frac) (msk : ℕ → ℕ → ℕ) (g : Grid) : Prop :=
  ∀ i j, msk i j = 0 → g.state i j = PState.KNOWN ∧ g.intensity i j = img i j

theorem KnownFrame_init (H W : ℕ) (img : ℕ → ℕ → Frac) (msk : ℕ → ℕ → ℕ) :
    KnownFrame img msk (initGrid H W img msk) := by
  intro i j h
  refine ⟨?_, rfl⟩
  show (if msk i j ≠ 0 then PState.UNKNOWN else PState.KNOWN) = PState.KNOWN
  rw [if_neg (by simp [h])]

theorem KnownFrame_core (H W : ℕ) (img : ℕ → ℕ → Frac) (msk : ℕ → ℕ → ℕ)
    (r : ℕ) (gf : Grid) (pops : List (ℕ × ℕ × Frac))
    (hok : inpaint_fmm_core_trace H W img msk r = .ok (gf, pops)) :
    KnownFrame img msk gf := by
  refine invariant_steps r (KnownFrame img msk) ?_ ?_ ?_
    (core_trace_steps H W img msk r gf pops hok) (KnownFrame_init H W img msk)
  · intro g i j g' hP hst hokmb a b hab
    obtain ⟨t, v, _, _, rfl⟩ := makeBand_ok r g i j g' hokmb
    have hne : ¬(a = i ∧ b = j) := by
      rintro ⟨rfl, rfl⟩
      rw [(hP a b hab).1] at hst
      exact PState.noConfusion hst
    constructor
    · rw [setIntensity_state, setTime_state, setState_state, if_neg hne]
      exact (hP a b hab).1
    · rw [setIntensity_intensity, if_neg hne, setTime_intensity, setState_intensity]
      exact (hP a b hab).2
  · intro g i j t hP hst a b hab
    exact ⟨by rw [setTime_state]; exact (hP a b hab).1,
      by rw [setTime_intensity]; exact (hP a b hab).2⟩
  · intro g i j hP hst a b hab
    have hne : ¬(a = i ∧ b = j) := by
      rintro ⟨rfl, rfl⟩
      rw [(hP a b hab).1] at hst
      exact PState.noConfusion hst
    exact ⟨by rw [setState_state, if_neg hne]; exact (hP a b hab).1,
      by rw [setState_intensity]; exact (hP a b hab).2⟩

/-- The core never modifies a mask-zero pixel's intensity. -/
theorem core_preserves_known (H W : ℕ) (img : ℕ → ℕ → Frac) (msk : ℕ → ℕ → ℕ)
    (r : ℕ) (out : ℕ → ℕ → Frac) (hok : inpaint_fmm_core H W img msk r = .ok out) :
    ∀ i j, msk i j = 0 → out i j = img i j := by
  unfold inpaint_fmm_core at hok
  cases htr : inpaint_fmm_core_trace H W img msk r with
  | error e => rw [htr] at hok; exact Except.noConfusion hok
  | ok p =>
    rw [htr] at hok
    obtain ⟨gf, pops⟩ := p
    injection hok with hok
    intro i j h
    rw [← hok]
    exact ((KnownFrame_core H W img msk r gf pops htr) i j h).2

theorem flat_length (n cols : ℕ) (f : ℕ → ℕ → Frac) :
    ((List.range n).flatMap (fun a => (List.range cols).map (f a))).length = n * cols := by
  induction n with
  | zero => simp
  | succ m ih =>
    rw [List.range_succ, List.flatMap_append]
    simp [ih]
    ring

theorem flat_getD (rows cols : ℕ) (f : ℕ → ℕ → Frac) (i j : ℕ)
    (hi : i < rows) (hj : j < cols) :
    ((List.range rows).flatMap (fun a => (List.range cols).map (f a))).getD
      (i * cols + j) 0 = f i j := by
  induction rows with
  | zero => omega
  | succ m ih =>
    rw [List.range_succ, List.flatMap_append]
    by_cases him : i < m
    · rw [List.getD_append]
      · exact ih him
      · rw [flat_length]
        calc i * cols + j < i * cols + cols := by omega
          _ ≤ m * cols := by
              have : i + 1 ≤ m := him
              calc i * cols + cols = (i + 1) * cols := by ring
                _ ≤ m * cols := Nat.mul_le_mul_right cols this
    · have him' : i = m := by omega
      subst him'
      rw [List.getD_append_right]
      · rw [flat_length]
        simp only [List.flatMap_cons, List.flatMap_nil, List.append_nil]
        have : i * cols + j - i * cols = j := by omega
        rw [this]
        rw [List.getD_eq_getElem _ _ (by simp [hj])]
        simp
      · rw [flat_length]
        omega

/-- The flat data of `postProcess` at row-major index `i*cols + j`. -/
theorem postProcess_getD (rows cols : ℕ) (out : ℕ → ℕ → Frac) (i j : ℕ)
    (hi : i < rows) (hj : j < cols) :
    (postProcess rows cols out).data.getD (i * cols + j) 0 =
      Frac.ofInt (toUint8 (nround (clip255 (out (i + 1) (j + 1))))) := by
  unfold postProcess
  exact flat_getD rows cols
    (fun a b => Frac.ofInt (toUint8 (nround (clip255 (out (a + 1) (b + 1)))))) i j hi hj

theorem nround_ofInt (m : ℤ) : nround (Frac.ofInt m) = m := by
  unfold nround Frac.ofInt
  simp only
  have hd : m.ediv 1 = m := Int.ediv_one m
  rw [hd]
  rw [if_pos (by omega)]

/-- Clip–round–cast is the identity on uint8 values. -/
theorem clip_round_id (v : Frac) (hden : v.den = 1) (h0 : 0 ≤ v.num) (h255 : v.num ≤ 255) :
    Frac.ofInt (toUint8 (nround (clip255 v))) = v := by
  have hv : v = Frac.ofInt v.num := by
    apply Frac.ext' <;> simp [Frac.ofInt, hden]
  rw [hv]
  have hval : (Frac.ofInt v.num).val = (v.num : ℚ) := Frac.val_ofInt v.num
  have hclip : clip255 (Frac.ofInt v.num) = Frac.ofInt v.num := by
    unfold clip255
    have hmin : Frac.fmin (Frac.ofInt v.num) 255 = Frac.ofInt v.num := by
      unfold Frac.fmin
      rw [if_pos]
      rw [Frac.ble_iff, hval, Frac.val_natCast]
      exact_mod_cast h255
    rw [hmin]
    unfold Frac.fmax
    rw [if_pos]
    rw [Frac.ble_iff, hval, Frac.val_zero]
    exact_mod_cast h0
  rw [hclip, nround_ofInt]
  unfold toUint8
  congr 1
  have he : v.num.emod 256 = v.num % 256 := rfl
  rw [he]
  omega

theorem ediv_facts (x : Frac) :
    x.den * (x.num.ediv x.den) ≤ x.num ∧ x.num < x.den * (x.num.ediv x.den) + x.den := by
  have hdm : x.den * (x.num / x.den) + x.num % x.den = x.num := Int.ediv_add_emod x.num x.den
  have h0 : 0 ≤ x.num % x.den := Int.emod_nonneg x.num (by have := x.dpos; omega)
  have h1 : x.num % x.den < x.den := Int.emod_lt_of_pos x.num x.dpos
  have he : x.num.ediv x.den = x.num / x.den := rfl
  rw [he]
  omega

theorem val_le_iff (x : Frac) (m : ℤ) : x.val ≤ (m : ℚ) ↔ x.num ≤ m * x.den := by
  unfold Frac.val
  rw [div_le_iff₀ (by exact_mod_cast x.dpos)]
  exact_mod_cast Iff.rfl

theorem le_val_iff (x : Frac) (m : ℤ) : (m : ℚ) ≤ x.val ↔ m * x.den ≤ x.num := by
  unfold Frac.val
  rw [le_div_iff₀ (by exact_mod_cast x.dpos)]
  exact_mod_cast Iff.rfl

theorem nround_le (x : Frac) (m : ℤ) (h : x.val ≤ (m : ℚ)) : nround x ≤ m := by
  rw [val_le_iff] at h
  obtain ⟨hlo, hhi⟩ := ediv_facts x
  have hdpos := x.dpos
  unfold nround
  simp only
  set f := x.num.ediv x.den with hf
  by_cases h1 : 2 * (x.num - f * x.den) < x.den
  · rw [if_pos h1]
    nlinarith
  · rw [if_neg h1]
    have hfm : f + 1 ≤ m := by nlinarith
    by_cases h2 : x.den < 2 * (x.num - f * x.den)
    · rw [if_pos h2]
      exact hfm
    · rw [if_neg h2]
      by_cases h3 : f.emod 2 = 0
      · rw [if_pos h3]
        omega
      · rw [if_neg h3]
        exact hfm

theorem le_nround (x : Frac) (m : ℤ) (h : (m : ℚ) ≤ x.val) : m ≤ nround x := by
  rw [le_val_iff] at h
  obtain ⟨hlo, hhi⟩ := ediv_facts x
  have hdpos := x.dpos
  unfold nround
  simp only
  set f := x.num.ediv x.den with hf
  have hmf : m ≤ f + 1 := by nlinarith
  by_cases h1 : 2 * (x.num - f * x.den) < x.den
  · rw [if_pos h1]
    nlinarith
  · rw [if_neg h1]
    by_cases h2 : x.den < 2 * (x.num - f * x.den)
    · rw [if_pos h2]
      exact hmf
    · rw [if_neg h2]
      by_cases h3 : f.emod 2 = 0
      · rw [if_pos h3]
        nlinarith
      · rw [if_neg h3]
        exact hmf

/-- C1: every pixel where the mask is false (entry 0) comes back with
its original `img_as_ubyte`-converted value; with an all-false mask the
output data is exactly the converted input data. -/
theorem inpaint_fmm_unmasked_pixels (image mask : NdArray) (radius : ℤ)
    (rows cols : ℕ) (h2 : image.shape = [rows, cols])
    (h8 : ∀ v ∈ (img_as_ubyte image).data, v.den = 1 ∧ 0 ≤ v.num ∧ v.num ≤ 255)
    (hlen : (img_as_ubyte image).data.length = rows * cols)
    (out : NdArray) (hok : inpaint_fmm image mask radius = .ok out) :
    (∀ i j, i < rows → j < cols → arrFun mask cols i j = 0 →
      out.data.getD (i * cols + j) 0 = arrFun (img_as_ubyte image) cols i j) ∧
    ((∀ v ∈ mask.data, v = 0) → out.data = (img_as_ubyte image).data) := by
  obtain ⟨co, hco, rfl⟩ := inpaint_fmm_ok_elim image mask radius rows cols h2 out hok
  have hlength := postProcess_length rows cols co
  have key : ∀ i j, i < rows → j < cols → arrFun mask cols i j = 0 →
      (postProcess rows cols co).data.getD (i * cols + j) 0 =
        arrFun (img_as_ubyte image) cols i j := by
    intro i j hi hj hm
    rw [postProcess_getD rows cols co i j hi hj]
    have hmask0 : padMask rows cols (arrFun mask cols) (i + 1) (j + 1) = 0 := by
      unfold padMask
      rw [if_pos (by omega)]
      simp only [Nat.add_sub_cancel]
      rw [hm]
      rfl
    have hcore := core_preserves_known (rows + 2) (cols + 2)
      (padImage rows cols (arrFun (img_as_ubyte image) cols))
      (padMask rows cols (arrFun mask cols)) radius.toNat co hco (i + 1) (j + 1) hmask0
    rw [hcore]
    have hpad : padImage rows cols (arrFun (img_as_ubyte image) cols) (i + 1) (j + 1) =
        arrFun (img_as_ubyte image) cols i j := by
      unfold padImage
      rw [if_pos (by omega)]
      simp
    rw [hpad]
    have hmem : arrFun (img_as_ubyte image) cols i j ∈ (img_as_ubyte image).data ∨
        arrFun (img_as_ubyte image) cols i j = 0 := by
      unfold arrFun
      by_cases hidx : i * cols + j < (img_as_ubyte image).data.length
      · left
        rw [List.getD_eq_getElem _ _ hidx]
        exact List.getElem_mem hidx
      · right
        rw [List.getD_eq_default _ _ (by omega)]
    rcases hmem with hmem | hmem
    · obtain ⟨hd, h0, h255⟩ := h8 _ hmem
      exact clip_round_id _ hd h0 h255
    · rw [hmem]
      exact clip_round_id 0 rfl (by decide) (by decide)
  refine ⟨key, fun hall => ?_⟩
  have hmaskz : ∀ i j, arrFun mask cols i j = 0 := by
    intro i j
    unfold arrFun
    by_cases hidx : i * cols + j < mask.data.length
    · rw [List.getD_eq_getElem _ _ hidx]
      exact hall _ (List.getElem_mem hidx)
    · rw [List.getD_eq_default _ _ (by omega)]
  apply List.ext_getElem
  · rw [hlength, hlen]
  · intro n hn1 hn2
    have hn1' : n < rows * cols := by rw [← hlength]; exact hn1
    have hcols : 0 < cols := by
      rcases Nat.eq_zero_or_pos cols with h | h
      · rw [h, Nat.mul_zero] at hn1'
        exact absurd hn1' (Nat.not_lt_zero n)
      · exact h
    have hi : n / cols < rows := by
      apply Nat.div_lt_of_lt_mul
      calc n < rows * cols := hn1'
        _ = cols * rows := Nat.mul_comm rows cols
    have hj : n % cols < cols := Nat.mod_lt n hcols
    have hidx : n = (n / cols) * cols + n % cols := by
      rw [Nat.div_add_mod']
    have hkey := key (n / cols) (n % cols) hi hj (hmaskz _ _)
    rw [← hidx] at hkey
    rw [List.getD_eq_getElem _ 0 hn1] at hkey
    unfold arrFun at hkey
    rw [← hidx] at hkey
    rw [List.getD_eq_getElem _ 0 hn2] at hkey
    exact hkey

/-- C9: `inpaint_fmm` converts with `img_as_ubyte` and returns uint8
data; a float image with values in `[0, 1]` is rescaled by 255 and
rounded before inpainting, so unmasked pixels come back on the 8-bit
scale (`nround (255 * v)`), not on the caller's `[0, 1]` scale. -/
theorem inpaint_fmm_float_input (image mask : NdArray) (radius : ℤ)
    (rows cols : ℕ) (hdt : image.dtype = Dtype.float64)
    (h2 : image.shape = [rows, cols])
    (hv : ∀ v ∈ image.data, 0 ≤ v.num ∧ v.num ≤ v.den)
    (hlen : image.data.length = rows * cols)
    (out : NdArray) (hok : inpaint_fmm image mask radius = .ok out) :
    out.dtype = Dtype.uint8 ∧
    ∀ i j, i < rows → j < cols → arrFun mask cols i j = 0 →
      out.data.getD (i * cols + j) 0 =
        Frac.ofInt (nround (Frac.ofInt 255 * image.data.getD (i * cols + j) 0)) := by
  obtain ⟨co, hco, rfl⟩ := inpaint_fmm_ok_elim image mask radius rows cols h2 out hok
  refine ⟨rfl, ?_⟩
  intro i j hi hj hm
  rw [postProcess_getD rows cols co i j hi hj]
  have hmask0 : padMask rows cols (arrFun mask cols) (i + 1) (j + 1) = 0 := by
    unfold padMask
    rw [if_pos (by omega)]
    simp only [Nat.add_sub_cancel]
    rw [hm]
    rfl
  have hcore := core_preserves_known (rows + 2) (cols + 2)
    (padImage rows cols (arrFun (img_as_ubyte image) cols))
    (padMask rows cols (arrFun mask cols)) radius.toNat co hco (i + 1) (j + 1) hmask0
  rw [hcore]
  have hpad : padImage rows cols (arrFun (img_as_ubyte image) cols) (i + 1) (j + 1) =
      arrFun (img_as_ubyte image) cols i j := by
    unfold padImage
    rw [if_pos (by omega)]
    simp
  rw [hpad]
  have h8 : (img_as_ubyte image).data =
      image.data.map (fun v => Frac.ofInt (nround (Frac.ofInt 255 * v))) := by
    unfold img_as_ubyte
    rw [hdt]
  have hidx : i * cols + j < image.data.length := by
    rw [hlen]
    calc i * cols + j < i * cols + cols := by omega
      _ = (i + 1) * cols := by ring
      _ ≤ rows * cols := Nat.mul_le_mul_right cols (by omega)
  have harr : arrFun (img_as_ubyte image) cols i j =
      Frac.ofInt (nround (Frac.ofInt 255 * image.data.getD (i * cols + j) 0)) := by
    unfold arrFun
    rw [h8]
    rw [List.getD_eq_getElem _ 0 (by rw [List.length_map]; exact hidx)]
    rw [List.getElem_map]
    rw [List.getD_eq_getElem _ 0 hidx]
  rw [harr]
  set v := image.data.getD (i * cols + j) 0 with hvdef
  have hvmem : v ∈ image.data := by
    rw [hvdef, List.getD_eq_getElem _ 0 hidx]
    exact List.getElem_mem hidx
  obtain ⟨h0, h1⟩ := hv v hvmem
  have hv0 : (0 : ℚ) ≤ v.val := by
    have := (le_val_iff v 0).2 (by omega)
    exact_mod_cast this
  have hv1 : v.val ≤ (1 : ℚ) := by
    have := (val_le_iff v 1).2 (by omega)
    exact_mod_cast this
  have hval : (Frac.ofInt 255 * v).val = 255 * v.val := by
    rw [Frac.val_mul, Frac.val_ofInt]
    norm_num
  have hn0 : 0 ≤ nround (Frac.ofInt 255 * v) := by
    apply le_nround
    rw [hval]
    push_cast
    nlinarith
  have hn255 : nround (Frac.ofInt 255 * v) ≤ 255 := by
    apply nround_le
    rw [hval]
    push_cast
    nlinarith
  exact clip_round_id _ rfl hn0 hn255

/-! ## C7: boundedness of synthesized intensities -/

theorem makeBand_state_pt (r : ℕ) (g : Grid) (i j : ℕ) (g' : Grid)
    (hok : makeBand r g i j = .ok g') (a b : ℕ) :
    g'.state a b = if a = i ∧ b = j then PState.BAND else g.state a b := by
  obtain ⟨t, v, _, _, rfl⟩ := makeBand_ok r g i j g' hok
  rw [setIntensity_state, setTime_state, setState_state]

theorem makeBand_intensity_pt (r : ℕ) (g : Grid) (i j : ℕ) (g' : Grid)
    (hok : makeBand r g i j = .ok g') (a b : ℕ) (hne : ¬(a = i ∧ b = j)) :
    g'.intensity a b = g.intensity a b := by
  obtain ⟨t, v, _, _, rfl⟩ := makeBand_ok r g i j g' hok
  rw [setIntensity_intensity, if_neg hne, setTime_intensity, setState_intensity]

theorem makeBand_HW (r : ℕ) (g : Grid) (i j : ℕ) (g' : Grid)
    (hok : makeBand r g i j = .ok g') : g'.H = g.H ∧ g'.W = g.W := by
  obtain ⟨t, v, _, _, rfl⟩ := makeBand_ok r g i j g' hok
  exact ⟨rfl, rfl⟩

/-- Membership in the synthesis window: in bounds, not the center,
resolved. -/
theorem synthWindow_mem (g : Grid) (r i j a b : ℕ)
    (h : (a, b) ∈ synthWindow g r i j) :
    a < g.H ∧ b < g.W ∧ ¬(a = i ∧ b = j) ∧ g.state a b ≠ PState.UNKNOWN := by
  unfold synthWindow at h
  rw [List.mem_filterMap] at h
  obtain ⟨c, _, hc⟩ := h
  by_cases hcond : 0 ≤ c.1 ∧ c.1 < (g.H : ℤ) ∧ 0 ≤ c.2 ∧ c.2 < (g.W : ℤ) ∧
      ¬(c.1 = (i : ℤ) ∧ c.2 = (j : ℤ)) ∧ g.state c.1.toNat c.2.toNat ≠ PState.UNKNOWN
  · rw [if_pos hcond] at hc
    injection hc with hc
    obtain ⟨h1, h2, h3, h4, h5, h6⟩ := hcond
    have ha : c.1.toNat = a := congrArg Prod.fst hc
    have hb : c.2.toNat = b := congrArg Prod.snd hc
    subst ha
    subst hb
    refine ⟨by omega, by omega, ?_, h6⟩
    intro ⟨hai, hbj⟩
    exact h5 ⟨by omega, by omega⟩
  · rw [if_neg hcond] at hc
    exact Option.noConfusion hc

theorem eps_val : eps.val = 1 / 1000000 := by
  unfold eps Frac.val
  norm_num

theorem eps_pos : 0 < eps.val := by
  rw [eps_val]
  norm_num

/-- Every synthesis weight is strictly positive. -/
theorem synthWeight_pos (g : Grid) (i j k l : ℕ) :
    0 < (synthWeight g i j k l).val := by
  unfold synthWeight
  simp only [Frac.val_mul, Frac.val_div, Frac.val_add, Frac.val_abs, Frac.val_one]
  have hlen := ratSqrt_nonneg (Frac.ofInt ((k : ℤ) - (i : ℤ)) *
      Frac.ofInt ((k : ℤ) - (i : ℤ)) + Frac.ofInt ((l : ℤ) - (j : ℤ)) *
      Frac.ofInt ((l : ℤ) - (j : ℤ)))
  have he := eps_pos
  have h1 : 0 < (|(Frac.ofInt ((k : ℤ) - (i : ℤ)) * (timeGrad g i j).1 +
      Frac.ofInt ((l : ℤ) - (j : ℤ)) * (timeGrad g i j).2).val| + eps.val) /
      ((ratSqrt (Frac.ofInt ((k : ℤ) - (i : ℤ)) * Frac.ofInt ((k : ℤ) - (i : ℤ)) +
        Frac.ofInt ((l : ℤ) - (j : ℤ)) * Frac.ofInt ((l : ℤ) - (j : ℤ)))).val + eps.val) := by
    apply div_pos
    · have := abs_nonneg ((Frac.ofInt ((k : ℤ) - (i : ℤ)) * (timeGrad g i j).1 +
        Frac.ofInt ((l : ℤ) - (j : ℤ)) * (timeGrad g i j).2).val)
      linarith
    · linarith
  have h2 : 0 < (1 : ℚ) / ((ratSqrt (Frac.ofInt ((k : ℤ) - (i : ℤ)) *
      Frac.ofInt ((k : ℤ) - (i : ℤ)) + Frac.ofInt ((l : ℤ) - (j : ℤ)) *
      Frac.ofInt ((l : ℤ) - (j : ℤ)))).val + eps.val) := by
    apply div_pos one_pos
    linarith
  have h3 : 0 < (1 : ℚ) / (1 + |(g.time k l - g.time i j).val|) := by
    apply div_pos one_pos
    have := abs_nonneg ((g.time k l - g.time i j).val)
    linarith
  positivity

/-- Weighted averages with positive weights stay inside value bounds. -/
theorem synthFold_bound (g : Grid) (i j : ℕ) (lo hi : ℚ) (cells : List (ℕ × ℕ)) :
    (∀ c ∈ cells, lo ≤ (g.intensity c.1 c.2).val ∧ (g.intensity c.1 c.2).val ≤ hi) →
    ∀ p : Frac × Frac, 0 ≤ p.1.val →
      lo * p.1.val ≤ p.2.val → p.2.val ≤ hi * p.1.val →
      (0 ≤ (cells.foldl (fun (p : Frac × Frac) c =>
          (p.1 + synthWeight g i j c.1 c.2,
           p.2 + synthWeight g i j c.1 c.2 * g.intensity c.1 c.2)) p).1.val ∧
       lo * (cells.foldl (fun (p : Frac × Frac) c =>
          (p.1 + synthWeight g i j c.1 c.2,
           p.2 + synthWeight g i j c.1 c.2 * g.intensity c.1 c.2)) p).1.val ≤
         (cells.foldl (fun (p : Frac × Frac) c =>
          (p.1 + synthWeight g i j c.1 c.2,
           p.2 + synthWeight g i j c.1 c.2 * g.intensity c.1 c.2)) p).2.val ∧
       (cells.foldl (fun (p : Frac × Frac) c =>
          (p.1 + synthWeight g i j c.1 c.2,
           p.2 + synthWeight g i j c.1 c.2 * g.intensity c.1 c.2)) p).2.val ≤
         hi * (cells.foldl (fun (p : Frac × Frac) c =>
          (p.1 + synthWeight g i j c.1 c.2,
           p.2 + synthWeight g i j c.1 c.2 * g.intensity c.1 c.2)) p).1.val ∧
       (cells ≠ [] → 0 < (cells.foldl (fun (p : Frac × Frac) c =>
          (p.1 + synthWeight g i j c.1 c.2,
           p.2 + synthWeight g i j c.1 c.2 * g.intensity c.1 c.2)) p).1.val)) := by
  induction cells with
  | nil =>
    intro hb p h0 hlo hhi
    exact ⟨h0, hlo, hhi, fun hc => absurd rfl hc⟩
  | cons c cs ih =>
    intro hb p h0 hlo hhi
    rw [List.foldl_cons]
    have hw := synthWeight_pos g i j c.1 c.2
    obtain ⟨hbc1, hbc2⟩ := hb c (List.mem_cons_self c cs)
    have hb' : ∀ d ∈ cs, lo ≤ (g.intensity d.1 d.2).val ∧ (g.intensity d.1 d.2).val ≤ hi :=
      fun d hd => hb d (List.mem_cons_of_mem c hd)
    have ih' := ih hb'
      (p.1 + synthWeight g i j c.1 c.2,
       p.2 + synthWeight g i j c.1 c.2 * g.intensity c.1 c.2)
      (by rw [Frac.val_add]; linarith)
      (by
        rw [Frac.val_add, Frac.val_add, Frac.val_mul]
        have : lo * (synthWeight g i j c.1 c.2).val ≤
            (synthWeight g i j c.1 c.2).val * (g.intensity c.1 c.2).val := by
          nlinarith
        nlinarith)
      (by
        rw [Frac.val_add, Frac.val_add, Frac.val_mul]
        have : (synthWeight g i j c.1 c.2).val * (g.intensity c.1 c.2).val ≤
            hi * (synthWeight g i j c.1 c.2).val := by
          nlinarith
        nlinarith)
    refine ⟨ih'.1, ih'.2.1, ih'.2.2.1, fun _ => ?_⟩
    rcases List.eq_nil_or_concat cs with rfl | _
    · simp only [List.foldl_nil]
      rw [Frac.val_add]
      linarith
    · -- cs possibly nonempty; in all cases the accumulated weight only grows
      have grow : ∀ (l : List (ℕ × ℕ)) (q : Frac × Frac),
          q.1.val ≤ (l.foldl (fun (p : Frac × Frac) c =>
            (p.1 + synthWeight g i j c.1 c.2,
             p.2 + synthWeight g i j c.1 c.2 * g.intensity c.1 c.2)) q).1.val := by
        intro l
        induction l with
        | nil => intro q; exact le_refl _
        | cons d ds ihd =>
          intro q
          rw [List.foldl_cons]
          refine le_trans ?_ (ihd _)
          rw [Frac.val_add]
          have := synthWeight_pos g i j d.1 d.2
          linarith
      have h1 : (p.1 + synthWeight g i j c.1 c.2).val ≤ _ := grow cs
        (p.1 + synthWeight g i j c.1 c.2,
         p.2 + synthWeight g i j c.1 c.2 * g.intensity c.1 c.2)
      rw [Frac.val_add] at h1
      linarith

/-- The synthesized value lies within the bounds of the eligible
neighborhood intensities. -/
theorem synthPixel_bound (g : Grid) (r i j : ℕ) (v : Frac) (lo hi : ℚ)
    (hb : ∀ a b, (a, b) ∈ synthWindow g r i j →
      lo ≤ (g.intensity a b).val ∧ (g.intensity a b).val ≤ hi)
    (hok : synthPixel g r i j = some v) : lo ≤ v.val ∧ v.val ≤ hi := by
  unfold synthPixel at hok
  cases hw : synthWindow g r i j with
  | nil => rw [hw] at hok; exact Option.noConfusion hok
  | cons c cs =>
    rw [hw] at hok
    injection hok with hok
    have hball : ∀ d ∈ c :: cs, lo ≤ (g.intensity d.1 d.2).val ∧
        (g.intensity d.1 d.2).val ≤ hi := by
      intro d hd
      have : (d.1, d.2) ∈ synthWindow g r i j := by rw [hw]; exact hd
      exact hb d.1 d.2 this
    obtain ⟨hws0, hlo, hhi, hpos⟩ := synthFold_bound g i j lo hi (c :: cs) hball (0, 0)
      (by rw [Frac.val_zero]) (by rw [Frac.val_zero]; simp) (by rw [Frac.val_zero]; simp)
    have hwpos := hpos (by simp)
    rw [← hok]
    rw [Frac.val_div]
    constructor
    · rw [le_div_iff₀ hwpos]
      linarith
    · rw [div_le_iff₀ hwpos]
      linarith

/-- All resolved intensities lie within `[lo, hi]`. -/
def IntBound (lo hi : ℚ) (g : Grid) : Prop :=
  ∀ i j, g.state i j ≠ PState.UNKNOWN →
    lo ≤ (g.intensity i j).val ∧ (g.intensity i j).val ≤ hi

theorem IntBound_steps (r : ℕ) (lo hi : ℚ) {g g' : Grid}
    (hsteps : Relation.ReflTransGen (CoreStep r) g g') (hP : IntBound lo hi g) :
    IntBound lo hi g' := by
  refine invariant_steps r (IntBound lo hi) ?_ ?_ ?_ hsteps hP
  · intro g i j g' hB hst hok a b hres
    obtain ⟨t, v, hsol, hsyn, rfl⟩ := makeBand_ok r g i j g' hok
    by_cases hab : a = i ∧ b = j
    · obtain ⟨rfl, rfl⟩ := hab
      have hbw : ∀ x y, (x, y) ∈ synthWindow (setTime (setState g a b .BAND) a b t) r a b →
          lo ≤ ((setTime (setState g a b .BAND) a b t).intensity x y).val ∧
          ((setTime (setState g a b .BAND) a b t).intensity x y).val ≤ hi := by
        intro x y hm
        obtain ⟨_, _, hne, hresw⟩ := synthWindow_mem _ r a b x y hm
        rw [setTime_intensity, setState_intensity]
        apply hB
        intro hu
        apply hresw
        rw [setTime_state, setState_state, if_neg hne]
        exact hu
      have hv := synthPixel_bound _ r a b v lo hi hbw hsyn
      rw [setIntensity_intensity, if_pos ⟨rfl, rfl⟩]
      exact hv
    · rw [setIntensity_intensity, if_neg hab, setTime_intensity, setState_intensity]
      apply hB
      intro hu
      apply hres
      rw [setIntensity_state, setTime_state, setState_state, if_neg hab]
      exact hu
  · intro g i j t hB hst a b hres
    rw [setTime_intensity]
    apply hB
    intro hu
    apply hres
    rw [setTime_state]
    exact hu
  · intro g i j hB hst a b hres
    rw [setState_intensity]
    apply hB
    by_cases hab : a = i ∧ b = j
    · obtain ⟨rfl, rfl⟩ := hab
      rw [hst]
      exact fun h => PState.noConfusion h
    · intro hu
      apply hres
      rw [setState_state, if_neg hab]
      exact hu

theorem IntBound_init (H W : ℕ) (img : ℕ → ℕ → Frac) (msk : ℕ → ℕ → ℕ) (lo hi : ℚ)
    (hinit : ∀ i j, msk i j = 0 → lo ≤ (img i j).val ∧ (img i j).val ≤ hi) :
    IntBound lo hi (initGrid H W img msk) := by
  intro i j hres
  by_cases hm : msk i j = 0
  · exact hinit i j hm
  · exfalso
    apply hres
    show (if msk i j ≠ 0 then PState.UNKNOWN else PState.KNOWN) = PState.UNKNOWN
    rw [if_pos hm]

/-! Coverage: at the end of a successful march no in-bounds pixel is
still UNKNOWN. -/

theorem steps_HW (r : ℕ) {g g' : Grid}
    (hsteps : Relation.ReflTransGen (CoreStep r) g g') : g'.H = g.H ∧ g'.W = g.W := by
  refine invariant_steps r (fun g2 => g2.H = g.H ∧ g2.W = g.W) ?_ ?_ ?_ hsteps ⟨rfl, rfl⟩
  · intro gm i j gm' hP hst hok
    obtain ⟨h1, h2⟩ := makeBand_HW r gm i j gm' hok
    exact ⟨h1.trans hP.1, h2.trans hP.2⟩
  · intro gm i j t hP hst
    exact hP
  · intro gm i j hP hst
    exact hP

theorem processNbr_HW (r : ℕ) (g : Grid) (c : ℕ × ℕ) (g' : Grid)
    (hok : processNbr r g c = .ok g') : g'.H = g.H ∧ g'.W = g.W := by
  rcases processNbr_step r g c g' hok with rfl | hs
  · exact ⟨rfl, rfl⟩
  · cases hs with
    | mk_band => rename_i i j hst hokmb; exact makeBand_HW r g i j g' hokmb
    | upd_time => exact ⟨rfl, rfl⟩
    | finalize => exact ⟨rfl, rfl⟩

/-- `processNbr` never writes KNOWN. -/
theorem processNbr_known_stable (r : ℕ) (g : Grid) (c : ℕ × ℕ) (g' : Grid)
    (hok : processNbr r g c = .ok g') (a b : ℕ)
    (h : g'.state a b = PState.KNOWN) : g.state a b = PState.KNOWN := by
  unfold processNbr at hok
  cases hst : g.state c.1 c.2 with
  | UNKNOWN =>
    rw [hst] at hok
    rw [makeBand_state_pt r g c.1 c.2 g' hok] at h
    by_cases hab : a = c.1 ∧ b = c.2
    · rw [if_pos hab] at h
      exact absurd h (fun hc => PState.noConfusion hc)
    · rw [if_neg hab] at h
      exact h
  | BAND =>
    rw [hst] at hok
    cases hsol : solveEik g c.1 c.2 with
    | none => rw [hsol] at hok; exact Except.noConfusion hok
    | some t =>
      rw [hsol] at hok
      injection hok with hok
      subst hok
      by_cases hlt : Frac.blt t (g.time c.1 c.2) = true
      · rw [if_pos hlt, setTime_state] at h
        exact h
      · rw [if_neg hlt] at h
        exact h
  | KNOWN =>
    rw [hst] at hok
    injection hok with hok
    subst hok
    exact h

/-- `processNbr` never writes UNKNOWN. -/
theorem processNbr_not_unknown (r : ℕ) (g : Grid) (c : ℕ × ℕ) (g' : Grid)
    (hok : processNbr r g c = .ok g') (a b : ℕ)
    (h : g.state a b ≠ PState.UNKNOWN) : g'.state a b ≠ PState.UNKNOWN := by
  rcases processNbr_step r g c g' hok with rfl | hs
  · exact h
  · cases hs with
    | mk_band =>
      rename_i i j hst hokmb
      rw [makeBand_state_pt r g i j g' hokmb]
      by_cases hab : a = i ∧ b = j
      · rw [if_pos hab]
        exact fun hc => PState.noConfusion hc
      · rw [if_neg hab]
        exact h
    | upd_time =>
      rw [setTime_state]
      exact h
    | finalize =>
      rename_i i j hst
      rw [setState_state]
      by_cases hab : a = i ∧ b = j
      · rw [if_pos hab]
        exact fun hc => PState.noConfusion hc
      · rw [if_neg hab]
        exact h

/-- After `processNbr`, the processed coordinate is not UNKNOWN. -/
theorem processNbr_target (r : ℕ) (g : Grid) (c : ℕ × ℕ) (g' : Grid)
    (hok : processNbr r g c = .ok g') : g'.state c.1 c.2 ≠ PState.UNKNOWN := by
  unfold processNbr at hok
  cases hst : g.state c.1 c.2 with
  | UNKNOWN =>
    rw [hst] at hok
    rw [makeBand_state_pt r g c.1 c.2 g' hok, if_pos ⟨rfl, rfl⟩]
    exact fun hc => PState.noConfusion hc
  | BAND =>
    rw [hst] at hok
    cases hsol : solveEik g c.1 c.2 with
    | none => rw [hsol] at hok; exact Except.noConfusion hok
    | some t =>
      rw [hsol] at hok
      injection hok with hok
      subst hok
      by_cases hlt : Frac.blt t (g.time c.1 c.2) = true
      · rw [if_pos hlt, setTime_state, hst]
        exact fun hc => PState.noConfusion hc
      · rw [if_neg hlt, hst]
        exact fun hc => PState.noConfusion hc
  | KNOWN =>
    rw [hst] at hok
    injection hok with hok
    subst hok
    rw [hst]
    exact fun hc => PState.noConfusion hc

/-- Over a `processNbr` fold: KNOWN stability, non-UNKNOWN stability,
and every processed coordinate ends non-UNKNOWN. -/
theorem foldNbrs_facts (r : ℕ) (l : List (ℕ × ℕ)) :
    ∀ g g', l.foldlM (processNbr r) g = .ok g' →
      (∀ a b, g'.state a b = PState.KNOWN → g.state a b = PState.KNOWN) ∧
      (∀ a b, g.state a b ≠ PState.UNKNOWN → g'.state a b ≠ PState.UNKNOWN) ∧
      (∀ c ∈ l, g'.state c.1 c.2 ≠ PState.UNKNOWN) := by
  induction l with
  | nil =>
    intro g g' h
    injection h with h
    subst h
    exact ⟨fun a b hab => hab, fun a b hab => hab,
      fun c hc => absurd hc (List.not_mem_nil c)⟩
  | cons c cs ih =>
    intro g g' h
    rw [List.foldlM_cons] at h
    cases hstep : processNbr r g c with
    | error e => rw [hstep] at h; exact Except.noConfusion h
    | ok g1 =>
      rw [hstep] at h
      obtain ⟨ihk, ihu, ihmem⟩ := ih g1 g' h
      refine ⟨fun a b hab => processNbr_known_stable r g c g1 hstep a b (ihk a b hab),
        fun a b hab => ihu a b (processNbr_not_unknown r g c g1 hstep a b hab), ?_⟩
      intro d hd
      rcases List.mem_cons.1 hd with rfl | hd
      · exact ihu d.1 d.2 (processNbr_target r g d g1 hstep)
      · exact ihmem d hd

/-- No UNKNOWN pixel has a KNOWN 4-neighbor. -/
def NoUnknownKnownNbr (g : Grid) : Prop :=
  ∀ i j, i < g.H → j < g.W → g.state i j = PState.UNKNOWN →
    ∀ c ∈ nbrs g.H g.W i j, g.state c.1 c.2 ≠ PState.KNOWN

theorem nbrs_symm (H W i j : ℕ) (hi : i < H) (hj : j < W) (c : ℕ × ℕ)
    (h : c ∈ nbrs H W i j) : (i, j) ∈ nbrs H W c.1 c.2 := by
  rw [nbrs_mem] at h
  rw [nbrs_mem]
  rcases h with ⟨rfl, hb⟩ | ⟨hb, rfl⟩ | ⟨rfl, hb⟩ | ⟨hb, rfl⟩
  · right; left
    exact ⟨by omega, by simp⟩
  · left
    constructor
    · simp
      omega
    · omega
  · right; right; right
    exact ⟨by omega, by simp⟩
  · right; right; left
    constructor
    · simp
      omega
    · omega

/-- `marchStep` preserves `NoUnknownKnownNbr`. -/
theorem NoUnknownKnownNbr_marchStep (r : ℕ) (g : Grid) (i j : ℕ) (g' : Grid)
    (hi : i < g.H) (hj : j < g.W)
    (hok : marchStep r g i j = .ok g') (hP : NoUnknownKnownNbr g) :
    NoUnknownKnownNbr g' := by
  unfold marchStep at hok
  obtain ⟨hk, hu, hmem⟩ := foldNbrs_facts r (nbrs g.H g.W i j) _ g' hok
  have foldHW : ∀ (l : List (ℕ × ℕ)) (ga gb : Grid), l.foldlM (processNbr r) ga = .ok gb →
      gb.H = ga.H ∧ gb.W = ga.W := by
    intro l
    induction l with
    | nil =>
      intro ga gb hfold
      injection hfold with hfold
      subst hfold
      exact ⟨rfl, rfl⟩
    | cons d ds ihd =>
      intro ga gb hfold
      rw [List.foldlM_cons] at hfold
      cases hstep : processNbr r ga d with
      | error e => rw [hstep] at hfold; exact Except.noConfusion hfold
      | ok g1 =>
        rw [hstep] at hfold
        obtain ⟨e1, e2⟩ := ihd g1 gb hfold
        obtain ⟨f1, f2⟩ := processNbr_HW r ga d g1 hstep
        exact ⟨e1.trans f1, e2.trans f2⟩
  have hHW : g'.H = g.H ∧ g'.W = g.W :=
    foldHW (nbrs g.H g.W i j) (setState g i j PState.KNOWN) g' hok
  intro u1 u2 hu1 hu2 hUnk c hc hKnown
  -- u is UNKNOWN in g', hence in the pre-fold grid, hence in g and ≠ (i,j)
  have hu1g : u1 < g.H := by rw [← hHW.1]; exact hu1
  have hu2g : u2 < g.W := by rw [← hHW.2]; exact hu2
  have hUnkPre : (setState g i j PState.KNOWN).state u1 u2 = PState.UNKNOWN := by
    by_contra hne
    exact (hu u1 u2 hne) hUnk
  rw [setState_state] at hUnkPre
  by_cases hab : u1 = i ∧ u2 = j
  · rw [if_pos hab] at hUnkPre
    exact PState.noConfusion hUnkPre
  · rw [if_neg hab] at hUnkPre
    -- the KNOWN neighbor c of u in g' was KNOWN before the fold
    have hKnownPre : (setState g i j PState.KNOWN).state c.1 c.2 = PState.KNOWN :=
      hk c.1 c.2 hKnown
    rw [setState_state] at hKnownPre
    by_cases hcij : c.1 = i ∧ c.2 = j
    · -- c = p: u is a neighbor of p and was banded in the fold
      obtain ⟨hc1, hc2⟩ := hcij
      have hnbr : (u1, u2) ∈ nbrs g.H g.W i j := by
        have := nbrs_symm g.H g.W u1 u2 hu1g hu2g c (by
          rw [hHW.1, hHW.2] at hc
          exact hc)
        rw [hc1, hc2] at this
        exact this
      exact (hmem (u1, u2) hnbr) hUnk
    · rw [if_neg hcij] at hKnownPre
      -- c was KNOWN already in g: contradicts the invariant in g
      apply hP u1 u2 hu1g hu2g hUnkPre c _ hKnownPre
      rw [hHW.1, hHW.2] at hc
      exact hc

/-- Per-step facts about `initBandStep`: KNOWN-stability, non-UNKNOWN
stability, dimension stability. -/
theorem initBandStep_facts (r : ℕ) (g : Grid) (c : ℕ × ℕ) (g' : Grid)
    (hok : initBandStep r g c = .ok g') :
    (∀ a b, g'.state a b = PState.KNOWN → g.state a b = PState.KNOWN) ∧
    (∀ a b, g.state a b ≠ PState.UNKNOWN → g'.state a b ≠ PState.UNKNOWN) ∧
    g'.H = g.H ∧ g'.W = g.W := by
  unfold initBandStep at hok
  by_cases hc : g.state c.1 c.2 = PState.UNKNOWN ∧
      (nbrs g.H g.W c.1 c.2).any (fun n => g.state n.1 n.2 = PState.KNOWN)
  · rw [if_pos hc] at hok
    obtain ⟨h1, h2⟩ := makeBand_HW r g c.1 c.2 g' hok
    refine ⟨?_, ?_, h1, h2⟩
    · intro a b hab
      rw [makeBand_state_pt r g c.1 c.2 g' hok] at hab
      by_cases he : a = c.1 ∧ b = c.2
      · rw [if_pos he] at hab
        exact absurd hab (fun hx => PState.noConfusion hx)
      · rw [if_neg he] at hab
        exact hab
    · intro a b hab
      rw [makeBand_state_pt r g c.1 c.2 g' hok]
      by_cases he : a = c.1 ∧ b = c.2
      · rw [if_pos he]
        exact fun hx => PState.noConfusion hx
      · rw [if_neg he]
        exact hab
  · rw [if_neg hc] at hok
    injection hok with hok
    subst hok
    exact ⟨fun a b hab => hab, fun a b hab => hab, rfl, rfl⟩

/-- The initial-band fold: stability facts, and every processed pixel
that is still UNKNOWN at the end has no KNOWN neighbor. -/
theorem initFold_facts (r : ℕ) (l : List (ℕ × ℕ)) :
    ∀ g g', l.foldlM (initBandStep r) g = .ok g' →
      (∀ a b, g'.state a b = PState.KNOWN → g.state a b = PState.KNOWN) ∧
      (∀ a b, g.state a b ≠ PState.UNKNOWN → g'.state a b ≠ PState.UNKNOWN) ∧
      (g'.H = g.H ∧ g'.W = g.W) ∧
      (∀ c ∈ l, g'.state c.1 c.2 = PState.UNKNOWN →
        ∀ n ∈ nbrs g'.H g'.W c.1 c.2, g'.state n.1 n.2 ≠ PState.KNOWN) := by
  induction l with
  | nil =>
    intro g g' h
    injection h with h
    subst h
    exact ⟨fun a b hab => hab, fun a b hab => hab, ⟨rfl, rfl⟩,
      fun c hc => absurd hc (List.not_mem_nil c)⟩
  | cons c cs ih =>
    intro g g' h
    rw [List.foldlM_cons] at h
    cases hstep : initBandStep r g c with
    | error e => rw [hstep] at h; exact Except.noConfusion h
    | ok g1 =>
      rw [hstep] at h
      obtain ⟨ihk, ihu, ihHW, ihmem⟩ := ih g1 g' h
      obtain ⟨sk, su, sH, sW⟩ := initBandStep_facts r g c g1 hstep
      refine ⟨fun a b hab => sk a b (ihk a b hab),
        fun a b hab => ihu a b (su a b hab),
        ⟨ihHW.1.trans sH, ihHW.2.trans sW⟩, ?_⟩
      intro d hd hUnk n hn hKn
      rcases List.mem_cons.1 hd with rfl | hd
      · have hUnk1 : g1.state d.1 d.2 = PState.UNKNOWN := by
          by_contra hne
          exact (ihu d.1 d.2 hne) hUnk
        unfold initBandStep at hstep
        by_cases hc2 : g.state d.1 d.2 = PState.UNKNOWN ∧
            (nbrs g.H g.W d.1 d.2).any (fun n => g.state n.1 n.2 = PState.KNOWN)
        · rw [if_pos hc2] at hstep
          rw [makeBand_state_pt r g d.1 d.2 g1 hstep, if_pos ⟨rfl, rfl⟩] at hUnk1
          exact PState.noConfusion hUnk1
        · rw [if_neg hc2] at hstep
          injection hstep with hstep
          subst hstep
          rw [not_and_or] at hc2
          rcases hc2 with hc2 | hc2
          · exact hc2 hUnk1
          · have hany : (nbrs g.H g.W d.1 d.2).any
                (fun n => g.state n.1 n.2 = PState.KNOWN) = false := by
              cases hb : (nbrs g.H g.W d.1 d.2).any
                  (fun n => g.state n.1 n.2 = PState.KNOWN)
              · rfl
              · exact absurd (of_eq_true (eq_true hb)) hc2
            have hn' : n ∈ nbrs g.H g.W d.1 d.2 := by
              rw [ihHW.1, ihHW.2] at hn
              exact hn
            have hnot := List.any_eq_false.1 hany n hn'
            apply hnot
            rw [decide_eq_true_iff]
            exact ihk n.1 n.2 hKn
      · exact ihmem d hd hUnk n hn hKn

/-- After `initBand`, no UNKNOWN pixel has a KNOWN neighbor. -/
theorem initBand_NBKN (r : ℕ) (g0 g1 : Grid) (hok : initBand r g0 = .ok g1) :
    NoUnknownKnownNbr g1 := by
  unfold initBand at hok
  obtain ⟨_, _, hHW, hmem⟩ := initFold_facts r (allCoords g0.H g0.W) g0 g1 hok
  intro i j hi hj hUnk c hc hKn
  have hmemc : (i, j) ∈ allCoords g0.H g0.W := by
    rw [allCoords_mem]
    rw [hHW.1] at hi
    rw [hHW.2] at hj
    exact ⟨hi, hj⟩
  exact hmem (i, j) hmemc hUnk c hc hKn

/-- A successful march ends with an empty band. -/
theorem march_final (r : ℕ) :
    ∀ fuel (g : Grid) acc gf pops, march r fuel g acc = .ok (gf, pops) →
      popMin gf = none := by
  intro fuel
  induction fuel with
  | zero =>
    intro g acc gf pops h
    unfold march at h
    cases hp : popMin g with
    | none =>
      rw [hp] at h
      injection h with h
      rw [← show g = gf from congrArg Prod.fst h]
      exact hp
    | some c => rw [hp] at h; exact Except.noConfusion h
  | succ n ih =>
    intro g acc gf pops h
    unfold march at h
    cases hp : popMin g with
    | none =>
      rw [hp] at h
      injection h with h
      rw [← show g = gf from congrArg Prod.fst h]
      exact hp
    | some c =>
      rw [hp] at h
      have h2 : (match marchStep r g c.1 c.2 with
          | Except.error e => Except.error e
          | Except.ok g' => march r n g' ((c.1, c.2, g.time c.1 c.2) :: acc)) =
          Except.ok (gf, pops) := h
      cases hms : marchStep r g c.1 c.2 with
      | error e => rw [hms] at h2; exact Except.noConfusion h2
      | ok g1 => rw [hms] at h2; exact ih g1 _ gf pops h2

/-- The march preserves `NoUnknownKnownNbr`. -/
theorem march_NBKN (r : ℕ) :
    ∀ fuel (g : Grid) acc gf pops, march r fuel g acc = .ok (gf, pops) →
      NoUnknownKnownNbr g → NoUnknownKnownNbr gf := by
  intro fuel
  induction fuel with
  | zero =>
    intro g acc gf pops h hP
    unfold march at h
    cases hp : popMin g with
    | none =>
      rw [hp] at h
      injection h with h
      rw [← show g = gf from congrArg Prod.fst h]
      exact hP
    | some c => rw [hp] at h; exact Except.noConfusion h
  | succ n ih =>
    intro g acc gf pops h hP
    unfold march at h
    cases hp : popMin g with
    | none =>
      rw [hp] at h
      injection h with h
      rw [← show g = gf from congrArg Prod.fst h]
      exact hP
    | some c =>
      rw [hp] at h
      have h2 : (match marchStep r g c.1 c.2 with
          | Except.error e => Except.error e
          | Except.ok g' => march r n g' ((c.1, c.2, g.time c.1 c.2) :: acc)) =
          Except.ok (gf, pops) := h
      cases hms : marchStep r g c.1 c.2 with
      | error e => rw [hms] at h2; exact Except.noConfusion h2
      | ok g1 =>
        rw [hms] at h2
        obtain ⟨hc1, hc2, _, _⟩ := popMin_some g c hp
        exact ih g1 _ gf pops h2
          (NoUnknownKnownNbr_marchStep r g c.1 c.2 g1 hc1 hc2 hms hP)

/-- At the end of a successful run every in-bounds pixel is resolved. -/
theorem core_resolved (H W : ℕ) (img : ℕ → ℕ → Frac) (msk : ℕ → ℕ → ℕ)
    (r : ℕ) (gf : Grid) (pops : List (ℕ × ℕ × Frac))
    (hok : inpaint_fmm_core_trace H W img msk r = .ok (gf, pops))
    (htop : ∀ j, msk 0 j = 0) :
    ∀ i j, i < H → j < W → gf.state i j ≠ PState.UNKNOWN := by
  have hHW : gf.H = H ∧ gf.W = W := by
    obtain ⟨h1, h2⟩ := steps_HW r (core_trace_steps H W img msk r gf pops hok)
    exact ⟨h1, h2⟩
  have hKF := KnownFrame_core H W img msk r gf pops hok
  unfold inpaint_fmm_core_trace at hok
  cases hib : initBand r (initGrid H W img msk) with
  | error e => rw [hib] at hok; exact Except.noConfusion hok
  | ok g1 =>
    rw [hib] at hok
    have hNB : NoUnknownKnownNbr gf :=
      march_NBKN r (H * W) g1 [] gf pops hok (initBand_NBKN r _ g1 hib)
    have hpop : popMin gf = none := march_final r (H * W) g1 [] gf pops hok
    intro i
    induction i with
    | zero =>
      intro j hi hj
      rw [(hKF 0 j (htop j)).1]
      exact fun hc => PState.noConfusion hc
    | succ m ihm =>
      intro j hi hj hUnk
      have hm1 : gf.state m j ≠ PState.UNKNOWN := ihm j (by omega) hj
      have hm2 : gf.state m j ≠ PState.BAND :=
        popMin_none gf hpop m j (by rw [hHW.1]; omega) (by rw [hHW.2]; exact hj)
      have hmK : gf.state m j = PState.KNOWN := by
        cases hst : gf.state m j with
        | KNOWN => rfl
        | BAND => exact absurd hst hm2
        | UNKNOWN => exact absurd hst hm1
      have hnbr : (m, j) ∈ nbrs gf.H gf.W (m + 1) j := by
        rw [nbrs_mem]
        right; left
        exact ⟨by omega, by simp⟩
      exact hNB (m + 1) j (by rw [hHW.1]; exact hi) (by rw [hHW.2]; exact hj)
        hUnk (m, j) hnbr hmK

/-- Core-level boundedness: every in-bounds output value lies within
the given bounds on the KNOWN input values. -/
theorem core_values_bounded (H W : ℕ) (img : ℕ → ℕ → Frac) (msk : ℕ → ℕ → ℕ)
    (r : ℕ) (out : ℕ → ℕ → Frac) (lo hi : ℚ)
    (hok : inpaint_fmm_core H W img msk r = .ok out)
    (hinit : ∀ i j, msk i j = 0 → lo ≤ (img i j).val ∧ (img i j).val ≤ hi)
    (htop : ∀ j, msk 0 j = 0) :
    ∀ i j, i < H → j < W → lo ≤ (out i j).val ∧ (out i j).val ≤ hi := by
  unfold inpaint_fmm_core at hok
  cases htr : inpaint_fmm_core_trace H W img msk r with
  | error e => rw [htr] at hok; exact Except.noConfusion hok
  | ok p =>
    rw [htr] at hok
    obtain ⟨gf, pops⟩ := p
    injection hok with hok
    subst hok
    intro i j hib hjb
    have hres := core_resolved H W img msk r gf pops htr htop i j hib hjb
    exact IntBound_steps r lo hi (core_trace_steps H W img msk r gf pops htr)
      (IntBound_init H W img msk lo hi hinit) i j hres

/-- The KNOWN cells (mask value 0) of an `H × W` grid specification. -/
def knownCells (H W : ℕ) (msk : ℕ → ℕ → ℕ) : List (ℕ × ℕ) :=
  (allCoords H W).filter (fun c => msk c.1 c.2 = 0)

def foldMinI (img : ℕ → ℕ → Frac) : List (ℕ × ℕ) → Frac
  | [] => 0
  | c :: cs => cs.foldl (fun m d => Frac.fmin m (img d.1 d.2)) (img c.1 c.2)

def foldMaxI (img : ℕ → ℕ → Frac) : List (ℕ × ℕ) → Frac
  | [] => 0
  | c :: cs => cs.foldl (fun m d => Frac.fmax m (img d.1 d.2)) (img c.1 c.2)

/-- Minimum intensity among the KNOWN pixels of the (padded) grid. -/
def knownMin (H W : ℕ) (img : ℕ → ℕ → Frac) (msk : ℕ → ℕ → ℕ) : Frac :=
  foldMinI img (knownCells H W msk)

/-- Maximum intensity among the KNOWN pixels of the (padded) grid. -/
def knownMax (H W : ℕ) (img : ℕ → ℕ → Frac) (msk : ℕ → ℕ → ℕ) : Frac :=
  foldMaxI img (knownCells H W msk)

theorem fmin_cases (x y : Frac) : Frac.fmin x y = x ∨ Frac.fmin x y = y := by
  unfold Frac.fmin
  by_cases h : Frac.ble x y = true
  · rw [if_pos h]; exact Or.inl rfl
  · rw [if_neg h]; exact Or.inr rfl

theorem fmax_cases (x y : Frac) : Frac.fmax x y = x ∨ Frac.fmax x y = y := by
  unfold Frac.fmax
  by_cases h : Frac.ble x y = true
  · rw [if_pos h]; exact Or.inr rfl
  · rw [if_neg h]; exact Or.inl rfl

theorem foldMin_aux (img : ℕ → ℕ → Frac) (l : List (ℕ × ℕ)) :
    ∀ m : Frac,
      (l.foldl (fun m d => Frac.fmin m (img d.1 d.2)) m).val ≤ m.val ∧
      (∀ c ∈ l, (l.foldl (fun m d => Frac.fmin m (img d.1 d.2)) m).val ≤ (img c.1 c.2).val) ∧
      ((l.foldl (fun m d => Frac.fmin m (img d.1 d.2)) m) = m ∨
        ∃ c ∈ l, (l.foldl (fun m d => Frac.fmin m (img d.1 d.2)) m) = img c.1 c.2) := by
  induction l with
  | nil =>
    intro m
    exact ⟨le_refl _, fun c hc => absurd hc (List.not_mem_nil c), Or.inl rfl⟩
  | cons d ds ih =>
    intro m
    rw [List.foldl_cons]
    obtain ⟨ih1, ih2, ih3⟩ := ih (Frac.fmin m (img d.1 d.2))
    have hmin : (Frac.fmin m (img d.1 d.2)).val ≤ m.val ∧
        (Frac.fmin m (img d.1 d.2)).val ≤ (img d.1 d.2).val := by
      rw [Frac.val_fmin]
      exact ⟨min_le_left _ _, min_le_right _ _⟩
    refine ⟨le_trans ih1 hmin.1, ?_, ?_⟩
    · intro c hc
      rcases List.mem_cons.1 hc with rfl | hc
      · exact le_trans ih1 hmin.2
      · exact ih2 c hc
    · rcases ih3 with h | ⟨c, hc, h⟩
      · rcases fmin_cases m (img d.1 d.2) with he | he
        · exact Or.inl (h.trans he)
        · exact Or.inr ⟨d, List.mem_cons_self d ds, h.trans he⟩
      · exact Or.inr ⟨c, List.mem_cons_of_mem d hc, h⟩

theorem foldMax_aux (img : ℕ → ℕ → Frac) (l : List (ℕ × ℕ)) :
    ∀ m : Frac,
      m.val ≤ (l.foldl (fun m d => Frac.fmax m (img d.1 d.2)) m).val ∧
      (∀ c ∈ l, (img c.1 c.2).val ≤ (l.foldl (fun m d => Frac.fmax m (img d.1 d.2)) m).val) ∧
      ((l.foldl (fun m d => Frac.fmax m (img d.1 d.2)) m) = m ∨
        ∃ c ∈ l, (l.foldl (fun m d => Frac.fmax m (img d.1 d.2)) m) = img c.1 c.2) := by
  induction l with
  | nil =>
    intro m
    exact ⟨le_refl _, fun c hc => absurd hc (List.not_mem_nil c), Or.inl rfl⟩
  | cons d ds ih =>
    intro m
    rw [List.foldl_cons]
    obtain ⟨ih1, ih2, ih3⟩ := ih (Frac.fmax m (img d.1 d.2))
    have hmax : m.val ≤ (Frac.fmax m (img d.1 d.2)).val ∧
        (img d.1 d.2).val ≤ (Frac.fmax m (img d.1 d.2)).val := by
      rw [Frac.val_fmax]
      exact ⟨le_max_left _ _, le_max_right _ _⟩
    refine ⟨le_trans hmax.1 ih1, ?_, ?_⟩
    · intro c hc
      rcases List.mem_cons.1 hc with rfl | hc
      · exact le_trans hmax.2 ih1
      · exact ih2 c hc
    · rcases ih3 with h | ⟨c, hc, h⟩
      · rcases fmax_cases m (img d.1 d.2) with he | he
        · exact Or.inl (h.trans he)
        · exact Or.inr ⟨d, List.mem_cons_self d ds, h.trans he⟩
      · exact Or.inr ⟨c, List.mem_cons_of_mem d hc, h⟩

theorem foldMinI_le (img : ℕ → ℕ → Frac) (l : List (ℕ × ℕ)) (c : ℕ × ℕ) (hc : c ∈ l) :
    (foldMinI img l).val ≤ (img c.1 c.2).val := by
  cases l with
  | nil => exact absurd hc (List.not_mem_nil c)
  | cons d ds =>
    obtain ⟨h1, h2, _⟩ := foldMin_aux img ds (img d.1 d.2)
    rcases List.mem_cons.1 hc with rfl | hc
    · exact h1
    · exact h2 c hc

theorem le_foldMaxI (img : ℕ → ℕ → Frac) (l : List (ℕ × ℕ)) (c : ℕ × ℕ) (hc : c ∈ l) :
    (img c.1 c.2).val ≤ (foldMaxI img l).val := by
  cases l with
  | nil => exact absurd hc (List.not_mem_nil c)
  | cons d ds =>
    obtain ⟨h1, h2, _⟩ := foldMax_aux img ds (img d.1 d.2)
    rcases List.mem_cons.1 hc with rfl | hc
    · exact h1
    · exact h2 c hc

theorem foldMinI_mem (img : ℕ → ℕ → Frac) (l : List (ℕ × ℕ)) (h : l ≠ []) :
    ∃ c ∈ l, foldMinI img l = img c.1 c.2 := by
  cases l with
  | nil => exact absurd rfl h
  | cons d ds =>
    obtain ⟨_, _, h3⟩ := foldMin_aux img ds (img d.1 d.2)
    rcases h3 with he | ⟨c, hc, he⟩
    · exact ⟨d, List.mem_cons_self d ds, he⟩
    · exact ⟨c, List.mem_cons_of_mem d hc, he⟩

theorem foldMaxI_mem (img : ℕ → ℕ → Frac) (l : List (ℕ × ℕ)) (h : l ≠ []) :
    ∃ c ∈ l, foldMaxI img l = img c.1 c.2 := by
  cases l with
  | nil => exact absurd rfl h
  | cons d ds =>
    obtain ⟨_, _, h3⟩ := foldMax_aux img ds (img d.1 d.2)
    rcases h3 with he | ⟨c, hc, he⟩
    · exact ⟨d, List.mem_cons_self d ds, he⟩
    · exact ⟨c, List.mem_cons_of_mem d hc, he⟩

theorem wf_val (v : Frac) (h : v.den = 1) : v.val = (v.num : ℚ) := by
  unfold Frac.val
  rw [h]
  norm_num

theorem clip255_val (x : Frac) : (clip255 x).val = max 0 (min x.val 255) := by
  unfold clip255
  rw [Frac.val_fmax, Frac.val_fmin, Frac.val_zero, Frac.val_natCast]

/-- C7: every synthesized (previously masked) intensity in the result
lies within the min/max of the KNOWN-pixel intensities of the padded
working grid (which includes the zero-valued border ring added by the
wrapper). -/
theorem inpaint_fmm_synth_bounded (image mask : NdArray) (radius : ℤ)
    (rows cols : ℕ) (h2 : image.shape = [rows, cols])
    (h8 : ∀ v ∈ (img_as_ubyte image).data, v.den = 1 ∧ 0 ≤ v.num ∧ v.num ≤ 255)
    (out : NdArray) (hok : inpaint_fmm image mask radius = .ok out) :
    ∀ i j, i < rows → j < cols → maskCast (arrFun mask cols i j) ≠ 0 →
      (knownMin (rows + 2) (cols + 2) (padImage rows cols (arrFun (img_as_ubyte image) cols))
          (padMask rows cols (arrFun mask cols))).val ≤
        (out.data.getD (i * cols + j) 0).val ∧
      (out.data.getD (i * cols + j) 0).val ≤
        (knownMax (rows + 2) (cols + 2) (padImage rows cols (arrFun (img_as_ubyte image) cols))
          (padMask rows cols (arrFun mask cols))).val := by
  obtain ⟨co, hco, rfl⟩ := inpaint_fmm_ok_elim image mask radius rows cols h2 out hok
  intro i j hi hj _hm
  rw [postProcess_getD rows cols co i j hi hj]
  set pimg := padImage rows cols (arrFun (img_as_ubyte image) cols) with hpimg
  set pmsk := padMask rows cols (arrFun mask cols) with hpmsk
  have hpv : ∀ a b, (pimg a b).den = 1 ∧ 0 ≤ (pimg a b).num ∧ (pimg a b).num ≤ 255 := by
    intro a b
    rw [hpimg]
    unfold padImage
    by_cases hcond : 1 ≤ a ∧ a ≤ rows ∧ 1 ≤ b ∧ b ≤ cols
    · rw [if_pos hcond]
      unfold arrFun
      by_cases hidx : (a - 1) * cols + (b - 1) < (img_as_ubyte image).data.length
      · rw [List.getD_eq_getElem _ _ hidx]
        exact h8 _ (List.getElem_mem hidx)
      · rw [List.getD_eq_default _ _ (by omega)]
        exact ⟨rfl, by decide, by decide⟩
    · rw [if_neg hcond]
      exact ⟨rfl, by decide, by decide⟩
  have hmem00 : ((0, 0) : ℕ × ℕ) ∈ knownCells (rows + 2) (cols + 2) pmsk := by
    unfold knownCells
    rw [List.mem_filter]
    constructor
    · rw [allCoords_mem]
      exact ⟨by omega, by omega⟩
    · rw [decide_eq_true_iff]
      rw [hpmsk]
      unfold padMask
      rw [if_neg (by omega)]
  have hne : knownCells (rows + 2) (cols + 2) pmsk ≠ [] := by
    intro hc
    rw [hc] at hmem00
    exact List.not_mem_nil _ hmem00
  have hp00 : pimg 0 0 = (0 : Frac) := by
    rw [hpimg]
    unfold padImage
    rw [if_neg (by omega)]
  have hlo0 : (knownMin (rows + 2) (cols + 2) pimg pmsk).val ≤ 0 := by
    have := foldMinI_le pimg (knownCells (rows + 2) (cols + 2) pmsk) (0, 0) hmem00
    rw [hp00] at this
    rw [Frac.val_zero] at this
    exact this
  have hhi0 : 0 ≤ (knownMax (rows + 2) (cols + 2) pimg pmsk).val := by
    have := le_foldMaxI pimg (knownCells (rows + 2) (cols + 2) pmsk) (0, 0) hmem00
    rw [hp00] at this
    rw [Frac.val_zero] at this
    exact this
  have hinit : ∀ a b, pmsk a b = 0 →
      (knownMin (rows + 2) (cols + 2) pimg pmsk).val ≤ (pimg a b).val ∧
      (pimg a b).val ≤ (knownMax (rows + 2) (cols + 2) pimg pmsk).val := by
    intro a b hab
    by_cases hbnd : a < rows + 2 ∧ b < cols + 2
    · have hmemab : ((a, b) : ℕ × ℕ) ∈ knownCells (rows + 2) (cols + 2) pmsk := by
        unfold knownCells
        rw [List.mem_filter]
        refine ⟨?_, ?_⟩
        · rw [allCoords_mem]
          exact hbnd
        · rw [decide_eq_true_iff]
          exact hab
      exact ⟨foldMinI_le pimg _ (a, b) hmemab, le_foldMaxI pimg _ (a, b) hmemab⟩
    · have hz : pimg a b = (0 : Frac) := by
        rw [hpimg]
        unfold padImage
        rw [if_neg (by omega)]
      rw [hz, Frac.val_zero]
      exact ⟨hlo0, hhi0⟩
  have htop : ∀ b, pmsk 0 b = 0 := by
    intro b
    rw [hpmsk]
    unfold padMask
    rw [if_neg (by omega)]
  have hbnd := core_values_bounded (rows + 2) (cols + 2) pimg pmsk radius.toNat co
    (knownMin (rows + 2) (cols + 2) pimg pmsk).val
    (knownMax (rows + 2) (cols + 2) pimg pmsk).val hco hinit htop
    (i + 1) (j + 1) (by omega) (by omega)
  -- integer endpoints
  obtain ⟨cl, _, hcl⟩ := foldMinI_mem pimg (knownCells (rows + 2) (cols + 2) pmsk) hne
  obtain ⟨ch, _, hch⟩ := foldMaxI_mem pimg (knownCells (rows + 2) (cols + 2) pmsk) hne
  have hKm : knownMin (rows + 2) (cols + 2) pimg pmsk = pimg cl.1 cl.2 := hcl
  have hKM : knownMax (rows + 2) (cols + 2) pimg pmsk = pimg ch.1 ch.2 := hch
  obtain ⟨hd1, hn1, hn2⟩ := hpv cl.1 cl.2
  obtain ⟨hd2, hn3, hn4⟩ := hpv ch.1 ch.2
  have hloval : (knownMin (rows + 2) (cols + 2) pimg pmsk).val =
      ((pimg cl.1 cl.2).num : ℚ) := by
    rw [hKm, wf_val _ hd1]
  have hhival : (knownMax (rows + 2) (cols + 2) pimg pmsk).val =
      ((pimg ch.1 ch.2).num : ℚ) := by
    rw [hKM, wf_val _ hd2]
  set v := co (i + 1) (j + 1) with hvdef
  have hclipv : (clip255 v).val = v.val := by
    rw [clip255_val]
    have h255 : v.val ≤ 255 := by
      refine le_trans hbnd.2 ?_
      rw [hhival]
      exact_mod_cast hn4
    have h00 : 0 ≤ v.val := by
      refine le_trans ?_ hbnd.1
      rw [hloval]
      exact_mod_cast hn1
    rw [min_eq_left h255, max_eq_right h00]
  have hk1 : (pimg cl.1 cl.2).num ≤ nround (clip255 v) := by
    apply le_nround
    rw [hclipv]
    rw [hloval] at hbnd
    exact hbnd.1
  have hk2 : nround (clip255 v) ≤ (pimg ch.1 ch.2).num := by
    apply nround_le
    rw [hclipv]
    rw [hhival] at hbnd
    exact hbnd.2
  have hk0 : 0 ≤ nround (clip255 v) := le_trans hn1 hk1
  have hk255 : nround (clip255 v) ≤ 255 := le_trans hk2 hn4
  have htu : ((toUint8 (nround (clip255 v)) : ℕ) : ℤ) = nround (clip255 v) := by
    unfold toUint8
    have he : (nround (clip255 v)).emod 256 = nround (clip255 v) % 256 := rfl
    rw [he]
    omega
  have hval : (Frac.ofInt (toUint8 (nround (clip255 v)))).val =
      ((nround (clip255 v) : ℤ) : ℚ) := by
    rw [Frac.val_ofInt]
    exact_mod_cast congrArg (fun z : ℤ => (z : ℚ)) htu
  rw [hval]
  constructor
  · rw [hloval]
    exact_mod_cast hk1
  · rw [hhival]
    exact_mod_cast hk2

/-! ## C8: pop-time monotonicity of the marching loop

The analytic core: the four-step Newton square-root map is monotone and
1/2-Lipschitz on arguments `≥ 1`, hence the two-sided Eikonal
combination is monotone in each input. -/

/-- One Newton step at the rational level. -/
def nstep (y x : ℚ) : ℚ := (x + y / x) / 2

theorem nstep_pos (y x : ℚ) (hy : 0 < y) (hx : 0 < x) : 0 < nstep y x := by
  unfold nstep
  positivity

theorem nstep_sq_ge (y x : ℚ) (_hy : 0 < y) (hx : 0 < x) : y ≤ (nstep y x) ^ 2 := by
  unfold nstep
  have hq : y = y / x * x := by field_simp
  nlinarith [sq_nonneg (x - y / x)]

theorem nstep_le_self (y x : ℚ) (hx : 0 < x) (hsq : y ≤ x ^ 2) : nstep y x ≤ x := by
  unfold nstep
  have h1 : y / x ≤ x := by
    rw [div_le_iff₀ hx]
    nlinarith
  linarith

/-- A Newton step is monotone and 1/2-Lipschitz in the pair
(argument, iterate) when the argument is at least 1. -/
theorem nstep_mono_lip (y y' x x' : ℚ) (hy' : 1 ≤ y') (hyy : y' ≤ y)
    (hx' : 0 < x') (hxx : x' ≤ x) (hsq' : y' ≤ x' ^ 2)
    (hlip : x - x' ≤ (y - y') / 2) :
    nstep y' x' ≤ nstep y x ∧ nstep y x - nstep y' x' ≤ (y - y') / 2 := by
  have hx : 0 < x := lt_of_lt_of_le hx' hxx
  have hxx'y : y' ≤ x * x' := by nlinarith
  have key : (x + y / x) - (x' + y' / x') =
      ((x - x') * (x * x' - y') + (y - y') * x') / (x * x') := by
    field_simp
    ring
  have hnum1 : 0 ≤ (x - x') * (x * x' - y') + (y - y') * x' := by
    have h1 : 0 ≤ (x - x') * (x * x' - y') :=
      mul_nonneg (by linarith) (by linarith)
    have h2 : 0 ≤ (y - y') * x' := mul_nonneg (by linarith) (by linarith)
    linarith
  have hge : 0 ≤ (x + y / x) - (x' + y' / x') := by
    rw [key]
    positivity
  constructor
  · unfold nstep
    linarith
  · unfold nstep
    have haux : 0 ≤ x * x' - 2 * x' + y' := by nlinarith [sq_nonneg (x' - 1)]
    have hprod1 : (x - x') * (x * x' - y') ≤ ((y - y') / 2) * (x * x' - y') :=
      mul_le_mul_of_nonneg_right hlip (by linarith)
    have hprod2 : 0 ≤ ((y - y') / 2) * (x * x' - 2 * x' + y') :=
      mul_nonneg (by linarith) haux
    have hmain : (x - x') * (x * x' - y') + (y - y') * x' ≤ (y - y') * (x * x') := by
      nlinarith
    have hfin : (x + y / x) - (x' + y' / x') ≤ y - y' := by
      rw [key, div_le_iff₀ (by positivity)]
      nlinarith
    linarith

/-- The `ratSqrt` model at the rational level: four Newton steps from
`max y 1` for positive `y`, and `0` otherwise. -/
def rsq (y : ℚ) : ℚ :=
  if y ≤ 0 then 0 else nstep y (nstep y (nstep y (nstep y (max y 1))))

theorem rsq_pos (y : ℚ) (hy : 0 < y) : 0 < rsq y := by
  unfold rsq
  rw [if_neg (by linarith)]
  have h0 : 0 < max y 1 := lt_max_of_lt_right one_pos
  exact nstep_pos _ _ hy (nstep_pos _ _ hy (nstep_pos _ _ hy (nstep_pos _ _ hy h0)))

theorem rsq_nonneg (y : ℚ) : 0 ≤ rsq y := by
  by_cases hy : 0 < y
  · exact le_of_lt (rsq_pos y hy)
  · unfold rsq
    rw [if_pos (by linarith)]

theorem rsq_sq_ge (y : ℚ) (hy : 0 < y) : y ≤ (rsq y) ^ 2 := by
  unfold rsq
  rw [if_neg (by linarith)]
  have h0 : 0 < max y 1 := lt_max_of_lt_right one_pos
  exact nstep_sq_ge _ _ hy (nstep_pos _ _ hy (nstep_pos _ _ hy (nstep_pos _ _ hy h0)))

theorem rsq_ge_abs (c y : ℚ) (hc : c ^ 2 ≤ y) : |c| ≤ rsq y := by
  by_cases hy : 0 < y
  · have h1 := rsq_sq_ge y hy
    have h2 := rsq_nonneg y
    nlinarith [sq_abs c, abs_nonneg c]
  · have hc0 : c = 0 := by nlinarith [sq_nonneg c]
    rw [hc0, abs_zero]
    exact rsq_nonneg y

theorem rsq_le_half (y : ℚ) (hy : 1 ≤ y) : rsq y ≤ (y + 1) / 2 := by
  have hy0 : 0 < y := by linarith
  unfold rsq
  rw [if_neg (by linarith), max_eq_left hy]
  have e1 : nstep y y = (y + 1) / 2 := by
    unfold nstep
    rw [div_self (ne_of_gt hy0)]
  have h1pos : 0 < nstep y y := nstep_pos _ _ hy0 hy0
  have h1sq : y ≤ (nstep y y) ^ 2 := nstep_sq_ge _ _ hy0 hy0
  have h2le := nstep_le_self y _ h1pos h1sq
  have h2pos := nstep_pos y _ hy0 h1pos
  have h2sq := nstep_sq_ge y _ hy0 h1pos
  have h3le := nstep_le_self y _ h2pos h2sq
  have h3pos := nstep_pos y _ hy0 h2pos
  have h3sq := nstep_sq_ge y _ hy0 h2pos
  have h4le := nstep_le_self y _ h3pos h3sq
  linarith [e1]

/-- The four-step Newton square root is monotone and 1/2-Lipschitz on
arguments `≥ 1`. -/
theorem rsq_mono_lip (y y' : ℚ) (h1 : 1 ≤ y') (h2 : y' ≤ y) :
    rsq y' ≤ rsq y ∧ rsq y - rsq y' ≤ (y - y') / 2 := by
  have hy0 : 0 < y := by linarith
  have hy'0 : 0 < y' := by linarith
  unfold rsq
  rw [if_neg (by linarith), if_neg (by linarith),
    max_eq_left (by linarith : (1 : ℚ) ≤ y), max_eq_left h1]
  have e1 : nstep y y = (y + 1) / 2 := by
    unfold nstep
    rw [div_self (ne_of_gt hy0)]
  have e1' : nstep y' y' = (y' + 1) / 2 := by
    unfold nstep
    rw [div_self (ne_of_gt hy'0)]
  have s1a : nstep y' y' ≤ nstep y y := by rw [e1, e1']; linarith
  have s1b : nstep y y - nstep y' y' ≤ (y - y') / 2 := by rw [e1, e1']; linarith
  have p1' : 0 < nstep y' y' := nstep_pos _ _ hy'0 hy'0
  have q1' : y' ≤ (nstep y' y') ^ 2 := nstep_sq_ge _ _ hy'0 hy'0
  obtain ⟨s2a, s2b⟩ := nstep_mono_lip y y' _ _ h1 h2 p1' s1a q1' s1b
  have p2' : 0 < nstep y' (nstep y' y') := nstep_pos _ _ hy'0 p1'
  have q2' : y' ≤ (nstep y' (nstep y' y')) ^ 2 := nstep_sq_ge _ _ hy'0 p1'
  obtain ⟨s3a, s3b⟩ := nstep_mono_lip y y' _ _ h1 h2 p2' s2a q2' s2b
  have p3' : 0 < nstep y' (nstep y' (nstep y' y')) := nstep_pos _ _ hy'0 p2'
  have q3' : y' ≤ (nstep y' (nstep y' (nstep y' y'))) ^ 2 := nstep_sq_ge _ _ hy'0 p2'
  exact nstep_mono_lip y y' _ _ h1 h2 p3' s3a q3' s3b

/-- The two-sided Eikonal combination at the rational level. -/
def fq (p q : ℚ) : ℚ :=
  if |p - q| < 1 then (p + q + rsq (2 - (p - q) ^ 2)) / 2 else min p q + 1

theorem fq_ge_max (p q : ℚ) (h : |p - q| < 1) : max p q ≤ fq p q := by
  unfold fq
  rw [if_pos h]
  have hS : |p - q| ≤ rsq (2 - (p - q) ^ 2) :=
    rsq_ge_abs _ _ (by nlinarith [sq_abs (p - q), abs_nonneg (p - q)])
  rcases le_total p q with hpq | hpq
  · rw [max_eq_right hpq]
    rw [abs_sub_comm, abs_of_nonneg (by linarith)] at hS
    linarith
  · rw [max_eq_left hpq]
    rw [abs_of_nonneg (by linarith)] at hS
    linarith

theorem fq_le_min (p q : ℚ) : fq p q ≤ min p q + 1 := by
  unfold fq
  by_cases h : |p - q| < 1
  · rw [if_pos h]
    have h1 : 1 ≤ 2 - (p - q) ^ 2 := by
      nlinarith [sq_abs (p - q), abs_nonneg (p - q)]
    have hS := rsq_le_half _ h1
    have hS2 : rsq (2 - (p - q) ^ 2) ≤ 2 - |p - q| := by
      nlinarith [sq_abs (p - q), sq_nonneg (|p - q| - 1), abs_nonneg (p - q)]
    rcases le_total p q with hpq | hpq
    · rw [min_eq_left hpq]
      rw [abs_sub_comm, abs_of_nonneg (by linarith)] at hS2
      linarith
    · rw [min_eq_right hpq]
      rw [abs_of_nonneg (by linarith)] at hS2
      linarith
  · rw [if_neg h]

theorem fq_lb (p q t : ℚ) (hp : t ≤ p) (hq : t ≤ q) : t ≤ fq p q := by
  by_cases h : |p - q| < 1
  · exact le_trans (le_trans hp (le_max_left p q)) (fq_ge_max p q h)
  · unfold fq
    rw [if_neg h]
    have : t ≤ min p q := le_min hp hq
    linarith

theorem fq_lb_mixed (p q t : ℚ) (hp : t - 1 ≤ p) (hq : t ≤ q) : t ≤ fq p q := by
  by_cases h : |p - q| < 1
  · exact le_trans (le_trans hq (le_max_right p q)) (fq_ge_max p q h)
  · unfold fq
    rw [if_neg h]
    have : t - 1 ≤ min p q := le_min hp (by linarith)
    linarith

theorem fq_comm (p q : ℚ) : fq p q = fq q p := by
  unfold fq
  rw [abs_sub_comm, min_comm, show (2 : ℚ) - (p - q) ^ 2 = 2 - (q - p) ^ 2 by ring,
    add_comm p q]

theorem fq_mono1 (p p' q : ℚ) (h : p ≤ p') : fq p q ≤ fq p' q := by
  by_cases h1 : |p - q| < 1 <;> by_cases h2 : |p' - q| < 1
  · unfold fq
    rw [if_pos h1, if_pos h2]
    have hd1 := abs_lt.1 h1
    have hd2 := abs_lt.1 h2
    rcases le_or_lt ((p' - q) ^ 2) ((p - q) ^ 2) with hc | hc
    · have hm := (rsq_mono_lip (2 - (p' - q) ^ 2) (2 - (p - q) ^ 2)
        (by nlinarith) (by linarith)).1
      linarith
    · have hm := (rsq_mono_lip (2 - (p - q) ^ 2) (2 - (p' - q) ^ 2)
        (by nlinarith) (by linarith)).2
      have hfac : ((p' - q) + (p - q)) * ((p' - q) - (p - q)) ≤
          2 * ((p' - q) - (p - q)) :=
        mul_le_mul_of_nonneg_right (by linarith) (by linarith)
      nlinarith
  · have hd1 := abs_lt.1 h1
    have hd' : 1 ≤ p' - q := by
      rcases le_abs.1 (not_lt.1 h2) with hx | hx
      · exact hx
      · linarith
    have e2 : fq p' q = q + 1 := by
      unfold fq
      rw [if_neg h2, min_eq_right (by linarith)]
    rw [e2]
    have := fq_le_min p q
    have := min_le_right p q
    linarith
  · have hd2 := abs_lt.1 h2
    have hd : p - q ≤ -1 := by
      rcases le_abs.1 (not_lt.1 h1) with hx | hx
      · linarith
      · linarith
    have e1 : fq p q = p + 1 := by
      unfold fq
      rw [if_neg h1, min_eq_left (by linarith)]
    rw [e1]
    have := fq_ge_max p' q h2
    have := le_max_right p' q
    linarith
  · unfold fq
    rw [if_neg h1, if_neg h2]
    have : min p q ≤ min p' q := min_le_min h (le_refl q)
    linarith

theorem fq_mono2 (p q q' : ℚ) (h : q ≤ q') : fq p q ≤ fq p q' := by
  rw [fq_comm p q, fq_comm p q']
  exact fq_mono1 q q' p h

/-- `ratSqrt` computes `rsq` of the value. -/
theorem ratSqrt_val (a : Frac) : (ratSqrt a).val = rsq a.val := by
  unfold ratSqrt rsq
  by_cases h : Frac.ble a 0 = true
  · have hv : a.val ≤ 0 := by
      have := (Frac.ble_iff a 0).1 h
      rw [Frac.val_zero] at this
      exact this
    rw [if_pos h, if_pos hv, Frac.val_zero]
  · have hv : ¬ a.val ≤ 0 := by
      intro hc
      apply h
      rw [Frac.ble_iff, Frac.val_zero]
      exact hc
    rw [if_neg h, if_neg hv]
    simp only [val_newtonStep, Frac.val_fmax, Frac.val_one, nstep]

/-- The two-sided Eikonal combination computes `fq` of the values. -/
theorem eikCombine_val (x y u : Frac) (h : eikCombine (some x) (some y) = some u) :
    u.val = fq x.val y.val := by
  simp only [eikCombine] at h
  have harg : ((2 : Frac) - (x - y) * (x - y)).val = 2 - (x.val - y.val) ^ 2 := by
    simp
    ring
  by_cases hb : Frac.blt (Frac.abs (x - y)) 1 = true
  · rw [if_pos hb] at h
    injection h with h
    subst h
    rw [Frac.blt_iff, Frac.val_abs, Frac.val_sub, Frac.val_one] at hb
    have hv : (((x + y + ratSqrt (2 - (x - y) * (x - y)))) / 2).val =
        (x.val + y.val + (ratSqrt (2 - (x - y) * (x - y))).val) / 2 := by
      simp
    rw [hv, ratSqrt_val, harg]
    unfold fq
    rw [if_pos hb]
  · rw [if_neg hb] at h
    injection h with h
    subst h
    have hb' : ¬ |x.val - y.val| < 1 := by
      intro hc
      apply hb
      rw [Frac.blt_iff, Frac.val_abs, Frac.val_sub, Frac.val_one]
      exact hc
    unfold fq
    rw [if_neg hb', Frac.val_add, Frac.val_fmin, Frac.val_one]

theorem eikCombine_none_iff (o₁ o₂ : Option Frac) :
    eikCombine o₁ o₂ = none ↔ o₁ = none ∧ o₂ = none := by
  cases o₁ with
  | none =>
    cases o₂ with
    | none => simp [eikCombine]
    | some b => simp [eikCombine]
  | some a =>
    cases o₂ with
    | none => simp [eikCombine]
    | some b =>
      simp only [eikCombine]
      constructor
      · intro h
        by_cases hb : Frac.blt (Frac.abs (a - b)) 1 = true
        · rw [if_pos hb] at h
          exact absurd h (Option.noConfusion)
        · rw [if_neg hb] at h
          exact absurd h (Option.noConfusion)
      · intro h
        exact absurd h.1 (Option.noConfusion)

/-- Each present input bounds the Eikonal combination from above by
`input + 1`. -/
theorem eikCombine_ub (o₁ o₂ : Option Frac) (w : Frac)
    (h : eikCombine o₁ o₂ = some w) :
    (∀ a, o₁ = some a → w.val ≤ a.val + 1) ∧
    (∀ b, o₂ = some b → w.val ≤ b.val + 1) := by
  cases o₁ with
  | none =>
    cases o₂ with
    | none => exact absurd h (by simp [eikCombine])
    | some b =>
      have hw := eikCombine_right b w h
      refine ⟨fun a ha => Option.noConfusion ha, fun b' hb => ?_⟩
      injection hb with hb
      subst hb
      rw [hw]
  | some a =>
    cases o₂ with
    | none =>
      have hw := eikCombine_left a w h
      refine ⟨fun a' ha => ?_, fun b hb => Option.noConfusion hb⟩
      injection ha with ha
      subst ha
      rw [hw]
    | some b =>
      have hw := eikCombine_val a b w h
      have hmin := fq_le_min a.val b.val
      refine ⟨fun a' ha => ?_, fun b' hb => ?_⟩
      · injection ha with ha
        subst ha
        have := min_le_left a.val b.val
        linarith [hw ▸ hmin]
      · injection hb with hb
        subst hb
        have := min_le_right a.val b.val
        linarith [hw ▸ hmin]

/-- A uniform lower bound on the inputs bounds the Eikonal combination
from below. -/
theorem eikCombine_lb (o₁ o₂ : Option Frac) (u : Frac) (t : ℚ)
    (h1 : ∀ a, o₁ = some a → t ≤ a.val) (h2 : ∀ b, o₂ = some b → t ≤ b.val)
    (h : eikCombine o₁ o₂ = some u) : t ≤ u.val := by
  cases o₁ with
  | none =>
    cases o₂ with
    | none => exact absurd h (by simp [eikCombine])
    | some b =>
      rw [eikCombine_right b u h]
      have := h2 b rfl
      linarith
  | some a =>
    cases o₂ with
    | none =>
      rw [eikCombine_left a u h]
      have := h1 a rfl
      linarith
    | some b =>
      rw [eikCombine_val a b u h]
      exact fq_lb _ _ _ (h1 a rfl) (h2 b rfl)

/-- Pointwise domination of optional inputs (`none` = `+∞`). -/
def ole (o p : Option Frac) : Prop :=
  ∀ b, p = some b → ∃ a, o = some a ∧ a.val ≤ b.val

/-- The Eikonal combination is monotone with respect to `ole`. -/
theorem eikCombine_mono (o₁ o₂ p₁ p₂ : Option Frac) (u w : Frac)
    (h1 : ole o₁ p₁) (h2 : ole o₂ p₂)
    (hu : eikCombine o₁ o₂ = some u) (hw : eikCombine p₁ p₂ = some w) :
    u.val ≤ w.val := by
  cases p₁ with
  | none =>
    cases p₂ with
    | none => exact absurd hw (by simp [eikCombine])
    | some a₂ =>
      obtain ⟨b₂, hb₂, hle₂⟩ := h2 a₂ rfl
      have hwv := eikCombine_right a₂ w hw
      subst hb₂
      cases ho₁ : o₁ with
      | none =>
        rw [ho₁] at hu
        rw [eikCombine_right b₂ u hu, hwv]
        linarith
      | some b₁ =>
        rw [ho₁] at hu
        rw [eikCombine_val b₁ b₂ u hu, hwv]
        have := fq_le_min b₁.val b₂.val
        have := min_le_right b₁.val b₂.val
        linarith
  | some a₁ =>
    obtain ⟨b₁, hb₁, hle₁⟩ := h1 a₁ rfl
    subst hb₁
    cases p₂ with
    | none =>
      have hwv := eikCombine_left a₁ w hw
      cases ho₂ : o₂ with
      | none =>
        rw [ho₂] at hu
        rw [eikCombine_left b₁ u hu, hwv]
        linarith
      | some b₂ =>
        rw [ho₂] at hu
        rw [eikCombine_val b₁ b₂ u hu, hwv]
        have := fq_le_min b₁.val b₂.val
        have := min_le_left b₁.val b₂.val
        linarith
    | some a₂ =>
      obtain ⟨b₂, hb₂, hle₂⟩ := h2 a₂ rfl
      subst hb₂
      rw [eikCombine_val b₁ b₂ u hu, eikCombine_val a₁ a₂ w hw]
      exact le_trans (fq_mono1 b₁.val a₁.val b₂.val hle₁)
        (fq_mono2 a₁.val b₂.val a₂.val hle₂)

/-- The arrival time of an in-bounds finalized (KNOWN) pixel, with an
optional excluded coordinate `e` (used to ignore a just-finalized
pixel); `none` otherwise. -/
def finTimeEx (g : Grid) (e : Option (ℕ × ℕ)) (i j : ℕ) : Option Frac :=
  if i < g.H ∧ j < g.W ∧ g.state i j = PState.KNOWN ∧ e ≠ some (i, j) then
    some (g.time i j)
  else none

/-- Minimum finalized time among the two vertical neighbors. -/
def axisVFin (g : Grid) (e : Option (ℕ × ℕ)) (i j : ℕ) : Option Frac :=
  omin (if 1 ≤ i then finTimeEx g e (i - 1) j else none) (finTimeEx g e (i + 1) j)

/-- Minimum finalized time among the two horizontal neighbors. -/
def axisHFin (g : Grid) (e : Option (ℕ × ℕ)) (i j : ℕ) : Option Frac :=
  omin (if 1 ≤ j then finTimeEx g e i (j - 1) else none) (finTimeEx g e i (j + 1))

/-- The Eikonal solve restricted to finalized neighbors. -/
def solveFin (g : Grid) (e : Option (ℕ × ℕ)) (i j : ℕ) : Option Frac :=
  eikCombine (axisVFin g e i j) (axisHFin g e i j)

theorem omin_some_left (o₁ o₂ : Option Frac) (a : Frac) (h : o₁ = some a) :
    ∃ m, omin o₁ o₂ = some m ∧ m.val ≤ a.val := by
  subst h
  cases o₂ with
  | none => exact ⟨a, rfl, le_refl _⟩
  | some b =>
    refine ⟨Frac.fmin a b, rfl, ?_⟩
    rw [Frac.val_fmin]
    exact min_le_left _ _

theorem omin_some_right (o₁ o₂ : Option Frac) (b : Frac) (h : o₂ = some b) :
    ∃ m, omin o₁ o₂ = some m ∧ m.val ≤ b.val := by
  subst h
  cases o₁ with
  | none => exact ⟨b, rfl, le_refl _⟩
  | some a =>
    refine ⟨Frac.fmin a b, rfl, ?_⟩
    rw [Frac.val_fmin]
    exact min_le_right _ _

theorem ole_omin (o₁ o₂ p₁ p₂ : Option Frac) (h1 : ole o₁ p₁) (h2 : ole o₂ p₂) :
    ole (omin o₁ o₂) (omin p₁ p₂) := by
  intro m hm
  obtain ⟨hatt, hb1, hb2⟩ := omin_spec p₁ p₂ m hm
  rcases hatt with hp | hp
  · obtain ⟨a, ha, hle⟩ := h1 m hp
    obtain ⟨m', hm', hle'⟩ := omin_some_left o₁ o₂ a ha
    exact ⟨m', hm', le_trans hle' hle⟩
  · obtain ⟨b, hb, hle⟩ := h2 m hp
    obtain ⟨m', hm', hle'⟩ := omin_some_right o₁ o₂ b hb
    exact ⟨m', hm', le_trans hle' hle⟩

theorem ole_guard (c : Prop) [Decidable c] (o p : Option Frac) (h : ole o p) :
    ole (if c then o else none) (if c then p else none) := by
  by_cases hc : c
  · rw [if_pos hc, if_pos hc]
    exact h
  · rw [if_neg hc, if_neg hc]
    intro b hb
    exact Option.noConfusion hb

/-- A resolved-neighbor time dominates the corresponding finalized-only
time. -/
theorem ole_res_fin (g : Grid) (e : Option (ℕ × ℕ)) (i j : ℕ) :
    ole (resolvedTime g i j) (finTimeEx g e i j) := by
  intro b hb
  unfold finTimeEx at hb
  by_cases hc : i < g.H ∧ j < g.W ∧ g.state i j = PState.KNOWN ∧ e ≠ some (i, j)
  · rw [if_pos hc] at hb
    injection hb with hb
    refine ⟨g.time i j, ?_, by rw [hb]⟩
    unfold resolvedTime
    rw [if_pos ⟨hc.1, hc.2.1, by rw [hc.2.2.1]; exact fun hx => PState.noConfusion hx⟩]
  · rw [if_neg hc] at hb
    exact Option.noConfusion hb

theorem ole_axisV (g : Grid) (e : Option (ℕ × ℕ)) (i j : ℕ) :
    ole (axisV g i j) (axisVFin g e i j) := by
  unfold axisV axisVFin
  exact ole_omin _ _ _ _
    (ole_guard _ _ _ (ole_res_fin g e (i - 1) j)) (ole_res_fin g e (i + 1) j)

theorem ole_axisH (g : Grid) (e : Option (ℕ × ℕ)) (i j : ℕ) :
    ole (axisH g i j) (axisHFin g e i j) := by
  unfold axisH axisHFin
  exact ole_omin _ _ _ _
    (ole_guard _ _ _ (ole_res_fin g e i (j - 1))) (ole_res_fin g e i (j + 1))

/-- The full Eikonal solve is dominated by the finalized-only solve. -/
theorem solve_le_fin (g : Grid) (e : Option (ℕ × ℕ)) (i j : ℕ) (u w : Frac)
    (hu : solveEik g i j = some u) (hw : solveFin g e i j = some w) :
    u.val ≤ w.val :=
  eikCombine_mono _ _ _ _ u w (ole_axisV g e i j) (ole_axisH g e i j) hu hw

/-- The plain finalized time dominates the `c`-excluding one. -/
theorem ole_fin_exc (g : Grid) (c : ℕ × ℕ) (i j : ℕ) :
    ole (finTimeEx g none i j) (finTimeEx g (some c) i j) := by
  intro b hb
  unfold finTimeEx at hb ⊢
  by_cases hc : i < g.H ∧ j < g.W ∧ g.state i j = PState.KNOWN ∧
      (some c : Option (ℕ × ℕ)) ≠ some (i, j)
  · rw [if_pos hc] at hb
    injection hb with hb
    refine ⟨g.time i j, ?_, by rw [hb]⟩
    rw [if_pos ⟨hc.1, hc.2.1, hc.2.2.1, by intro hx; exact Option.noConfusion hx⟩]
  · rw [if_neg hc] at hb
    exact Option.noConfusion hb

theorem ole_axisVFin_exc (g : Grid) (c : ℕ × ℕ) (i j : ℕ) :
    ole (axisVFin g none i j) (axisVFin g (some c) i j) := by
  unfold axisVFin
  exact ole_omin _ _ _ _
    (ole_guard _ _ _ (ole_fin_exc g c (i - 1) j)) (ole_fin_exc g c (i + 1) j)

theorem ole_axisHFin_exc (g : Grid) (c : ℕ × ℕ) (i j : ℕ) :
    ole (axisHFin g none i j) (axisHFin g (some c) i j) := by
  unfold axisHFin
  exact ole_omin _ _ _ _
    (ole_guard _ _ _ (ole_fin_exc g c i (j - 1))) (ole_fin_exc g c i (j + 1))

/-- A bound via every plain finalized solve transfers to the
`c`-excluding finalized solve. -/
theorem fin_bound_to_exc (g : Grid) (c : ℕ × ℕ) (i j : ℕ) (X : ℚ)
    (hfull : ∀ w, solveFin g none i j = some w → X ≤ w.val) :
    ∀ w, solveFin g (some c) i j = some w → X ≤ w.val := by
  intro w hw
  cases hfn : solveFin g none i j with
  | none =>
    exfalso
    unfold solveFin at hfn hw
    obtain ⟨hv, hh⟩ := (eikCombine_none_iff _ _).1 hfn
    cases hav : axisVFin g (some c) i j with
    | some b =>
      obtain ⟨a, ha, _⟩ := ole_axisVFin_exc g c i j b hav
      rw [ha] at hv
      exact Option.noConfusion hv
    | none =>
      cases hah : axisHFin g (some c) i j with
      | some b =>
        obtain ⟨a, ha, _⟩ := ole_axisHFin_exc g c i j b hah
        rw [ha] at hh
        exact Option.noConfusion hh
      | none =>
        rw [hav, hah] at hw
        exact Option.noConfusion ((eikCombine_none_iff none none).2 ⟨rfl, rfl⟩ ▸ hw)
  | some w' =>
    have h1 := hfull w' hfn
    have h2 : w'.val ≤ w.val :=
      eikCombine_mono _ _ _ _ w' w (ole_axisVFin_exc g c i j) (ole_axisHFin_exc g c i j)
        hfn hw
    linarith

/-- Pointwise-equal finalized-time fields give equal finalized solves. -/
theorem solveFin_congr (g g' : Grid) (e : Option (ℕ × ℕ))
    (h : ∀ a b, finTimeEx g' e a b = finTimeEx g e a b) (i j : ℕ) :
    solveFin g' e i j = solveFin g e i j := by
  unfold solveFin axisVFin axisHFin
  simp only [h]

/-- `setTime` at a non-KNOWN pixel leaves the finalized times unchanged. -/
theorem finTimeEx_setTime (g : Grid) (i j : ℕ) (t : Frac) (e : Option (ℕ × ℕ))
    (hne : g.state i j ≠ PState.KNOWN) (a b : ℕ) :
    finTimeEx (setTime g i j t) e a b = finTimeEx g e a b := by
  simp only [finTimeEx, setTime]
  by_cases hc : a < g.H ∧ b < g.W ∧ g.state a b = PState.KNOWN ∧ e ≠ some (a, b)
  · rw [if_pos hc, if_pos hc]
    congr 1
    rw [if_neg]
    rintro ⟨rfl, rfl⟩
    exact hne hc.2.2.1
  · rw [if_neg hc, if_neg hc]

/-- Banding an UNKNOWN pixel leaves the finalized times unchanged. -/
theorem finTimeEx_setStateB (g : Grid) (i j : ℕ) (e : Option (ℕ × ℕ))
    (hne : g.state i j ≠ PState.KNOWN) (a b : ℕ) :
    finTimeEx (setState g i j PState.BAND) e a b = finTimeEx g e a b := by
  simp only [finTimeEx, setState]
  by_cases hab : a = i ∧ b = j
  · rw [if_neg, if_neg]
    · rintro ⟨_, _, hk, _⟩
      obtain ⟨rfl, rfl⟩ := hab
      exact hne hk
    · rintro ⟨_, _, hk, _⟩
      rw [if_pos hab] at hk
      exact PState.noConfusion hk
  · rw [if_neg hab]

theorem finTimeEx_setIntensity (g : Grid) (i j : ℕ) (v : Frac) (e : Option (ℕ × ℕ))
    (a b : ℕ) : finTimeEx (setIntensity g i j v) e a b = finTimeEx g e a b := rfl

/-- `makeBand` leaves the finalized times unchanged. -/
theorem finTimeEx_makeBand (r : ℕ) (g : Grid) (i j : ℕ) (g' : Grid)
    (hst : g.state i j = PState.UNKNOWN) (hok : makeBand r g i j = .ok g')
    (e : Option (ℕ × ℕ)) (a b : ℕ) :
    finTimeEx g' e a b = finTimeEx g e a b := by
  obtain ⟨t, v, hsol, hsyn, rfl⟩ := makeBand_ok r g i j g' hok
  rw [finTimeEx_setIntensity]
  rw [finTimeEx_setTime _ _ _ _ _ (by
    rw [setState_state, if_pos ⟨rfl, rfl⟩]
    exact fun hx => PState.noConfusion hx)]
  exact finTimeEx_setStateB g i j e (by rw [hst]; exact fun hx => PState.noConfusion hx) a b

/-- `makeBand` writes the Eikonal time at its target pixel and nothing
else. -/
theorem makeBand_time_pt (r : ℕ) (g : Grid) (i j : ℕ) (g' : Grid)
    (hok : makeBand r g i j = .ok g') :
    ∃ t, solveEik g i j = some t ∧
      ∀ a b, g'.time a b = if a = i ∧ b = j then t else g.time a b := by
  obtain ⟨t, v, hsol, hsyn, rfl⟩ := makeBand_ok r g i j g' hok
  refine ⟨t, hsol, fun a b => ?_⟩
  rw [setIntensity_time, setTime_time]
  by_cases hab : a = i ∧ b = j
  · rw [if_pos hab, if_pos hab]
  · rw [if_neg hab, if_neg hab, setState_time]

/-- Resolved time at an optional coordinate. -/
def oRes (g : Grid) : Option (ℕ × ℕ) → Option Frac
  | none => none
  | some n => resolvedTime g n.1 n.2

/-- Finalized time (excluding `c`) at an optional coordinate. -/
def oFin (g : Grid) (c : ℕ × ℕ) : Option (ℕ × ℕ) → Option Frac
  | none => none
  | some n => finTimeEx g (some c) n.1 n.2

theorem axisV_oRes (g : Grid) (i j : ℕ) :
    axisV g i j = omin (oRes g (if 1 ≤ i then some (i - 1, j) else none))
      (oRes g (some (i + 1, j))) := by
  unfold axisV
  by_cases h : 1 ≤ i
  · rw [if_pos h, if_pos h]
    rfl
  · rw [if_neg h, if_neg h]
    rfl

theorem axisH_oRes (g : Grid) (i j : ℕ) :
    axisH g i j = omin (oRes g (if 1 ≤ j then some (i, j - 1) else none))
      (oRes g (some (i, j + 1))) := by
  unfold axisH
  by_cases h : 1 ≤ j
  · rw [if_pos h, if_pos h]
    rfl
  · rw [if_neg h, if_neg h]
    rfl

theorem axisVFin_oFin (g : Grid) (c : ℕ × ℕ) (i j : ℕ) :
    axisVFin g (some c) i j = omin (oFin g c (if 1 ≤ i then some (i - 1, j) else none))
      (oFin g c (some (i + 1, j))) := by
  unfold axisVFin
  by_cases h : 1 ≤ i
  · rw [if_pos h, if_pos h]
    rfl
  · rw [if_neg h, if_neg h]
    rfl

theorem axisHFin_oFin (g : Grid) (c : ℕ × ℕ) (i j : ℕ) :
    axisHFin g (some c) i j = omin (oFin g c (if 1 ≤ j then some (i, j - 1) else none))
      (oFin g c (some (i, j + 1))) := by
  unfold axisHFin
  by_cases h : 1 ≤ j
  · rw [if_pos h, if_pos h]
    rfl
  · rw [if_neg h, if_neg h]
    rfl

theorem ole_oRes_oFin (g : Grid) (c : ℕ × ℕ) (s : Option (ℕ × ℕ)) :
    ole (oRes g s) (oFin g c s) := by
  cases s with
  | none =>
    intro b hb
    exact absurd hb (by simp [oFin])
  | some n => exact ole_res_fin g (some c) n.1 n.2

/-- A resolved slot whose value is below the just-popped time `tc` must
be a finalized pixel other than `c`, and contributes the same value to
the `c`-excluding finalized slot. -/
theorem slot_case (g : Grid) (c : ℕ × ℕ) (tc : Frac)
    (hct : g.time c.1 c.2 = tc)
    (hM1 : ∀ i j, i < g.H → j < g.W → g.state i j = PState.BAND →
      tc.val ≤ (g.time i j).val)
    (s : Option (ℕ × ℕ)) (a : Frac) (hs : oRes g s = some a) (hlt : a.val < tc.val) :
    ∃ n, s = some n ∧ n.1 < g.H ∧ n.2 < g.W ∧ g.state n.1 n.2 = PState.KNOWN ∧
      n ≠ c ∧ g.time n.1 n.2 = a ∧ oFin g c s = some a := by
  cases s with
  | none => exact absurd hs (by simp [oRes])
  | some n =>
    have hres : resolvedTime g n.1 n.2 = some a := hs
    unfold resolvedTime at hres
    by_cases hc : n.1 < g.H ∧ n.2 < g.W ∧ g.state n.1 n.2 ≠ PState.UNKNOWN
    · rw [if_pos hc] at hres
      injection hres with hres
      cases hstn : g.state n.1 n.2 with
      | UNKNOWN => exact absurd hstn hc.2.2
      | BAND =>
        have := hM1 n.1 n.2 hc.1 hc.2.1 hstn
        rw [hres] at this
        linarith
      | KNOWN =>
        have hnc : n ≠ c := by
          rintro rfl
          rw [hct] at hres
          rw [← hres] at hlt
          exact lt_irrefl _ hlt
        have hcnd : (some c : Option (ℕ × ℕ)) ≠ some (n.1, n.2) := by
          intro hx
          apply hnc
          rw [Option.some.inj hx]
        refine ⟨n, rfl, hc.1, hc.2.1, hstn, hnc, hres, ?_⟩
        show finTimeEx g (some c) n.1 n.2 = some a
        unfold finTimeEx
        rw [if_pos ⟨hc.1, hc.2.1, hstn, hcnd⟩, hres]
    · rw [if_neg hc] at hres
      exact Option.noConfusion hres

/-- Classification of an axis minimum at the moment pixel `c` (with
time `tc`) is popped: either every value it can take is `≥ tc`, or it is
attained at a finalized non-`c` neighbor and agrees (in value) with the
`c`-excluding finalized axis minimum. -/
theorem omin_class (g : Grid) (c : ℕ × ℕ) (tc : Frac)
    (hct : g.time c.1 c.2 = tc)
    (hM1 : ∀ i j, i < g.H → j < g.W → g.state i j = PState.BAND →
      tc.val ≤ (g.time i j).val)
    (s₁ s₂ : Option (ℕ × ℕ)) :
    (∀ a, omin (oRes g s₁) (oRes g s₂) = some a → tc.val ≤ a.val) ∨
    (∃ n a m, omin (oRes g s₁) (oRes g s₂) = some a ∧
      omin (oFin g c s₁) (oFin g c s₂) = some m ∧ m.val = a.val ∧ a.val < tc.val ∧
      (s₁ = some n ∨ s₂ = some n) ∧ n.1 < g.H ∧ n.2 < g.W ∧
      g.state n.1 n.2 = PState.KNOWN ∧ n ≠ c) := by
  cases hfull : omin (oRes g s₁) (oRes g s₂) with
  | none =>
    left
    intro a ha
    exact Option.noConfusion ha
  | some a =>
    by_cases hle : tc.val ≤ a.val
    · left
      intro a' ha'
      injection ha' with h
      subst h
      exact hle
    · right
      push_neg at hle
      obtain ⟨hatt, hb1, hb2⟩ := omin_spec _ _ a hfull
      have hfin : ∀ m, omin (oFin g c s₁) (oFin g c s₂) = some m → a.val ≤ m.val := by
        intro m hm
        obtain ⟨a', ha', hlee⟩ := ole_omin _ _ _ _
          (ole_oRes_oFin g c s₁) (ole_oRes_oFin g c s₂) m hm
        rw [hfull] at ha'
        injection ha' with h
        subst h
        exact hlee
      rcases hatt with h1 | h2
      · obtain ⟨n, hsn, hn1, hn2, hkn, hnc, htn, hof⟩ :=
          slot_case g c tc hct hM1 s₁ a h1 hle
        obtain ⟨m, hm, hma⟩ := omin_some_left (oFin g c s₁) (oFin g c s₂) a hof
        exact ⟨n, a, m, rfl, hm, le_antisymm hma (hfin m hm), hle, Or.inl hsn,
          hn1, hn2, hkn, hnc⟩
      · obtain ⟨n, hsn, hn1, hn2, hkn, hnc, htn, hof⟩ :=
          slot_case g c tc hct hM1 s₂ a h2 hle
        obtain ⟨m, hm, hma⟩ := omin_some_right (oFin g c s₁) (oFin g c s₂) a hof
        exact ⟨n, a, m, rfl, hm, le_antisymm hma (hfin m hm), hle, Or.inr hsn,
          hn1, hn2, hkn, hnc⟩

theorem nbr_of_slotV (H W i j : ℕ) (n : ℕ × ℕ) (hn1 : n.1 < H)
    (hs : (if 1 ≤ i then some (i - 1, j) else none) = some n ∨
      (some (i + 1, j) : Option (ℕ × ℕ)) = some n) :
    n ∈ nbrs H W i j := by
  rw [nbrs_mem]
  rcases hs with h | h
  · by_cases hg : 1 ≤ i
    · rw [if_pos hg] at h
      injection h with h
      subst h
      exact Or.inr (Or.inl ⟨hg, rfl⟩)
    · rw [if_neg hg] at h
      exact absurd h Option.noConfusion
  · injection h with h
    subst h
    exact Or.inl ⟨rfl, hn1⟩

theorem nbr_of_slotH (H W i j : ℕ) (n : ℕ × ℕ) (hn2 : n.2 < W)
    (hs : (if 1 ≤ j then some (i, j - 1) else none) = some n ∨
      (some (i, j + 1) : Option (ℕ × ℕ)) = some n) :
    n ∈ nbrs H W i j := by
  rw [nbrs_mem]
  rcases hs with h | h
  · by_cases hg : 1 ≤ j
    · rw [if_pos hg] at h
      injection h with h
      subst h
      exact Or.inr (Or.inr (Or.inr ⟨hg, rfl⟩))
    · rw [if_neg hg] at h
      exact absurd h Option.noConfusion
  · injection h with h
    subst h
    exact Or.inr (Or.inr (Or.inl ⟨rfl, hn2⟩))

theorem eikCombine_total_right (o₁ : Option Frac) (b : Frac) :
    ∃ w, eikCombine o₁ (some b) = some w := by
  cases o₁ with
  | none => exact ⟨b + 1, rfl⟩
  | some a =>
    simp only [eikCombine]
    by_cases hb : Frac.blt (Frac.abs (a - b)) 1 = true
    · exact ⟨_, by rw [if_pos hb]⟩
    · exact ⟨_, by rw [if_neg hb]⟩

/-- The central causality bound: any Eikonal value computed while
processing the neighbors of the just-popped minimal pixel `c` is at
least `c`'s time.  The target is either a freshly discovered pixel whose
only finalized neighbor is `c`, or a band pixel whose time both
dominates `tc` and is dominated by its `c`-excluding finalized solve. -/
theorem solve_lb (g : Grid) (c : ℕ × ℕ) (tc : Frac) (d1 d2 : ℕ)
    (hct : g.time c.1 c.2 = tc)
    (hM1 : ∀ i j, i < g.H → j < g.W → g.state i j = PState.BAND →
      tc.val ≤ (g.time i j).val)
    (hcase :
      (∀ n ∈ nbrs g.H g.W d1 d2, g.state n.1 n.2 = PState.KNOWN → n = c) ∨
      (tc.val ≤ (g.time d1 d2).val ∧
        ∀ w, solveFin g (some c) d1 d2 = some w → (g.time d1 d2).val ≤ w.val))
    (u : Frac) (hu : solveEik g d1 d2 = some u) : tc.val ≤ u.val := by
  have hu' : eikCombine (axisV g d1 d2) (axisH g d1 d2) = some u := hu
  have hCV := omin_class g c tc hct hM1
    (if 1 ≤ d1 then some (d1 - 1, d2) else none) (some (d1 + 1, d2))
  have hCH := omin_class g c tc hct hM1
    (if 1 ≤ d2 then some (d1, d2 - 1) else none) (some (d1, d2 + 1))
  rw [← axisV_oRes, ← axisVFin_oFin] at hCV
  rw [← axisH_oRes, ← axisHFin_oFin] at hCH
  rcases hCV with hV | ⟨nV, aV, mV, hfaV, hfiV, hmaV, hltV, hsV, hnV1, hnV2, hknV, hncV⟩
  · rcases hCH with hH | ⟨nH, aH, mH, hfaH, hfiH, hmaH, hltH, hsH, hnH1, hnH2, hknH, hncH⟩
    · exact eikCombine_lb _ _ u tc.val hV hH hu'
    · rcases hcase with hknbr | ⟨hge, hM3⟩
      · exact absurd (hknbr nH (nbr_of_slotH g.H g.W d1 d2 nH hnH2 hsH) hknH) hncH
      · obtain ⟨w, hw⟩ := eikCombine_total_right (axisVFin g (some c) d1 d2) mH
        have hw' : solveFin g (some c) d1 d2 = some w := by
          unfold solveFin
          rw [hfiH]
          exact hw
        have h1 := hM3 w hw'
        have h2 := (eikCombine_ub _ _ w hw).2 mH rfl
        have haH : tc.val - 1 ≤ aH.val := by
          rw [← hmaH]
          linarith
        cases hAv : axisV g d1 d2 with
        | none =>
          rw [hAv, hfaH] at hu'
          rw [eikCombine_right aH u hu']
          linarith
        | some x =>
          have hx := hV x hAv
          rw [hAv, hfaH] at hu'
          rw [eikCombine_val x aH u hu', fq_comm]
          exact fq_lb_mixed aH.val x.val tc.val haH hx
  · rcases hCH with hH | ⟨nH, aH, mH, hfaH, hfiH, hmaH, hltH, hsH, hnH1, hnH2, hknH, hncH⟩
    · rcases hcase with hknbr | ⟨hge, hM3⟩
      · exact absurd (hknbr nV (nbr_of_slotV g.H g.W d1 d2 nV hnV1 hsV) hknV) hncV
      · obtain ⟨w, hw⟩ := eikCombine_total_right (axisHFin g (some c) d1 d2) mV
        have hcomm : eikCombine (some mV) (axisHFin g (some c) d1 d2) = some w ∨ True := Or.inr trivial
        -- build the finalized solve with the vertical input present
        have hw2 : ∃ w2, solveFin g (some c) d1 d2 = some w2 ∧ w2.val ≤ mV.val + 1 := by
          cases hAh : axisHFin g (some c) d1 d2 with
          | none =>
            refine ⟨mV + 1, ?_, by rw [Frac.val_add, Frac.val_one]⟩
            unfold solveFin
            rw [hfiV, hAh]
            rfl
          | some y =>
            obtain ⟨w2, hw2⟩ := eikCombine_total_right (some mV) y
            refine ⟨w2, ?_, (eikCombine_ub _ _ w2 hw2).1 mV rfl⟩
            unfold solveFin
            rw [hfiV, hAh]
            exact hw2
        obtain ⟨w2, hw2', hw2b⟩ := hw2
        have h1 := hM3 w2 hw2'
        have haV : tc.val - 1 ≤ aV.val := by
          rw [← hmaV]
          linarith
        cases hAh : axisH g d1 d2 with
        | none =>
          rw [hAh, hfaV] at hu'
          rw [eikCombine_left aV u hu']
          linarith
        | some y =>
          have hy := hH y hAh
          rw [hAh, hfaV] at hu'
          rw [eikCombine_val aV y u hu']
          exact fq_lb_mixed aV.val y.val tc.val haV hy
    · rcases hcase with hknbr | ⟨hge, hM3⟩
      · exact absurd (hknbr nV (nbr_of_slotV g.H g.W d1 d2 nV hnV1 hsV) hknV) hncV
      · obtain ⟨w, hw⟩ := eikCombine_total_right (some mV) mH
        have hw' : solveFin g (some c) d1 d2 = some w := by
          unfold solveFin
          rw [hfiV, hfiH]
          exact hw
        have h1 := hM3 w hw'
        have hwv : w.val = fq mV.val mH.val := eikCombine_val mV mH w hw
        rw [hfaV, hfaH] at hu'
        have huv : u.val = fq aV.val aH.val := eikCombine_val aV aH u hu'
        rw [huv, ← hmaV, ← hmaH, ← hwv]
        linarith

theorem resolvedTime_some (g : Grid) (i j : ℕ) (a : Frac)
    (h : resolvedTime g i j = some a) :
    i < g.H ∧ j < g.W ∧ g.state i j ≠ PState.UNKNOWN ∧ g.time i j = a := by
  unfold resolvedTime at h
  by_cases hc : i < g.H ∧ j < g.W ∧ g.state i j ≠ PState.UNKNOWN
  · rw [if_pos hc] at h
    injection h with h
    exact ⟨hc.1, hc.2.1, hc.2.2, h⟩
  · rw [if_neg hc] at h
    exact absurd h Option.noConfusion

theorem omin_oRes_lb (g : Grid) (X : ℚ)
    (hT : ∀ i j, i < g.H → j < g.W → X ≤ (g.time i j).val)
    (s₁ s₂ : Option (ℕ × ℕ)) (a : Frac)
    (h : omin (oRes g s₁) (oRes g s₂) = some a) : X ≤ a.val := by
  obtain ⟨hatt, _, _⟩ := omin_spec _ _ a h
  have key : ∀ s, oRes g s = some a → X ≤ a.val := by
    intro s hs
    cases s with
    | none => exact absurd hs (by simp [oRes])
    | some n =>
      obtain ⟨h1, h2, _, h4⟩ := resolvedTime_some g n.1 n.2 a hs
      rw [← h4]
      exact hT n.1 n.2 h1 h2
  rcases hatt with h | h
  exacts [key s₁ h, key s₂ h]

/-- A uniform lower bound on all arrival times bounds any Eikonal solve
from below. -/
theorem solve_time_lb (g : Grid) (X : ℚ)
    (hT : ∀ i j, i < g.H → j < g.W → X ≤ (g.time i j).val) (i j : ℕ) (u : Frac)
    (hu : solveEik g i j = some u) : X ≤ u.val := by
  have hu' : eikCombine (axisV g i j) (axisH g i j) = some u := hu
  refine eikCombine_lb _ _ u X (fun a ha => ?_) (fun b hb => ?_) hu'
  · rw [axisV_oRes] at ha
    exact omin_oRes_lb g X hT _ _ a ha
  · rw [axisH_oRes] at hb
    exact omin_oRes_lb g X hT _ _ b hb

theorem finTimeEx_setState_ne (g : Grid) (i j : ℕ) (s : PState)
    (e : Option (ℕ × ℕ)) (a b : ℕ) (hne : ¬(a = i ∧ b = j)) :
    finTimeEx (setState g i j s) e a b = finTimeEx g e a b := by
  simp only [finTimeEx, setState]
  have hstate : (if a = i ∧ b = j then s else g.state a b) = g.state a b := if_neg hne
  rw [hstate]

/-- Finalizing `c` does not change the `c`-excluding finalized times. -/
theorem finTimeEx_setStateKc (g : Grid) (c : ℕ × ℕ) (a b : ℕ) :
    finTimeEx (setState g c.1 c.2 PState.KNOWN) (some c) a b =
      finTimeEx g (some c) a b := by
  by_cases hab : a = c.1 ∧ b = c.2
  · simp only [finTimeEx, setState]
    rw [if_neg, if_neg]
    · rintro ⟨_, _, _, hne⟩
      apply hne
      rw [hab.1, hab.2]
    · rintro ⟨_, _, _, hne⟩
      apply hne
      rw [hab.1, hab.2]
  · exact finTimeEx_setState_ne g c.1 c.2 PState.KNOWN (some c) a b hab

/-- The finalized solve reads the finalized times only at the four
neighbor slots. -/
theorem solveFin_local (g g' : Grid) (e : Option (ℕ × ℕ)) (i j : ℕ)
    (h1 : finTimeEx g' e (i - 1) j = finTimeEx g e (i - 1) j)
    (h2 : finTimeEx g' e (i + 1) j = finTimeEx g e (i + 1) j)
    (h3 : finTimeEx g' e i (j - 1) = finTimeEx g e i (j - 1))
    (h4 : finTimeEx g' e i (j + 1) = finTimeEx g e i (j + 1)) :
    solveFin g' e i j = solveFin g e i j := by
  unfold solveFin axisVFin axisHFin
  rw [h1, h2, h3, h4]

/-- The invariant carried across the marching loop: all times are
nonnegative, all band times dominate the watermark `lam`, and every
band time is dominated by its finalized-only Eikonal solve. -/
def Minv (lam : ℚ) (g : Grid) : Prop :=
  (∀ i j, i < g.H → j < g.W → 0 ≤ (g.time i j).val) ∧
  (∀ i j, i < g.H → j < g.W → g.state i j = PState.BAND →
    lam ≤ (g.time i j).val) ∧
  (∀ i j, i < g.H → j < g.W → g.state i j = PState.BAND →
    ∀ w, solveFin g none i j = some w → (g.time i j).val ≤ w.val)

/-- The invariant threaded through one `marchStep` neighbor fold:
`c` (the popped pixel) is finalized with time `tc`; times are
nonnegative; band times dominate `tc.val`; the only finalized neighbor
an UNKNOWN pixel can have is `c`; band times are dominated by their
`c`-excluding finalized solves; band pixels outside the remaining
worklist `l` are dominated by their full finalized solves. -/
def StepInv (c : ℕ × ℕ) (tc : Frac) (l : List (ℕ × ℕ)) (g : Grid) : Prop :=
  g.state c.1 c.2 = PState.KNOWN ∧ g.time c.1 c.2 = tc ∧
  (∀ i j, i < g.H → j < g.W → 0 ≤ (g.time i j).val) ∧
  (∀ i j, i < g.H → j < g.W → g.state i j = PState.BAND →
    tc.val ≤ (g.time i j).val) ∧
  (∀ i j, i < g.H → j < g.W → g.state i j = PState.UNKNOWN →
    ∀ n ∈ nbrs g.H g.W i j, g.state n.1 n.2 = PState.KNOWN → n = c) ∧
  (∀ i j, i < g.H → j < g.W → g.state i j = PState.BAND →
    ∀ w, solveFin g (some c) i j = some w → (g.time i j).val ≤ w.val) ∧
  (∀ i j, i < g.H → j < g.W → g.state i j = PState.BAND →
    ((i, j) ∈ l ∨ ∀ w, solveFin g none i j = some w → (g.time i j).val ≤ w.val))

/-- One neighbor-processing step preserves the fold invariant, moving
its target out of the worklist. -/
theorem processNbr_StepInv (r : ℕ) (c : ℕ × ℕ) (tc : Frac) (d : ℕ × ℕ)
    (l : List (ℕ × ℕ)) (g g' : Grid) (hd1 : d.1 < g.H) (hd2 : d.2 < g.W)
    (hok : processNbr r g d = .ok g')
    (hinv : StepInv c tc (d :: l) g) : StepInv c tc l g' := by
  obtain ⟨hKc, hTc, hM0, hM1, hM5, hMexc, hMl⟩ := hinv
  unfold processNbr at hok
  cases hst : g.state d.1 d.2 with
  | KNOWN =>
    rw [hst] at hok
    injection hok with hok
    subst hok
    refine ⟨hKc, hTc, hM0, hM1, hM5, hMexc, ?_⟩
    intro i j hi hj hband
    rcases hMl i j hi hj hband with hmem | hfull
    · rcases List.mem_cons.1 hmem with heq | hmem
      · exfalso
        have h1 : i = d.1 := by rw [← heq]
        have h2 : j = d.2 := by rw [← heq]
        rw [h1, h2] at hband
        exact PState.noConfusion (hband.symm.trans hst)
      · exact Or.inl hmem
    · exact Or.inr hfull
  | UNKNOWN =>
    rw [hst] at hok
    have hdc : ¬(c.1 = d.1 ∧ c.2 = d.2) := by
      rintro ⟨h1, h2⟩
      rw [← h1, ← h2, hKc] at hst
      exact PState.noConfusion hst
    have hstate := fun a b => makeBand_state_pt r g d.1 d.2 g' hok a b
    obtain ⟨t, hsol, htime⟩ := makeBand_time_pt r g d.1 d.2 g' hok
    obtain ⟨hH, hW⟩ := makeBand_HW r g d.1 d.2 g' hok
    have hfin : ∀ e a b, finTimeEx g' e a b = finTimeEx g e a b :=
      fun e a b => finTimeEx_makeBand r g d.1 d.2 g' hst hok e a b
    have hsolfin : ∀ e i j, solveFin g' e i j = solveFin g e i j :=
      fun e i j => solveFin_congr g g' e (hfin e) i j
    have ht_lb : tc.val ≤ t.val := by
      refine solve_lb g c tc d.1 d.2 hTc hM1 (Or.inl ?_) t hsol
      exact fun n hn hkn => hM5 d.1 d.2 hd1 hd2 hst n hn hkn
    have ht0 : 0 ≤ t.val := solve_time_lb g 0 hM0 d.1 d.2 t hsol
    refine ⟨?_, ?_, ?_, ?_, ?_, ?_, ?_⟩
    · rw [hstate c.1 c.2, if_neg hdc]
      exact hKc
    · rw [htime c.1 c.2, if_neg hdc]
      exact hTc
    · intro i j hi hj
      rw [htime i j]
      by_cases hij : i = d.1 ∧ j = d.2
      · rw [if_pos hij]
        exact ht0
      · rw [if_neg hij]
        exact hM0 i j (by rw [← hH]; exact hi) (by rw [← hW]; exact hj)
    · intro i j hi hj hband
      rw [htime i j]
      by_cases hij : i = d.1 ∧ j = d.2
      · rw [if_pos hij]
        exact ht_lb
      · rw [if_neg hij]
        rw [hstate i j, if_neg hij] at hband
        exact hM1 i j (by rw [← hH]; exact hi) (by rw [← hW]; exact hj) hband
    · intro i j hi hj hUnk n hn hkn
      rw [hstate i j] at hUnk
      by_cases hij : i = d.1 ∧ j = d.2
      · rw [if_pos hij] at hUnk
        exact absurd hUnk (fun hx => PState.noConfusion hx)
      · rw [if_neg hij] at hUnk
        rw [hstate n.1 n.2] at hkn
        by_cases hnd : n.1 = d.1 ∧ n.2 = d.2
        · rw [if_pos hnd] at hkn
          exact absurd hkn (fun hx => PState.noConfusion hx)
        · rw [if_neg hnd] at hkn
          refine hM5 i j (by rw [← hH]; exact hi) (by rw [← hW]; exact hj) hUnk n ?_ hkn
          rw [hH, hW] at hn
          exact hn
    · intro i j hi hj hband w hw
      rw [hsolfin (some c) i j] at hw
      rw [htime i j]
      by_cases hij : i = d.1 ∧ j = d.2
      · rw [if_pos hij]
        obtain ⟨rfl, rfl⟩ := hij
        exact solve_le_fin g (some c) d.1 d.2 t w hsol hw
      · rw [if_neg hij]
        rw [hstate i j, if_neg hij] at hband
        exact hMexc i j (by rw [← hH]; exact hi) (by rw [← hW]; exact hj) hband w hw
    · intro i j hi hj hband
      by_cases hij : i = d.1 ∧ j = d.2
      · right
        intro w hw
        rw [hsolfin none i j] at hw
        rw [htime i j, if_pos hij]
        obtain ⟨rfl, rfl⟩ := hij
        exact solve_le_fin g none d.1 d.2 t w hsol hw
      · rw [hstate i j, if_neg hij] at hband
        rcases hMl i j (by rw [← hH]; exact hi) (by rw [← hW]; exact hj) hband with
          hmem | hfull
        · rcases List.mem_cons.1 hmem with heq | hmem
          · exact absurd ⟨by rw [← heq], by rw [← heq]⟩ hij
          · exact Or.inl hmem
        · right
          intro w hw
          rw [hsolfin none i j] at hw
          rw [htime i j, if_neg hij]
          exact hfull w hw
  | BAND =>
    rw [hst] at hok
    cases hsol : solveEik g d.1 d.2 with
    | none =>
      rw [hsol] at hok
      exact Except.noConfusion hok
    | some t =>
      rw [hsol] at hok
      injection hok with hok
      have ht_lb : tc.val ≤ t.val := by
        refine solve_lb g c tc d.1 d.2 hTc hM1 (Or.inr ⟨hM1 d.1 d.2 hd1 hd2 hst,
          fun w hw => hMexc d.1 d.2 hd1 hd2 hst w hw⟩) t hsol
      have ht0 : 0 ≤ t.val := solve_time_lb g 0 hM0 d.1 d.2 t hsol
      by_cases hblt : Frac.blt t (g.time d.1 d.2) = true
      · rw [if_pos hblt] at hok
        subst hok
        have hdc : ¬(c.1 = d.1 ∧ c.2 = d.2) := by
          rintro ⟨h1, h2⟩
          rw [← h1, ← h2, hKc] at hst
          exact PState.noConfusion hst
        have hfin : ∀ e a b, finTimeEx (setTime g d.1 d.2 t) e a b = finTimeEx g e a b :=
          fun e a b => finTimeEx_setTime g d.1 d.2 t e
            (by rw [hst]; exact fun hx => PState.noConfusion hx) a b
        have hsolfin : ∀ e i j, solveFin (setTime g d.1 d.2 t) e i j = solveFin g e i j :=
          fun e i j => solveFin_congr g (setTime g d.1 d.2 t) e (hfin e) i j
        refine ⟨?_, ?_, ?_, ?_, ?_, ?_, ?_⟩
        · rw [setTime_state]
          exact hKc
        · rw [setTime_time, if_neg hdc]
          exact hTc
        · intro i j hi hj
          rw [setTime_time]
          by_cases hij : i = d.1 ∧ j = d.2
          · rw [if_pos hij]
            exact ht0
          · rw [if_neg hij]
            exact hM0 i j hi hj
        · intro i j hi hj hband
          rw [setTime_state] at hband
          rw [setTime_time]
          by_cases hij : i = d.1 ∧ j = d.2
          · rw [if_pos hij]
            exact ht_lb
          · rw [if_neg hij]
            exact hM1 i j hi hj hband
        · intro i j hi hj hUnk n hn hkn
          rw [setTime_state] at hUnk hkn
          exact hM5 i j hi hj hUnk n hn hkn
        · intro i j hi hj hband w hw
          rw [setTime_state] at hband
          rw [hsolfin (some c) i j] at hw
          rw [setTime_time]
          by_cases hij : i = d.1 ∧ j = d.2
          · rw [if_pos hij]
            obtain ⟨rfl, rfl⟩ := hij
            exact solve_le_fin g (some c) d.1 d.2 t w hsol hw
          · rw [if_neg hij]
            exact hMexc i j hi hj hband w hw
        · intro i j hi hj hband
          rw [setTime_state] at hband
          by_cases hij : i = d.1 ∧ j = d.2
          · right
            intro w hw
            rw [hsolfin none i j] at hw
            rw [setTime_time, if_pos hij]
            obtain ⟨rfl, rfl⟩ := hij
            exact solve_le_fin g none d.1 d.2 t w hsol hw
          · rcases hMl i j hi hj hband with hmem | hfull
            · rcases List.mem_cons.1 hmem with heq | hmem
              · exact absurd ⟨by rw [← heq], by rw [← heq]⟩ hij
              · exact Or.inl hmem
            · right
              intro w hw
              rw [hsolfin none i j] at hw
              rw [setTime_time, if_neg hij]
              exact hfull w hw
      · rw [if_neg hblt] at hok
        subst hok
        refine ⟨hKc, hTc, hM0, hM1, hM5, hMexc, ?_⟩
        intro i j hi hj hband
        by_cases hij : i = d.1 ∧ j = d.2
        · right
          intro w hw
          have hge : (g.time d.1 d.2).val ≤ t.val := by
            rw [Frac.blt_iff] at hblt
            push_neg at hblt
            exact hblt
          obtain ⟨rfl, rfl⟩ := hij
          exact le_trans hge (solve_le_fin g none d.1 d.2 t w hsol hw)
        · rcases hMl i j hi hj hband with hmem | hfull
          · rcases List.mem_cons.1 hmem with heq | hmem
            · exact absurd ⟨by rw [← heq], by rw [← heq]⟩ hij
            · exact Or.inl hmem
          · exact Or.inr hfull

/-- The whole neighbor fold empties the worklist while preserving the
invariant. -/
theorem foldNbrs_StepInv (r : ℕ) (c : ℕ × ℕ) (tc : Frac) :
    ∀ (l : List (ℕ × ℕ)) (g g' : Grid),
      (∀ d ∈ l, d.1 < g.H ∧ d.2 < g.W) →
      l.foldlM (processNbr r) g = .ok g' → StepInv c tc l g → StepInv c tc [] g' := by
  intro l
  induction l with
  | nil =>
    intro g g' hb h hinv
    injection h with h
    subst h
    exact hinv
  | cons d ds ih =>
    intro g g' hb h hinv
    rw [List.foldlM_cons] at h
    cases hstep : processNbr r g d with
    | error e =>
      rw [hstep] at h
      exact Except.noConfusion h
    | ok g1 =>
      rw [hstep] at h
      obtain ⟨hd1, hd2⟩ := hb d (List.mem_cons_self d ds)
      have hinv1 := processNbr_StepInv r c tc d ds g g1 hd1 hd2 hstep hinv
      obtain ⟨hH, hW⟩ := processNbr_HW r g d g1 hstep
      refine ih g1 g' ?_ h hinv1
      intro e he
      obtain ⟨h1, h2⟩ := hb e (List.mem_cons_of_mem d he)
      exact ⟨by rw [hH]; exact h1, by rw [hW]; exact h2⟩

/-- Popping the minimal band pixel and processing its neighbors raises
the watermark to the popped time while preserving the march invariant. -/
theorem marchStep_inv (r : ℕ) (g : Grid) (c : ℕ × ℕ) (lam : ℚ)
    (hinv : Minv lam g) (hNB : NoUnknownKnownNbr g) (hpop : popMin g = some c)
    (g1 : Grid) (hok : marchStep r g c.1 c.2 = .ok g1) :
    Minv (g.time c.1 c.2).val g1 ∧ lam ≤ (g.time c.1 c.2).val := by
  obtain ⟨hM0g, hM1g, hM3g⟩ := hinv
  obtain ⟨hc1, hc2, hcband, hcmin⟩ := popMin_some g c hpop
  have hlam : lam ≤ (g.time c.1 c.2).val := hM1g c.1 c.2 hc1 hc2 hcband
  have hstart : StepInv c (g.time c.1 c.2) (nbrs g.H g.W c.1 c.2)
      (setState g c.1 c.2 PState.KNOWN) := by
    refine ⟨?_, ?_, ?_, ?_, ?_, ?_, ?_⟩
    · rw [setState_state, if_pos ⟨rfl, rfl⟩]
    · rw [setState_time]
    · intro i j hi hj
      rw [setState_time]
      exact hM0g i j hi hj
    · intro i j hi hj hband
      rw [setState_state] at hband
      by_cases hij : i = c.1 ∧ j = c.2
      · rw [if_pos hij] at hband
        exact absurd hband (fun hx => PState.noConfusion hx)
      · rw [if_neg hij] at hband
        rw [setState_time]
        exact hcmin i j hi hj hband
    · intro i j hi hj hUnk n hn hkn
      rw [setState_state] at hUnk hkn
      by_cases hij : i = c.1 ∧ j = c.2
      · rw [if_pos hij] at hUnk
        exact absurd hUnk (fun hx => PState.noConfusion hx)
      · rw [if_neg hij] at hUnk
        by_cases hnc : n.1 = c.1 ∧ n.2 = c.2
        · show n = c
          have e1 : n = (n.1, n.2) := rfl
          rw [e1, hnc.1, hnc.2]
        · rw [if_neg hnc] at hkn
          exact absurd hkn (hNB i j hi hj hUnk n hn)
    · intro i j hi hj hband w hw
      rw [setState_state] at hband
      by_cases hij : i = c.1 ∧ j = c.2
      · rw [if_pos hij] at hband
        exact absurd hband (fun hx => PState.noConfusion hx)
      · rw [if_neg hij] at hband
        rw [setState_time]
        have hcongr := solveFin_congr g (setState g c.1 c.2 PState.KNOWN) (some c)
          (fun a b => finTimeEx_setStateKc g c a b) i j
        rw [hcongr] at hw
        exact fin_bound_to_exc g c i j ((g.time i j).val)
          (fun w' hw' => hM3g i j hi hj hband w' hw') w hw
    · intro i j hi hj hband
      rw [setState_state] at hband
      by_cases hij : i = c.1 ∧ j = c.2
      · rw [if_pos hij] at hband
        exact absurd hband (fun hx => PState.noConfusion hx)
      · rw [if_neg hij] at hband
        have hi' : i < g.H := hi
        have hj' : j < g.W := hj
        by_cases hmem : (i, j) ∈ nbrs g.H g.W c.1 c.2
        · exact Or.inl hmem
        · right
          intro w hw
          rw [setState_time]
          have hloc : solveFin (setState g c.1 c.2 PState.KNOWN) none i j =
              solveFin g none i j := by
            apply solveFin_local
            · apply finTimeEx_setState_ne
              rintro ⟨ha, hb2⟩
              by_cases hgi : 1 ≤ i
              · apply hmem
                rw [nbrs_mem]
                left
                constructor
                · have hieq : i = c.1 + 1 := by omega
                  rw [hieq, hb2]
                · omega
              · exact hij ⟨by omega, hb2⟩
            · apply finTimeEx_setState_ne
              rintro ⟨ha, hb2⟩
              apply hmem
              rw [nbrs_mem]
              right
              left
              refine ⟨by omega, ?_⟩
              have hieq : i = c.1 - 1 := by omega
              rw [hieq, hb2]
            · apply finTimeEx_setState_ne
              rintro ⟨ha, hb2⟩
              by_cases hgj : 1 ≤ j
              · apply hmem
                rw [nbrs_mem]
                right
                right
                left
                constructor
                · have hjeq : j = c.2 + 1 := by omega
                  rw [ha, hjeq]
                · omega
              · exact hij ⟨ha, by omega⟩
            · apply finTimeEx_setState_ne
              rintro ⟨ha, hb2⟩
              apply hmem
              rw [nbrs_mem]
              right
              right
              right
              refine ⟨by omega, ?_⟩
              have hjeq : j = c.2 - 1 := by omega
              rw [ha, hjeq]
          rw [hloc] at hw
          exact hM3g i j hi hj hband w hw
  have hfold := foldNbrs_StepInv r c (g.time c.1 c.2) (nbrs g.H g.W c.1 c.2)
    (setState g c.1 c.2 PState.KNOWN) g1
    (fun d hd => nbrs_bounds g.H g.W c.1 c.2 hc1 hc2 d hd) hok hstart
  obtain ⟨_, _, k0, k1, _, _, kl⟩ := hfold
  refine ⟨⟨k0, k1, ?_⟩, hlam⟩
  intro i j hi hj hband w hw
  rcases kl i j hi hj hband with hmem | hfull
  · exact absurd hmem (List.not_mem_nil _)
  · exact hfull w hw

/-- A finalized pixel keeps its state and time across any chain of core
steps. -/
theorem KnownAt_steps (r : ℕ) (i j : ℕ) (t : Frac) {g g' : Grid}
    (hsteps : Relation.ReflTransGen (CoreStep r) g g')
    (hP : g.state i j = PState.KNOWN ∧ g.time i j = t) :
    g'.state i j = PState.KNOWN ∧ g'.time i j = t := by
  refine invariant_steps r (fun h => h.state i j = PState.KNOWN ∧ h.time i j = t)
    ?_ ?_ ?_ hsteps hP
  · intro gm a b gm' hPm hst hokmb
    have hne : ¬(i = a ∧ j = b) := by
      rintro ⟨rfl, rfl⟩
      rw [hPm.1] at hst
      exact PState.noConfusion hst
    obtain ⟨tm, hsol, htime⟩ := makeBand_time_pt r gm a b gm' hokmb
    constructor
    · rw [makeBand_state_pt r gm a b gm' hokmb, if_neg hne]
      exact hPm.1
    · rw [htime i j, if_neg hne]
      exact hPm.2
  · intro gm a b tm hPm hst
    have hne : ¬(i = a ∧ j = b) := by
      rintro ⟨rfl, rfl⟩
      rw [hPm.1] at hst
      exact PState.noConfusion hst
    exact ⟨by rw [setTime_state]; exact hPm.1,
      by rw [setTime_time, if_neg hne]; exact hPm.2⟩
  · intro gm a b hPm hst
    have hne : ¬(i = a ∧ j = b) := by
      rintro ⟨rfl, rfl⟩
      rw [hPm.1] at hst
      exact PState.noConfusion hst
    exact ⟨by rw [setState_state, if_neg hne]; exact hPm.1,
      by rw [setState_time]; exact hPm.2⟩

/-- The popped pixel leaves `marchStep` finalized, with its time
untouched. -/
theorem marchStep_KnownAt (r : ℕ) (g : Grid) (c : ℕ × ℕ) (g1 : Grid)
    (hok : marchStep r g c.1 c.2 = .ok g1) :
    g1.state c.1 c.2 = PState.KNOWN ∧ g1.time c.1 c.2 = g.time c.1 c.2 := by
  unfold marchStep at hok
  have hsteps := foldNbrs_steps r _ _ _ hok
  refine KnownAt_steps r c.1 c.2 (g.time c.1 c.2) hsteps ⟨?_, ?_⟩
  · rw [setState_state, if_pos ⟨rfl, rfl⟩]
  · rw [setState_time]

theorem initBandStep_Minv (r : ℕ) (g g' : Grid) (d : ℕ × ℕ)
    (hok : initBandStep r g d = .ok g') (hinv : Minv 0 g) : Minv 0 g' := by
  obtain ⟨hM0, hM1, hM3⟩ := hinv
  unfold initBandStep at hok
  by_cases hc : g.state d.1 d.2 = PState.UNKNOWN ∧
      (nbrs g.H g.W d.1 d.2).any (fun n => g.state n.1 n.2 = PState.KNOWN)
  · rw [if_pos hc] at hok
    have hstate := fun a b => makeBand_state_pt r g d.1 d.2 g' hok a b
    obtain ⟨t, hsol, htime⟩ := makeBand_time_pt r g d.1 d.2 g' hok
    obtain ⟨hH, hW⟩ := makeBand_HW r g d.1 d.2 g' hok
    have hfin : ∀ e a b, finTimeEx g' e a b = finTimeEx g e a b :=
      fun e a b => finTimeEx_makeBand r g d.1 d.2 g' hc.1 hok e a b
    have hsolfin : ∀ e i j, solveFin g' e i j = solveFin g e i j :=
      fun e i j => solveFin_congr g g' e (hfin e) i j
    have ht0 : 0 ≤ t.val := solve_time_lb g 0 hM0 d.1 d.2 t hsol
    refine ⟨?_, ?_, ?_⟩
    · intro i j hi hj
      rw [htime i j]
      by_cases hij : i = d.1 ∧ j = d.2
      · rw [if_pos hij]
        exact ht0
      · rw [if_neg hij]
        exact hM0 i j (by rw [← hH]; exact hi) (by rw [← hW]; exact hj)
    · intro i j hi hj hband
      rw [htime i j]
      by_cases hij : i = d.1 ∧ j = d.2
      · rw [if_pos hij]
        exact ht0
      · rw [if_neg hij]
        rw [hstate i j, if_neg hij] at hband
        exact hM1 i j (by rw [← hH]; exact hi) (by rw [← hW]; exact hj) hband
    · intro i j hi hj hband w hw
      rw [hsolfin none i j] at hw
      rw [htime i j]
      by_cases hij : i = d.1 ∧ j = d.2
      · rw [if_pos hij]
        obtain ⟨rfl, rfl⟩ := hij
        exact solve_le_fin g none d.1 d.2 t w hsol hw
      · rw [if_neg hij]
        rw [hstate i j, if_neg hij] at hband
        exact hM3 i j (by rw [← hH]; exact hi) (by rw [← hW]; exact hj) hband w hw
  · rw [if_neg hc] at hok
    injection hok with hok
    subst hok
    exact ⟨hM0, hM1, hM3⟩

theorem initBand_Minv (r : ℕ) (g0 g1 : Grid) (hok : initBand r g0 = .ok g1)
    (hinv : Minv 0 g0) : Minv 0 g1 := by
  unfold initBand at hok
  have key : ∀ (l : List (ℕ × ℕ)) (g g' : Grid),
      l.foldlM (initBandStep r) g = .ok g' → Minv 0 g → Minv 0 g' := by
    intro l
    induction l with
    | nil =>
      intro g g' h hi
      injection h with h
      subst h
      exact hi
    | cons d ds ih =>
      intro g g' h hi
      rw [List.foldlM_cons] at h
      cases hstep : initBandStep r g d with
      | error e =>
        rw [hstep] at h
        exact Except.noConfusion h
      | ok gm =>
        rw [hstep] at h
        exact ih gm g' h (initBandStep_Minv r g gm d hstep hi)
  exact key (allCoords g0.H g0.W) g0 g1 hok hinv

theorem initGrid_Minv (H W : ℕ) (img : ℕ → ℕ → Frac) (msk : ℕ → ℕ → ℕ) :
    Minv 0 (initGrid H W img msk) := by
  refine ⟨?_, ?_, ?_⟩
  · intro i j _ _
    show (0 : ℚ) ≤ (0 : Frac).val
    rw [Frac.val_zero]
  · intro i j _ _ hband
    exfalso
    have : (if msk i j ≠ 0 then PState.UNKNOWN else PState.KNOWN) = PState.BAND := hband
    by_cases hm : msk i j ≠ 0
    · rw [if_pos hm] at this
      exact PState.noConfusion this
    · rw [if_neg hm] at this
      exact PState.noConfusion this
  · intro i j _ _ hband
    exfalso
    have : (if msk i j ≠ 0 then PState.UNKNOWN else PState.KNOWN) = PState.BAND := hband
    by_cases hm : msk i j ≠ 0
    · rw [if_pos hm] at this
      exact PState.noConfusion this
    · rw [if_neg hm] at this
      exact PState.noConfusion this

/-- The marching loop yields a non-decreasing trace of pop times above
the watermark, and every popped pixel holds its recorded time in the
final grid. -/
theorem march_mono (r : ℕ) :
    ∀ fuel (g : Grid) (acc : List (ℕ × ℕ × Frac)) (lam : ℚ) (gf : Grid)
      (pops : List (ℕ × ℕ × Frac)),
      Minv lam g → NoUnknownKnownNbr g →
      march r fuel g acc = .ok (gf, pops) →
      ∃ tail, pops = acc.reverse ++ tail ∧
        List.Chain' (fun a b : ℕ × ℕ × Frac => a.2.2.val ≤ b.2.2.val) tail ∧
        (∀ x ∈ tail, lam ≤ x.2.2.val) ∧
        (∀ x ∈ tail, gf.state x.1 x.2.1 = PState.KNOWN ∧ gf.time x.1 x.2.1 = x.2.2) := by
  intro fuel
  induction fuel with
  | zero =>
    intro g acc lam gf pops hinv hNB h
    unfold march at h
    cases hp : popMin g with
    | none =>
      rw [hp] at h
      injection h with h
      have h2 : acc.reverse = pops := congrArg Prod.snd h
      refine ⟨[], by rw [← h2, List.append_nil], List.chain'_nil,
        fun x hx => absurd hx (List.not_mem_nil x),
        fun x hx => absurd hx (List.not_mem_nil x)⟩
    | some c =>
      rw [hp] at h
      exact Except.noConfusion h
  | succ n ih =>
    intro g acc lam gf pops hinv hNB h
    unfold march at h
    cases hp : popMin g with
    | none =>
      rw [hp] at h
      injection h with h
      have h2 : acc.reverse = pops := congrArg Prod.snd h
      refine ⟨[], by rw [← h2, List.append_nil], List.chain'_nil,
        fun x hx => absurd hx (List.not_mem_nil x),
        fun x hx => absurd hx (List.not_mem_nil x)⟩
    | some c =>
      rw [hp] at h
      have h2 : (match marchStep r g c.1 c.2 with
          | Except.error e => Except.error e
          | Except.ok g' => march r n g' ((c.1, c.2, g.time c.1 c.2) :: acc)) =
          Except.ok (gf, pops) := h
      cases hms : marchStep r g c.1 c.2 with
      | error e =>
        rw [hms] at h2
        exact Except.noConfusion h2
      | ok g1 =>
        rw [hms] at h2
        obtain ⟨hinv1, hlam⟩ := marchStep_inv r g c lam hinv hNB hp g1 hms
        obtain ⟨hc1, hc2, _, _⟩ := popMin_some g c hp
        have hNB1 := NoUnknownKnownNbr_marchStep r g c.1 c.2 g1 hc1 hc2 hms hNB
        obtain ⟨tail', hpops, hchain, hbound, hfinal⟩ :=
          ih g1 ((c.1, c.2, g.time c.1 c.2) :: acc) (g.time c.1 c.2).val gf pops
            hinv1 hNB1 h2
        have hKA1 := marchStep_KnownAt r g c g1 hms
        have hsteps : Relation.ReflTransGen (CoreStep r) g1 gf :=
          march_steps r n g1 _ gf pops h2
        have hKAf := KnownAt_steps r c.1 c.2 (g.time c.1 c.2) hsteps ⟨hKA1.1, hKA1.2⟩
        refine ⟨(c.1, c.2, g.time c.1 c.2) :: tail', ?_, ?_, ?_, ?_⟩
        · rw [hpops, List.reverse_cons, List.append_assoc]
          rfl
        · rw [List.chain'_cons']
          exact ⟨fun y hy => hbound y (List.mem_of_mem_head? hy), hchain⟩
        · intro x hx
          rcases List.mem_cons.1 hx with rfl | hx
          · exact hlam
          · exact le_trans hlam (hbound x hx)
        · intro x hx
          rcases List.mem_cons.1 hx with rfl | hx
          · exact hKAf
          · exact hfinal x hx

/-- C8: during every successful run of the marching loop, the sequence
of arrival times of the pixels extracted from the narrow band is
non-decreasing (each extracted pixel's time dominates the time of every
previously extracted pixel), and a popped pixel's recorded time is
final: the output grid still holds exactly that time (and the pixel
stays KNOWN), so it is never revised after extraction. -/
theorem inpaint_fmm_pop_monotone (H W : ℕ) (img : ℕ → ℕ → Frac) (msk : ℕ → ℕ → ℕ)
    (r : ℕ) (gf : Grid) (pops : List (ℕ × ℕ × Frac))
    (hok : inpaint_fmm_core_trace H W img msk r = .ok (gf, pops)) :
    List.Pairwise (fun a b : ℕ × ℕ × Frac => a.2.2.val ≤ b.2.2.val) pops ∧
    ∀ p ∈ pops, gf.state p.1 p.2.1 = PState.KNOWN ∧ gf.time p.1 p.2.1 = p.2.2 := by
  unfold inpaint_fmm_core_trace at hok
  cases hib : initBand r (initGrid H W img msk) with
  | error e =>
    rw [hib] at hok
    exact Except.noConfusion hok
  | ok g1 =>
    rw [hib] at hok
    have hM := initBand_Minv r _ g1 hib (initGrid_Minv H W img msk)
    have hNB := initBand_NBKN r _ g1 hib
    obtain ⟨tail, hpops, hchain, _, hfinal⟩ :=
      march_mono r (H * W) g1 [] 0 gf pops hM hNB hok
    rw [List.reverse_nil, List.nil_append] at hpops
    subst hpops
    constructor
    · haveI : IsTrans (ℕ × ℕ × Frac) (fun a b => a.2.2.val ≤ b.2.2.val) :=
        ⟨fun a b c h1 h2 => le_trans h1 h2⟩
      exact List.chain'_iff_pairwise.1 hchain
    · exact hfinal

/-! ## C10: the wrapper never mutates the caller's arrays

An imperative model of lines 69–96: a heap of array objects addressed
by ids; every NumPy operation of the wrapper either allocates a fresh
array or writes to one of the freshly allocated padded arrays. -/

/-- A heap of array objects: the next fresh id and the contents. -/
structure PyHeap where
  next : ℕ
  mem : ℕ → NdArray

/-- Allocate a fresh array object (its id is the old `next`). -/
def heapAllocH (h : PyHeap) (a : NdArray) : PyHeap :=
  { next := h.next + 1, mem := fun n => if n = h.next then a else h.mem n }

/-- Overwrite the array object at `idx` in place. -/
def heapWrite (h : PyHeap) (idx : ℕ) (a : NdArray) : PyHeap :=
  { h with mem := fun n => if n = idx then a else h.mem n }

/-- Row-major flat data of an `H × W` grid function. -/
def gridData (H W : ℕ) (f : ℕ → ℕ → Frac) : List Frac :=
  (List.range H).flatMap (fun i => (List.range W).map (f i))

/-- `inpaint_fmm` as a heap transformer on the ids of the caller's
`image` and `mask` arrays.  Mirrors the source line by line: the two
parameter checks (69–73) touch nothing; line 75 rebinds `image` to
`img_as_ubyte(image)` (the same object for uint8 input, a freshly
allocated one otherwise); lines 78–79 allocate the zero-filled padded
arrays; lines 85–86 write the image and mask into their interiors;
line 88 mutates `inpainted` in place through the core (the working mask
is interior to the core's store); line 91 clips `inpainted` in place;
line 94 allocates the rounded result, which is returned. -/
def inpaint_fmm_heap (h : PyHeap) (imageId maskId : ℕ) (radius : ℤ) :
    PyHeap × Except PyErr ℕ :=
  let image := h.mem imageId
  let mask := h.mem maskId
  if image.shape ≠ mask.shape then (h, .error .shapeMismatch)
  else if radius < 1 then (h, .error .badRadius)
  else
    let h1 : PyHeap := if image.dtype = Dtype.uint8 then h else heapAllocH h (img_as_ubyte image)
    match (img_as_ubyte image).shape with
    | [rows, cols] =>
        let inpaintedId := h1.next
        let inpMaskId := h1.next + 1
        let zeros : List Frac := List.replicate ((rows + 2) * (cols + 2)) (0 : Frac)
        let h2 := heapAllocH h1 { dtype := .float64, shape := [rows + 2, cols + 2], data := zeros }
        let h3 := heapAllocH h2 { dtype := .uint8, shape := [rows + 2, cols + 2], data := zeros }
        let h4 := heapWrite h3 inpaintedId
          { dtype := .float64, shape := [rows + 2, cols + 2],
            data := gridData (rows + 2) (cols + 2)
              (padImage rows cols (arrFun (img_as_ubyte image) cols)) }
        let h5 := heapWrite h4 inpMaskId
          { dtype := .uint8, shape := [rows + 2, cols + 2],
            data := gridData (rows + 2) (cols + 2)
              (fun a b => Frac.ofInt (padMask rows cols (arrFun mask cols) a b)) }
        match inpaint_fmm_core (rows + 2) (cols + 2)
            (padImage rows cols (arrFun (img_as_ubyte image) cols))
            (padMask rows cols (arrFun mask cols)) radius.toNat with
        | .error f => (h5, .error (.internal f))
        | .ok co =>
            let h6 := heapWrite h5 inpaintedId
              { dtype := .float64, shape := [rows + 2, cols + 2],
                data := gridData (rows + 2) (cols + 2) co }
            let h7 := heapWrite h6 inpaintedId
              { dtype := .float64, shape := [rows + 2, cols + 2],
                data := gridData (rows + 2) (cols + 2) (fun a b => clip255 (co a b)) }
            let h8 := heapAllocH h7 (postProcess rows cols co)
            (h8, .ok h7.next)
    | _ => (h1, .error .unpackMismatch)

theorem heapAllocH_mem (h : PyHeap) (a : NdArray) (n : ℕ) (hn : n ≠ h.next) :
    (heapAllocH h a).mem n = h.mem n := by
  unfold heapAllocH
  simp only
  rw [if_neg hn]

theorem heapWrite_mem (h : PyHeap) (idx : ℕ) (a : NdArray) (n : ℕ) (hn : n ≠ idx) :
    (heapWrite h idx a).mem n = h.mem n := by
  unfold heapWrite
  simp only
  rw [if_neg hn]

/-- Every heap id addressed before the call is untouched by it. -/
theorem inpaint_fmm_heap_low (h : PyHeap) (imageId maskId : ℕ) (radius : ℤ)
    (n : ℕ) (hn : n < h.next) :
    ((inpaint_fmm_heap h imageId maskId radius).1).mem n = h.mem n := by
  unfold inpaint_fmm_heap
  by_cases hs : (h.mem imageId).shape ≠ (h.mem maskId).shape
  · rw [if_pos hs]
  · rw [if_neg hs]
    by_cases hr : radius < 1
    · rw [if_pos hr]
    · rw [if_neg hr]
      set h1 : PyHeap := if (h.mem imageId).dtype = Dtype.uint8 then h
        else heapAllocH h (img_as_ubyte (h.mem imageId)) with hh1
      have hnext1 : h.next ≤ h1.next := by
        rw [hh1]
        by_cases hd : (h.mem imageId).dtype = Dtype.uint8
        · rw [if_pos hd]
        · rw [if_neg hd]
          unfold heapAllocH
          simp only
          omega
      have hmem1 : h1.mem n = h.mem n := by
        rw [hh1]
        by_cases hd : (h.mem imageId).dtype = Dtype.uint8
        · rw [if_pos hd]
        · rw [if_neg hd]
          exact heapAllocH_mem h _ n (by omega)
      dsimp only [heapAllocH, heapWrite]
      split
      · split
        · dsimp only
          split_ifs <;> first | omega | exact hmem1
        · dsimp only
          split_ifs <;> first | omega | exact hmem1
      · exact hmem1

/-- C10: `inpaint_fmm` never mutates the caller's image or mask arrays:
after the call (on any path, error or success) the argument array
objects hold exactly their original contents; all mutation targets
freshly allocated arrays. -/
theorem inpaint_fmm_no_mutation (h : PyHeap) (imageId maskId : ℕ) (radius : ℤ)
    (hid1 : imageId < h.next) (hid2 : maskId < h.next) :
    ((inpaint_fmm_heap h imageId maskId radius).1).mem imageId = h.mem imageId ∧
    ((inpaint_fmm_heap h imageId maskId radius).1).mem maskId = h.mem maskId :=
  ⟨inpaint_fmm_heap_low h imageId maskId radius imageId hid1,
   inpaint_fmm_heap_low h imageId maskId radius maskId hid2⟩

/-! ## Concrete witnesses -/

/-- A concrete 1×1 all-false boolean mask. -/
def exMaskF1 : NdArray := { dtype := .boolean, shape := [1, 1], data := [Frac.ofInt 0] }

/-- A concrete 1×1 float64 image with the single value 1/2. -/
def exImageF1 : NdArray := { dtype := .float64, shape := [1, 1], data := [⟨1, 2, by norm_num⟩] }

/-- A concrete 1-D (not 2-D) uint8 image and matching 1-D mask. -/
def exImage1d : NdArray := { dtype := .uint8, shape := [1], data := [Frac.ofInt 7] }

def exMask1d : NdArray := { dtype := .boolean, shape := [1], data := [Frac.ofInt 0] }

/-- Concrete expected outputs of `inpaint_fmm` on the example inputs. -/
def exOut0 : NdArray := { dtype := .uint8, shape := [1, 1], data := [Frac.ofInt 0] }

def exOut5 : NdArray := { dtype := .uint8, shape := [1, 1], data := [Frac.ofInt 5] }

def exOut128 : NdArray := { dtype := .uint8, shape := [1, 1], data := [Frac.ofInt 128] }

/-- Witness for C1 at a concrete 1×1 input with an all-false mask. -/
theorem inpaint_fmm_unmasked_pixels_witness :
    inpaint_fmm exImage1 exMaskF1 5 = .ok exOut5 ∧
    ((∀ i j, i < 1 → j < 1 → arrFun exMaskF1 1 i j = 0 →
      exOut5.data.getD (i * 1 + j) 0 = arrFun (img_as_ubyte exImage1) 1 i j) ∧
    ((∀ v ∈ exMaskF1.data, v = 0) → exOut5.data = (img_as_ubyte exImage1).data)) :=
  ⟨by decide,
   inpaint_fmm_unmasked_pixels exImage1 exMaskF1 5 1 1 (by decide) (by decide) (by decide)
     exOut5 (by decide)⟩

/-- Witness for C3 at a concrete 1×1 input. -/
theorem inpaint_fmm_padded_grid_witness :
    exImage1.shape = exMaskF1.shape ∧
    ((inpaint_fmm exImage1 exMaskF1 5 =
      ((inpaint_fmm_core (1 + 2) (1 + 2)
          (padImage 1 1 (arrFun (img_as_ubyte exImage1) 1))
          (padMask 1 1 (arrFun exMaskF1 1)) (5 : ℤ).toNat).map
        (postProcess 1 1)).mapError PyErr.internal) ∧
    (∀ i j, i < 1 → j < 1 →
      padImage 1 1 (arrFun (img_as_ubyte exImage1) 1) (i + 1) (j + 1) =
        arrFun (img_as_ubyte exImage1) 1 i j ∧
      padMask 1 1 (arrFun exMaskF1 1) (i + 1) (j + 1) =
        maskCast (arrFun exMaskF1 1 i j)) ∧
    (∀ i j, (i = 0 ∨ i = 1 + 1 ∨ j = 0 ∨ j = 1 + 1) →
      padMask 1 1 (arrFun exMaskF1 1) i j = 0)) :=
  ⟨by decide,
   inpaint_fmm_padded_grid exImage1 exMaskF1 5 1 1 (by decide) (by decide) (by decide)⟩

/-- Witness for C4 at a concrete fully-masked 1×1 input. -/
theorem inpaint_fmm_output_shape_range_witness :
    inpaint_fmm exImage1 exMaskAll1 5 = .ok exOut0 ∧
    (exOut0.shape = [1, 1] ∧ exOut0.data.length = 1 * 1 ∧
     (∀ v ∈ exOut0.data, ∃ n : ℕ, n ≤ 255 ∧ v = Frac.ofInt n) ∧
     ∃ co, inpaint_fmm_core (1 + 2) (1 + 2)
        (padImage 1 1 (arrFun (img_as_ubyte exImage1) 1))
        (padMask 1 1 (arrFun exMaskAll1 1)) (5 : ℤ).toNat = .ok co ∧
      exOut0 = postProcess 1 1 co) :=
  ⟨by decide,
   inpaint_fmm_output_shape_range exImage1 exMaskAll1 5 1 1 (by decide) exOut0 (by decide)⟩

/-- Witness for the amended C5 at a concrete all-true 1×1 mask. -/
theorem inpaint_fmm_full_mask_no_reject_witness :
    (∀ v ∈ exMaskAll1.data, v = Frac.ofInt 1) ∧
    (inpaint_fmm exImage1 exMaskAll1 5 ≠ .error .shapeMismatch ∧
     inpaint_fmm exImage1 exMaskAll1 5 ≠ .error .badRadius ∧
     inpaint_fmm exImage1 exMaskAll1 5 ≠ .error .unpackMismatch) :=
  ⟨by decide,
   inpaint_fmm_full_mask_no_reject exImage1 exMaskAll1 5 1 1 (by decide) (by decide)
     (by decide) (by decide)⟩

/-- Witness for C6 at a concrete 1-D input. -/
theorem inpaint_fmm_non2d_error_witness :
    (exImage1d.shape.length ≠ 2 ∨ exMask1d.shape.length ≠ 2) ∧
    (inpaint_fmm exImage1d exMask1d 5 = .error .shapeMismatch ∨
     inpaint_fmm exImage1d exMask1d 5 = .error .badRadius ∨
     inpaint_fmm exImage1d exMask1d 5 = .error .unpackMismatch) :=
  ⟨by decide, inpaint_fmm_non2d_error exImage1d exMask1d 5 (by decide)⟩

/-- Witness for C7 at a concrete fully-masked 1×1 input. -/
theorem inpaint_fmm_synth_bounded_witness :
    inpaint_fmm exImage1 exMaskAll1 5 = .ok exOut0 ∧
    (∀ i j, i < 1 → j < 1 → maskCast (arrFun exMaskAll1 1 i j) ≠ 0 →
      (knownMin (1 + 2) (1 + 2) (padImage 1 1 (arrFun (img_as_ubyte exImage1) 1))
          (padMask 1 1 (arrFun exMaskAll1 1))).val ≤ (exOut0.data.getD (i * 1 + j) 0).val ∧
      (exOut0.data.getD (i * 1 + j) 0).val ≤
        (knownMax (1 + 2) (1 + 2) (padImage 1 1 (arrFun (img_as_ubyte exImage1) 1))
          (padMask 1 1 (arrFun exMaskAll1 1))).val) :=
  ⟨by decide, inpaint_fmm_synth_bounded exImage1 exMaskAll1 5 1 1 (by decide) (by decide)
    exOut0 (by decide)⟩

/-- A concrete two-object heap: id 0 holds the image, id 1 the mask. -/
def exHeap : PyHeap :=
  { next := 2, mem := fun n => if n = 0 then exImage1 else if n = 1 then exMaskAll1 else exImage1 }

/-- Witness for C10: calling the heap model on a concrete two-object heap
leaves both caller arrays untouched. -/
theorem inpaint_fmm_no_mutation_witness :
    0 < exHeap.next ∧ 1 < exHeap.next ∧
    ((inpaint_fmm_heap exHeap 0 1 5).1).mem 0 = exHeap.mem 0 ∧
    ((inpaint_fmm_heap exHeap 0 1 5).1).mem 1 = exHeap.mem 1 :=
  ⟨by decide, by decide,
   (inpaint_fmm_no_mutation exHeap 0 1 5 (by decide) (by decide)).1,
   (inpaint_fmm_no_mutation exHeap 0 1 5 (by decide) (by decide)).2⟩

/-- The padded working image of the 1×1 masked run. -/
def exCoreImg : ℕ → ℕ → Frac := padImage 1 1 (arrFun (img_as_ubyte exImage1) 1)

/-- The padded working mask of the 1×1 masked run. -/
def exCoreMsk : ℕ → ℕ → ℕ := padMask 1 1 (arrFun exMaskAll1 1)

/-- The final grid of the 1×1 masked run. -/
def exGf : Grid :=
  match inpaint_fmm_core_trace 3 3 exCoreImg exCoreMsk 5 with
  | .ok p => p.1
  | .error _ => initGrid 3 3 exCoreImg exCoreMsk

/-- The pop trace of the 1×1 masked run: one pop at the center, at the
Newton approximation of `1/sqrt 2`. -/
def exPops : List (ℕ × ℕ × Frac) := [(1, 1, ⟨170459392, 241065984, by norm_num⟩)]

/-- Witness for C8: the concrete 3×3 padded run pops exactly one pixel;
its trace is non-decreasing and its recorded time is final. -/
theorem inpaint_fmm_pop_monotone_witness :
    inpaint_fmm_core_trace 3 3 exCoreImg exCoreMsk 5 = .ok (exGf, exPops) ∧
    List.Pairwise (fun a b : ℕ × ℕ × Frac => a.2.2.val ≤ b.2.2.val) exPops ∧
    (∀ p ∈ exPops, exGf.state p.1 p.2.1 = PState.KNOWN ∧
      exGf.time p.1 p.2.1 = p.2.2) := by
  have hok : inpaint_fmm_core_trace 3 3 exCoreImg exCoreMsk 5 = .ok (exGf, exPops) := by
    rfl
  exact ⟨hok, (inpaint_fmm_pop_monotone 3 3 exCoreImg exCoreMsk 5 exGf exPops hok).1,
    (inpaint_fmm_pop_monotone 3 3 exCoreImg exCoreMsk 5 exGf exPops hok).2⟩

/-- Witness for C9 at a concrete 1×1 float input (value 1/2, unmasked;
`np.round(255/2) = 128`). -/
theorem inpaint_fmm_float_input_witness :
    inpaint_fmm exImageF1 exMaskF1 5 = .ok exOut128 ∧
    (exOut128.dtype = Dtype.uint8 ∧
     ∀ i j, i < 1 → j < 1 → arrFun exMaskF1 1 i j = 0 →
      exOut128.data.getD (i * 1 + j) 0 =
        Frac.ofInt (nround (Frac.ofInt 255 * exImageF1.data.getD (i * 1 + j) 0))) :=
  ⟨by decide,
   inpaint_fmm_float_input exImageF1 exMaskF1 5 1 1 (by decide) (by decide) (by decide)
     (by decide) exOut128 (by decide)⟩

end Inpaint
